import Mathlib

/-!
# Set-associative LRU cache simulator

Shallow embedding of five snapshots of the `Cache` class.

* `Cache183924` embeds `src/.history/Cache_20240216183924.cpp`, the snapshot
  that stores a tag and a recency counter in every line.
* `Cache205421` embeds `src/.history/Cache_20240216205421.cpp`, the latest
  snapshot, which stores a valid bit and a counter but no tag.
* `Cache165323` embeds `src/.history/Cache_20240216165323.cpp`, which is the
  tag-less cache with the counters `hits` and `accesses` and `getHitRate`.
* `Cache193816` embeds the constructor of
  `src/.history/Cache_20240216193816.cpp`, the snapshot with one `deque` of way
  numbers per set.
* `Cache193039` embeds `src/.history/Cache_20240216193039.cpp`, the snapshot
  with one flat `vector` of blocks, whose `access` contains a `throw`.

Conventions of the embedding.

* C++ `unsigned int` values are natural numbers and every `unsigned int`
  operation that can exceed 32 bits is reduced with `% 2 ^ 32`; `unsigned long`
  counters of hits and accesses are reduced with `% 2 ^ 64`.
* The `unsigned long` recency counter of a line is a natural number: it grows by
  at most one per call of `access` (`Cache183924.counter_le_length`), so it cannot
  wrap in fewer than `2 ^ 64` calls.
* An integer division or remainder by zero is undefined behaviour in C++; the
  embedded operation returns `none` there. In the snapshots with an `int` address
  a set index outside the vectors returns `none` as well.
* `vector` indexing is `List.getD` / `List.set`.
* A `double` hit rate is a `DoubleValue`: a finite quotient, an infinity or the
  not-a-number `0.0 / 0`.
-/

namespace Cache183924

/-- A cache line (`struct CacheBlock`, lines 10-15). -/
structure CacheBlock where
  valid : Bool
  tag : Nat
  lruCounter : Nat
deriving DecidableEq, Repr

/-- The fields of `class Cache` (lines 17-24). The map `lruCounters` is kept as an
association list; the class only ever writes to it. -/
structure Cache where
  cache : List (List CacheBlock)
  lruCounters : List (Nat × Nat)
  setSize : Nat
  associativity : Nat
  blockSize : Nat
  cacheSize : Nat
  totalAccesses : Nat
  hitCount : Nat
deriving DecidableEq, Repr

/-- Reduction of an `unsigned int` result to 32 bits. -/
def u32 (n : Nat) : Nat := n % 2 ^ 32

/-- The line `row[i]` of one set. -/
def lineAt (row : List CacheBlock) (i : Nat) : CacheBlock :=
  row.getD i ⟨false, 0, 0⟩

/-- The set `cache[index]`. -/
def rowAt (c : Cache) (index : Nat) : List CacheBlock :=
  c.cache.getD index []

/-- The assignment `m[k] = v` on the `unordered_map`. -/
def mapAssign (m : List (Nat × Nat)) (k v : Nat) : List (Nat × Nat) :=
  (k, v) :: m.filter (fun p => decide (p.1 ≠ k))

/-- The constructor `Cache(setSize, associativity, blockSize)` (lines 27-40). -/
def Cache.new (setSize associativity blockSize : Nat) : Cache :=
  { cache := List.replicate setSize (List.replicate associativity ⟨false, 0, 0⟩)
    lruCounters := []
    setSize := setSize
    associativity := associativity
    blockSize := blockSize
    cacheSize := u32 (u32 (setSize * associativity) * blockSize)
    totalAccesses := 0
    hitCount := 0 }

/-- The hit-search loop of `access` (lines 50-59) on one set: `n` iterations are
left and the loop variable is `i`; the result is the way that hits, if any. -/
def accessLoop (row : List CacheBlock) (tag : Nat) : Nat → Nat → Option Nat
  | 0, _ => none
  | n + 1, i =>
    if (lineAt row i).valid && decide ((lineAt row i).tag = tag) then some i
    else accessLoop row tag n (i + 1)

/-- The loop of `updateLRUCounters` (lines 71-85) on the lines of one set: `n`
iterations are left and the loop variable is `i`. -/
def updateLRUCountersLoop (accessedBlock : Nat) : Nat → Nat → List CacheBlock → List CacheBlock
  | 0, _, row => row
  | n + 1, i, row =>
    updateLRUCountersLoop accessedBlock n (i + 1)
      (if (lineAt row i).valid then
        row.set i { lineAt row i with
          lruCounter := if i = accessedBlock then 0 else (lineAt row i).lruCounter + 1 }
      else row)

/-- The writes `lruCounters[tag] = lruCounter` of line 83, for the ways `i`, `i+1`, ...
of the updated set; iteration `i` of the source loop writes the counter it has
just given to line `i`, which no later iteration changes. -/
def recordLRUCounters (row : List CacheBlock) : Nat → Nat → List (Nat × Nat) → List (Nat × Nat)
  | 0, _, m => m
  | n + 1, i, m =>
    recordLRUCounters row n (i + 1)
      (if (lineAt row i).valid then mapAssign m (lineAt row i).tag (lineAt row i).lruCounter
      else m)

/-- The method `updateLRUCounters(index, accessedBlock)` (lines 69-86). -/
def updateLRUCounters (c : Cache) (index accessedBlock : Nat) : Cache :=
  { c with
    cache := c.cache.set index
      (updateLRUCountersLoop accessedBlock c.associativity 0 (rowAt c index))
    lruCounters := recordLRUCounters
      (updateLRUCountersLoop accessedBlock c.associativity 0 (rowAt c index))
      c.associativity 0 c.lruCounters }

/-- The loop of `findLRUBlockIndex` (lines 93-105) on one set, with the locals
`lruIndex` and `maxLRUCounter`. -/
def findLRUBlockIndexLoop (row : List CacheBlock) : Nat → Nat → Nat → Nat → Nat
  | 0, _, lruIndex, _ => lruIndex
  | n + 1, i, lruIndex, maxLRUCounter =>
    if !(lineAt row i).valid then i
    else if (lineAt row i).lruCounter > maxLRUCounter then
      findLRUBlockIndexLoop row n (i + 1) i (lineAt row i).lruCounter
    else findLRUBlockIndexLoop row n (i + 1) lruIndex maxLRUCounter

/-- The method `findLRUBlockIndex(index)` (lines 88-108). -/
def findLRUBlockIndex (c : Cache) (index : Nat) : Nat :=
  findLRUBlockIndexLoop (rowAt c index) c.associativity 0 0 0

/-- The set index computed at line 46, `(address / blockSize) % setSize`. -/
def indexOf (c : Cache) (address : Nat) : Nat :=
  (address / c.blockSize) % c.setSize

/-- The divisor of line 47: `blockSize * setSize` is an `unsigned int` product. -/
def tagDivisor (c : Cache) : Nat :=
  u32 (c.blockSize * c.setSize)

/-- The tag computed at line 47, `address / (blockSize * setSize)`. -/
def tagOf (c : Cache) (address : Nat) : Nat :=
  address / tagDivisor c

/-- The method `access(address)` (lines 42-67): `none` when line 46 or 47 divides by
zero, otherwise the returned flag and the state after the call. -/
def access (c : Cache) (address : Nat) : Option (Bool × Cache) :=
  if c.blockSize = 0 ∨ c.setSize = 0 ∨ tagDivisor c = 0 then none
  else
    let c1 : Cache := { c with totalAccesses := u32 (c.totalAccesses + 1) }
    let index := indexOf c1 address
    let tag := tagOf c1 address
    match accessLoop (rowAt c1 index) tag c1.associativity 0 with
    | some i =>
      let c2 := updateLRUCounters c1 index i
      some (true, { c2 with hitCount := u32 (c2.hitCount + 1) })
    | none =>
      let replaceIndex := findLRUBlockIndex c1 index
      let c2 : Cache := { c1 with
        cache := c1.cache.set index ((rowAt c1 index).set replaceIndex ⟨true, tag, 0⟩) }
      some (false, updateLRUCounters c2 index replaceIndex)

/-- Feeding a sequence of addresses to `access`, as the read loop of `main` does
(lines 151-158): the flags returned, in order, and the final state. -/
def accessAll (c : Cache) : List Nat → Option (List Bool × Cache)
  | [] => some ([], c)
  | a :: rest =>
    match access c a with
    | none => none
    | some (hit, c1) =>
      match accessAll c1 rest with
      | none => none
      | some (hits, c2) => some (hit :: hits, c2)

/-- The flags returned when the addresses are fed to a cache. -/
def results (c : Cache) (addresses : List Nat) : Option (List Bool) :=
  (accessAll c addresses).map Prod.fst

/-- States that a sequence of `access` calls reaches from a freshly constructed cache. -/
inductive Reachable : Cache → Prop
  | fresh (setSize associativity blockSize : Nat) :
      Reachable (Cache.new setSize associativity blockSize)
  | step {c c1 : Cache} {address : Nat} {hit : Bool} :
      Reachable c → access c address = some (hit, c1) → Reachable c1

/-- Reference model, following the specification: the distinct blocks of a history
listed most recent first, each block at the place of its latest access. -/
def recentDistinct : List Nat → List Nat
  | [] => []
  | b :: older => b :: (recentDistinct older).filter (fun x => decide (x ≠ b))

/-- Reference model, following the specification: the blocks (`address div blockSize`)
of the earlier accesses that map to set `setIndex` (`block mod setSize`), most
recent first. -/
def earlierBlocks (setSize blockSize setIndex : Nat) (earlier : List Nat) : List Nat :=
  ((earlier.map (fun a => a / blockSize)).filter
    (fun b => decide (b % setSize = setIndex))).reverse

/-- Reference model, following the specification: an access hits exactly when its
block is among the `N` most recently accessed distinct blocks of its set. -/
def specHit (setSize N blockSize : Nat) (earlier : List Nat) (address : Nat) : Bool :=
  decide (address / blockSize ∈
    (recentDistinct
      (earlierBlocks setSize blockSize ((address / blockSize) % setSize) earlier)).take N)

/-- Reference model, following the specification: the flags of a whole sequence, the
accesses before the current one given oldest first. -/
def specResultsFrom (setSize N blockSize : Nat) : List Nat → List Nat → List Bool
  | _, [] => []
  | earlier, a :: rest =>
    specHit setSize N blockSize earlier a ::
      specResultsFrom setSize N blockSize (earlier ++ [a]) rest

/-- Reference model, following the specification: the flags a strict-LRU cache
returns for an address sequence, starting empty. -/
def specResults (setSize N blockSize : Nat) (addresses : List Nat) : List Bool :=
  specResultsFrom setSize N blockSize [] addresses

/-- The effect of `access` on the lines of the selected set, for the tag of the
address: the returned flag and the lines after the call (lines 49-66). -/
def accessRow (associativity : Nat) (row : List CacheBlock) (tag : Nat) :
    Bool × List CacheBlock :=
  match accessLoop row tag associativity 0 with
  | some i => (true, updateLRUCountersLoop i associativity 0 row)
  | none =>
    (false,
      updateLRUCountersLoop (findLRUBlockIndexLoop row associativity 0 0 0) associativity 0
        (row.set (findLRUBlockIndexLoop row associativity 0 0 0) ⟨true, tag, 0⟩))

/-- Reference model: one touch of a strict-LRU recency list of capacity `N`, most
recently used first: the touched key moves (or is pushed) to the front and the
list is cut to `N` entries. -/
def lruTouch (N : Nat) (mru : List Nat) (t : Nat) : List Nat :=
  (t :: mru.erase t).take N

/-- The tags held by the given ways of a set, in the order of the ways. -/
def tagsOf (row : List CacheBlock) (ways : List Nat) : List Nat :=
  ways.map (fun i => (lineAt row i).tag)

/-- Invariant of one set of an `N`-way cache; `ways` lists its valid ways, most
recently used first. The valid ways are the first `ways.length` slots, their
counters increase strictly along `ways` and their tags are pairwise distinct. -/
structure RowInv (N : Nat) (row : List CacheBlock) (ways : List Nat) : Prop where
  length_eq : row.length = N
  nodup : ways.Nodup
  mem_iff : ∀ i, i ∈ ways ↔ i < ways.length
  length_le : ways.length ≤ N
  valid_iff : ∀ i, i < N → ((lineAt row i).valid = true ↔ i < ways.length)
  counters : ways.Pairwise
    (fun i j => (lineAt row i).lruCounter < (lineAt row j).lruCounter)
  tags_nodup : (tagsOf row ways).Nodup

/-- Reference model: the recency lists of all sets after set `index` is touched
with key `t`; `m s` is the list of set `s`. -/
def lruAccess (N : Nat) (m : Nat → List Nat) (index t : Nat) : Nat → List Nat :=
  fun s => if s = index then lruTouch N (m s) t else m s

/-- Reference model: the flags of a strict-LRU cache of `N` ways per set fed a
sequence of addresses, where `key a` gives the set and the key of address `a`. -/
def lruResults (N : Nat) (key : Nat → Nat × Nat) : (Nat → List Nat) → List Nat → List Bool
  | _, [] => []
  | m, a :: rest =>
    decide ((key a).2 ∈ m (key a).1) ::
      lruResults N key (lruAccess N m (key a).1 (key a).2) rest

/-- Reference model: the recency lists of all sets after a sequence of addresses. -/
def lruStates (N : Nat) (key : Nat → Nat × Nat) : (Nat → List Nat) → List Nat → Nat → List Nat
  | m, [] => m
  | m, a :: rest => lruStates N key (lruAccess N m (key a).1 (key a).2) rest

/-- Invariant of the whole cache: there are `setSize` sets and set `s` satisfies
`RowInv` with the tags of `m s` in its recency order. -/
structure CacheInv (c : Cache) (m : Nat → List Nat) : Prop where
  length_eq : c.cache.length = c.setSize
  rows : ∀ s, s < c.setSize →
    ∃ ways, RowInv c.associativity (rowAt c s) ways ∧ tagsOf (rowAt c s) ways = m s

/-- Reference model: the recency lists of tags (`block div setSize`) of all sets
after the earlier accesses, as the specification describes them. -/
def specState (setSize N blockSize : Nat) (earlier : List Nat) : Nat → List Nat :=
  fun s =>
    ((recentDistinct (earlierBlocks setSize blockSize s earlier)).take N).map
      (fun x => x / setSize)

/-- The state of `Cache(2, 2, 4)` after the single call `access(0)`. -/
def afterAccessZero : Cache :=
  { cache := [[⟨true, 0, 0⟩, ⟨false, 0, 0⟩], [⟨false, 0, 0⟩, ⟨false, 0, 0⟩]]
    lruCounters := [(0, 0)]
    setSize := 2
    associativity := 2
    blockSize := 4
    cacheSize := 16
    totalAccesses := 1
    hitCount := 0 }

end Cache183924

namespace Cache205421

/-- The fields of `class Cache` (lines 13-18); all four parameters are `int`. -/
structure Cache where
  size : Int
  associativity : Int
  block_size : Int
  sets : Int
  valid : List (List Bool)
  lru_counter : List (List Int)
deriving DecidableEq, Repr

/-- The entry `valid[set_index][i]`. -/
def validAt (c : Cache) (set_index i : Nat) : Bool :=
  (c.valid.getD set_index []).getD i false

/-- The entry `lru_counter[set_index][i]`. -/
def counterAt (c : Cache) (set_index i : Nat) : Int :=
  (c.lru_counter.getD set_index []).getD i 0

/-- The constructor `Cache(size, associativity, block_size)` (lines 21-29): `none`
when line 24 divides by zero or overflows `int` (undefined behaviour), or when a
`vector` is asked for a negative number of entries (`assign` throws). The quotient
of two `int` truncates towards zero. -/
def Cache.new (size associativity block_size : Int) : Option Cache :=
  if associativity * block_size = 0 then none
  else if associativity * block_size < -(2 ^ 31) ∨ 2 ^ 31 ≤ associativity * block_size then none
  else if size = -(2 ^ 31) ∧ associativity * block_size = -1 then none
  else if Int.tdiv size (associativity * block_size) < 0 ∨ associativity < 0 then none
  else
    some
      { size := size
        associativity := associativity
        block_size := block_size
        sets := Int.tdiv size (associativity * block_size)
        valid := List.replicate (Int.tdiv size (associativity * block_size)).toNat
          (List.replicate associativity.toNat false)
        lru_counter := List.replicate (Int.tdiv size (associativity * block_size)).toNat
          (List.replicate associativity.toNat 0) }

/-- The hit-search loop of `access` (lines 38-46) on set `s`. -/
def accessLoop (c : Cache) (s : Nat) : Nat → Nat → Option Nat
  | 0, _ => none
  | n + 1, i =>
    if validAt c s i && decide (counterAt c s i = 0) then some i
    else accessLoop c s n (i + 1)

/-- The loop of `updateLRU` (lines 66-72) on the counters of one set. -/
def updateLRULoop (validRow : List Bool) (used_index : Nat) :
    Nat → Nat → List Int → List Int
  | 0, _, counters => counters
  | n + 1, i, counters =>
    updateLRULoop validRow used_index n (i + 1)
      (if validRow.getD i false && decide (i ≠ used_index) then
        counters.set i (counters.getD i 0 + 1)
      else counters)

/-- The method `updateLRU(set_index, used_index)` (lines 63-74). -/
def updateLRU (c : Cache) (set_index used_index : Nat) : Cache :=
  { c with
    lru_counter := c.lru_counter.set set_index
      ((updateLRULoop (c.valid.getD set_index []) used_index c.associativity.toNat 0
        (c.lru_counter.getD set_index [])).set used_index 0) }

/-- The loop of `findLRUVictim` (lines 82-95) with the locals `max_lru` and
`victim_index`. -/
def findLRUVictimLoop (c : Cache) (s : Nat) : Nat → Nat → Int → Nat → Nat
  | 0, _, _, victim_index => victim_index
  | n + 1, i, max_lru, victim_index =>
    if !validAt c s i then i
    else if counterAt c s i > max_lru then
      findLRUVictimLoop c s n (i + 1) (counterAt c s i) i
    else findLRUVictimLoop c s n (i + 1) max_lru victim_index

/-- The method `findLRUVictim(set_index)` (lines 76-98). -/
def findLRUVictim (c : Cache) (set_index : Nat) : Nat :=
  findLRUVictimLoop c set_index c.associativity.toNat 0 (-1) 0

/-- The method `access(address)` (lines 31-53) on an `int` address: `none` when
line 34 or 35 divides by zero or overflows `int`, or when the set index is not a
valid index of `valid` (all undefined behaviour). Quotient and remainder of two
`int` truncate towards zero. -/
def access (c : Cache) (address : Int) : Option (Bool × Cache) :=
  if c.block_size = 0 ∨ c.sets = 0 then none
  else if address = -(2 ^ 31) ∧ c.block_size = -1 then none
  else if Int.tdiv address c.block_size = -(2 ^ 31) ∧ c.sets = -1 then none
  else if Int.tmod (Int.tdiv address c.block_size) c.sets < 0
      ∨ c.sets ≤ Int.tmod (Int.tdiv address c.block_size) c.sets then none
  else
    let set_index := (Int.tmod (Int.tdiv address c.block_size) c.sets).toNat
    match accessLoop c set_index c.associativity.toNat 0 with
    | some i => some (true, updateLRU c set_index i)
    | none =>
      let victim_index := findLRUVictim c set_index
      let c1 : Cache := { c with
        valid := c.valid.set set_index ((c.valid.getD set_index []).set victim_index true) }
      some (false, updateLRU c1 set_index victim_index)

/-- The method `resetCacheState()` (lines 55-60). -/
def resetCacheState (c : Cache) : Cache :=
  { c with
    valid := List.replicate c.sets.toNat (List.replicate c.associativity.toNat false)
    lru_counter := List.replicate c.sets.toNat (List.replicate c.associativity.toNat 0) }

/-- The conversion of the `unsigned long` read by `main` to the `int` parameter of
`access` (lines 155-161): the value modulo `2 ^ 32`, read as a signed number. -/
def toInt (address : Nat) : Int :=
  ((address + 2 ^ 31) % 2 ^ 32 : Nat) - 2 ^ 31

/-- Feeding a sequence of `int` addresses to `access`, in order. -/
def accessAll (c : Cache) : List Int → Option (List Bool × Cache)
  | [] => some ([], c)
  | a :: rest =>
    match access c a with
    | none => none
    | some (hit, c1) =>
      match accessAll c1 rest with
      | none => none
      | some (hits, c2) => some (hit :: hits, c2)

/-- The flags returned by a freshly constructed cache fed the addresses in order. -/
def freshResults (size associativity block_size : Int) (addresses : List Int) :
    Option (List Bool) :=
  match Cache.new size associativity block_size with
  | none => none
  | some c => (accessAll c addresses).map Prod.fst

end Cache205421

/-! ## The value of a hit rate

The hit rates are C++ `double` values obtained by dividing two converted unsigned
counters. The embedding keeps the three cases of that division apart: a finite
quotient (kept exact, as a rational number), the quotient of a positive count by
zero, and the quotient of zero by zero. -/

/-- A `double` produced by the hit-rate code: a finite number, an infinity, or the
not-a-number `0.0 / 0`. -/
inductive DoubleValue where
  | finite (q : ℚ)
  | infinite
  | nan
deriving DecidableEq

/-- The division `static_cast<double>(num) / den` of two unsigned counters. -/
def divDouble (num den : Nat) : DoubleValue :=
  if den = 0 then (if num = 0 then DoubleValue.nan else DoubleValue.infinite)
  else DoubleValue.finite ((num : ℚ) / (den : ℚ))

namespace Cache183924

/-- The method `getHitRate()` (lines 110-113): `hitCount` divided by `totalAccesses`
as `double`, with no test of the divisor. -/
def getHitRate (c : Cache) : DoubleValue :=
  divDouble c.hitCount c.totalAccesses

/-- The way whose line a call `access(address)` touches in the selected set: the way
found by the hit-search loop (line 55), otherwise the way returned by
`findLRUBlockIndex` (lines 62-64). -/
def touchedWay (c : Cache) (address : Nat) : Nat :=
  match accessLoop (rowAt c (indexOf c address)) (tagOf c address) c.associativity 0 with
  | some i => i
  | none => findLRUBlockIndex c (indexOf c address)

/-- The states reached from a freshly constructed cache, each with the way touched by
the most recent access to every set (`none` for a set not accessed yet). -/
inductive ReachableTouched : Cache → (Nat → Option Nat) → Prop
  | fresh (setSize associativity blockSize : Nat) :
      ReachableTouched (Cache.new setSize associativity blockSize) (fun _ => none)
  | step {c c1 : Cache} {g : Nat → Option Nat} {address : Nat} {hit : Bool} :
      ReachableTouched c g → access c address = some (hit, c1) →
      ReachableTouched c1
        (fun s => if s = indexOf c address then some (touchedWay c address) else g s)

/-- The state of `Cache(2, 2, 4)` after the calls `access(0)` and `access(8)`. -/
def afterAccessZeroEight : Cache :=
  { cache := [[⟨true, 0, 1⟩, ⟨true, 1, 0⟩], [⟨false, 0, 0⟩, ⟨false, 0, 0⟩]]
    lruCounters := [(1, 0), (0, 1)]
    setSize := 2
    associativity := 2
    blockSize := 4
    cacheSize := 16
    totalAccesses := 2
    hitCount := 0 }

/-- The way touched by the most recent access to each set in `afterAccessZeroEight`. -/
def touchedAfterZeroEight : Nat → Option Nat :=
  fun s => if s = indexOf afterAccessZero 8 then some (touchedWay afterAccessZero 8)
    else (fun s => if s = indexOf (Cache.new 2 2 4) 0 then
      some (touchedWay (Cache.new 2 2 4) 0) else (fun _ => none) s) s

end Cache183924

namespace Cache205421

/-- States that `access` and `resetCacheState` calls reach from a freshly constructed
cache. -/
inductive Reachable : Cache → Prop
  | fresh {size associativity block_size : Int} {c : Cache} :
      Cache.new size associativity block_size = some c → Reachable c
  | step {c c1 : Cache} {address : Int} {hit : Bool} :
      Reachable c → access c address = some (hit, c1) → Reachable c1
  | reset {c : Cache} : Reachable c → Reachable (resetCacheState c)

/-- The freshly constructed `Cache(16, 2, 4)`: two sets of two ways. -/
def freshSixteen : Cache :=
  { size := 16
    associativity := 2
    block_size := 4
    sets := 2
    valid := [[false, false], [false, false]]
    lru_counter := [[0, 0], [0, 0]] }

/-- The state of `Cache(16, 2, 4)` after the single call `access(0)`. -/
def sixteenAfterZero : Cache :=
  { size := 16
    associativity := 2
    block_size := 4
    sets := 2
    valid := [[true, false], [false, false]]
    lru_counter := [[0, 0], [0, 0]] }

end Cache205421

namespace Cache165323

/-- The fields of `class Cache` of `Cache_20240216165323.cpp` (lines 13-20); `hits` and
`accesses` are `unsigned long`. -/
structure Cache where
  size : Int
  associativity : Int
  block_size : Int
  sets : Int
  valid : List (List Bool)
  lru_counter : List (List Int)
  hits : Nat
  accesses : Nat
deriving DecidableEq, Repr

/-- Reduction of an `unsigned long` result to 64 bits. -/
def u64 (n : Nat) : Nat := n % 2 ^ 64

/-- The entry `valid[set_index][i]`. -/
def validAt (c : Cache) (set_index i : Nat) : Bool :=
  (c.valid.getD set_index []).getD i false

/-- The entry `lru_counter[set_index][i]`. -/
def counterAt (c : Cache) (set_index i : Nat) : Int :=
  (c.lru_counter.getD set_index []).getD i 0

/-- The constructor `Cache(size, associativity, block_size)` (lines 23-31), with the
counters at their initial value 0: `none` when line 26 divides by zero or overflows
`int` (undefined behaviour), or when a `vector` is asked for a negative number of
entries (`assign` throws). -/
def Cache.new (size associativity block_size : Int) : Option Cache :=
  if associativity * block_size = 0 then none
  else if associativity * block_size < -(2 ^ 31) ∨ 2 ^ 31 ≤ associativity * block_size then none
  else if size = -(2 ^ 31) ∧ associativity * block_size = -1 then none
  else if Int.tdiv size (associativity * block_size) < 0 ∨ associativity < 0 then none
  else
    some
      { size := size
        associativity := associativity
        block_size := block_size
        sets := Int.tdiv size (associativity * block_size)
        valid := List.replicate (Int.tdiv size (associativity * block_size)).toNat
          (List.replicate associativity.toNat false)
        lru_counter := List.replicate (Int.tdiv size (associativity * block_size)).toNat
          (List.replicate associativity.toNat 0)
        hits := 0
        accesses := 0 }

/-- The hit-search loop of `access` (lines 40-49) on set `s`. -/
def accessLoop (c : Cache) (s : Nat) : Nat → Nat → Option Nat
  | 0, _ => none
  | n + 1, i =>
    if validAt c s i && decide (counterAt c s i = 0) then some i
    else accessLoop c s n (i + 1)

/-- The loop of `updateLRU` (lines 74-80) on the counters of one set. -/
def updateLRULoop (validRow : List Bool) (used_index : Nat) :
    Nat → Nat → List Int → List Int
  | 0, _, counters => counters
  | n + 1, i, counters =>
    updateLRULoop validRow used_index n (i + 1)
      (if validRow.getD i false && decide (i ≠ used_index) then
        counters.set i (counters.getD i 0 + 1)
      else counters)

/-- The method `updateLRU(set_index, used_index)` (lines 71-82). -/
def updateLRU (c : Cache) (set_index used_index : Nat) : Cache :=
  { c with
    lru_counter := c.lru_counter.set set_index
      ((updateLRULoop (c.valid.getD set_index []) used_index c.associativity.toNat 0
        (c.lru_counter.getD set_index [])).set used_index 0) }

/-- The loop of `findLRUVictim` (lines 90-103) with the locals `max_lru` and
`victim_index`. -/
def findLRUVictimLoop (c : Cache) (s : Nat) : Nat → Nat → Int → Nat → Nat
  | 0, _, _, victim_index => victim_index
  | n + 1, i, max_lru, victim_index =>
    if !validAt c s i then i
    else if counterAt c s i > max_lru then
      findLRUVictimLoop c s n (i + 1) (counterAt c s i) i
    else findLRUVictimLoop c s n (i + 1) max_lru victim_index

/-- The method `findLRUVictim(set_index)` (lines 84-106). -/
def findLRUVictim (c : Cache) (set_index : Nat) : Nat :=
  findLRUVictimLoop c set_index c.associativity.toNat 0 (-1) 0

/-- The method `access(address)` (lines 33-57) on an `int` address: `none` when line
36 or 37 divides by zero or overflows `int`, or when the set index is not a valid
index of `valid` (all undefined behaviour). A hit increments `hits` and returns
(lines 46-47); `accesses` is incremented at line 55, on the miss path. -/
def access (c : Cache) (address : Int) : Option (Bool × Cache) :=
  if c.block_size = 0 ∨ c.sets = 0 then none
  else if address = -(2 ^ 31) ∧ c.block_size = -1 then none
  else if Int.tdiv address c.block_size = -(2 ^ 31) ∧ c.sets = -1 then none
  else if Int.tmod (Int.tdiv address c.block_size) c.sets < 0
      ∨ c.sets ≤ Int.tmod (Int.tdiv address c.block_size) c.sets then none
  else
    let set_index := (Int.tmod (Int.tdiv address c.block_size) c.sets).toNat
    match accessLoop c set_index c.associativity.toNat 0 with
    | some i =>
      let c1 := updateLRU c set_index i
      some (true, { c1 with hits := u64 (c1.hits + 1) })
    | none =>
      let victim_index := findLRUVictim c set_index
      let c1 : Cache := { c with
        valid := c.valid.set set_index ((c.valid.getD set_index []).set victim_index true) }
      let c2 := updateLRU c1 set_index victim_index
      some (false, { c2 with accesses := u64 (c2.accesses + 1) })

/-- The method `getHitRate()` (lines 59-62). -/
def getHitRate (c : Cache) : DoubleValue :=
  if c.accesses > 0 then divDouble c.hits c.accesses else DoubleValue.finite 0

/-- The method `resetCounters()` (lines 64-68). -/
def resetCounters (c : Cache) : Cache :=
  { c with hits := 0, accesses := 0 }

/-- Feeding a sequence of `int` addresses to `access`, in order. -/
def accessAll (c : Cache) : List Int → Option (List Bool × Cache)
  | [] => some ([], c)
  | a :: rest =>
    match access c a with
    | none => none
    | some (hit, c1) =>
      match accessAll c1 rest with
      | none => none
      | some (hits, c2) => some (hit :: hits, c2)

/-- The flags returned by a freshly constructed cache fed the addresses in order, and
the state after the last access. -/
def freshRun (size associativity block_size : Int) (addresses : List Int) :
    Option (List Bool × Cache) :=
  match Cache.new size associativity block_size with
  | none => none
  | some c => accessAll c addresses

/-- The freshly constructed `Cache(16, 2, 4)`: two sets of two ways, counters at 0. -/
def freshSixteen : Cache :=
  { size := 16
    associativity := 2
    block_size := 4
    sets := 2
    valid := [[false, false], [false, false]]
    lru_counter := [[0, 0], [0, 0]]
    hits := 0
    accesses := 0 }

end Cache165323

namespace Cache205421

/-- The set index of line 34, `(address / block_size) % sets`, with the truncating
quotient and remainder of `int`. -/
def setIndex (block_size sets address : Int) : Int :=
  Int.tmod (Int.tdiv address block_size) sets

/-- Reference model of the tag-less cache: the flag of each access is `true` exactly
when an earlier access of the sequence mapped to the same set index. -/
def touchedResultsFrom (block_size sets : Int) : List Int → List Int → List Bool
  | _, [] => []
  | earlier, a :: rest =>
    decide (setIndex block_size sets a ∈ earlier.map (setIndex block_size sets)) ::
      touchedResultsFrom block_size sets (earlier ++ [a]) rest

/-- Invariant of the states of the tag-less cache; `touched` lists the set indices
accessed so far. The vectors have `sets` rows of `associativity` entries, way 0 of
a set is valid exactly when the set was accessed, the other ways are invalid and
all counters are 0. -/
structure StateInv (c : Cache) (touched : List Int) : Prop where
  valid_length : c.valid.length = c.sets.toNat
  counter_length : c.lru_counter.length = c.sets.toNat
  valid_row : ∀ s, s < c.sets.toNat → (c.valid.getD s []).length = c.associativity.toNat
  counter_row : ∀ s, s < c.sets.toNat →
    (c.lru_counter.getD s []).length = c.associativity.toNat
  way_zero : ∀ s, s < c.sets.toNat → (validAt c s 0 = true ↔ (s : Int) ∈ touched)
  other_ways : ∀ s i, 1 ≤ i → validAt c s i = false
  counters : ∀ s i, counterAt c s i = 0

end Cache205421

namespace Cache193816

/-- The `struct CacheBlock` of `Cache_20240216193816.cpp` (lines 37-41). -/
structure CacheBlock where
  tag : Int
  valid : Bool
deriving DecidableEq, Repr

/-- The fields of `class Cache` (lines 43-48): one `vector` of blocks and one `deque`
of way numbers per set. -/
structure Cache where
  cache_size : Int
  block_size : Int
  associativity : Int
  num_sets : Int
  cache : List (List CacheBlock)
  lru_tracker : List (List Int)
deriving DecidableEq, Repr

/-- The initialiser of `num_sets` (line 12),
`associativity > 1 ? cache_size / (block_size * associativity) : 1`: `none` when the
division is by zero or the product or the quotient overflows `int` (undefined
behaviour). The quotient of two `int` truncates towards zero. -/
def numSets (cache_size block_size associativity : Int) : Option Int :=
  if associativity > 1 then
    if block_size * associativity = 0 then none
    else if block_size * associativity < -(2 ^ 31) ∨ 2 ^ 31 ≤ block_size * associativity then
      none
    else if cache_size = -(2 ^ 31) ∧ block_size * associativity = -1 then none
    else some (Int.tdiv cache_size (block_size * associativity))
  else some 1

/-- The constructor `Cache(cache_size, block_size, associativity)` (lines 9-14): `none`
when `numSets` is undefined or a container is asked for a negative number of entries
(the constructor of the container throws). -/
def Cache.new (cache_size block_size associativity : Int) : Option Cache :=
  match numSets cache_size block_size associativity with
  | none => none
  | some num_sets =>
    if num_sets < 0 ∨ associativity < 0 then none
    else
      some
        { cache_size := cache_size
          block_size := block_size
          associativity := associativity
          num_sets := num_sets
          cache := List.replicate num_sets.toNat
            (List.replicate associativity.toNat { tag := -1, valid := false })
          lru_tracker := List.replicate num_sets.toNat
            (List.replicate associativity.toNat 0) }

end Cache193816

namespace Cache193039

/-- The `struct Block` of `Cache_20240216193039.cpp` (lines 92-96); `tag` is a
`uint32_t`. -/
structure Block where
  valid : Bool
  tag : Nat
deriving DecidableEq, Repr

/-- The fields of `class Cache` (lines 98-104); the first five are `uint32_t`, and the
lines of all sets lie in one flat `vector`. -/
structure Cache where
  tagBits : Nat
  blockOffsetBits : Nat
  setIndexBits : Nat
  sets : Nat
  linesPerSet : Nat
  blocks : List Block
  lruCounts : List Nat
deriving DecidableEq, Repr

/-- Reduction of a `uint32_t` result to 32 bits. -/
def u32 (n : Nat) : Nat := n % 2 ^ 32

/-- The value `std::ceil(std::log2(n))` converted to `uint32_t`, for `n` below
`2 ^ 32`: the least `k` with `n ≤ 2 ^ k`; `none` for 0, whose logarithm is minus
infinity (the conversion is undefined behaviour). -/
def ceilLog2 (n : Nat) : Option Nat :=
  if n = 0 then none else (List.range 33).find? (fun k => decide (n ≤ 2 ^ k))

/-- The constructor `Cache(size, associativity, blockBytes)` (lines 27-40) on 32-bit
parameters: `none` when the division of line 28 is by zero, when a logarithm is taken
of 0, or when the difference of line 30 is negative (all undefined behaviour).
`resize` value-initialises the blocks, and line 33 fills the counts with 0. -/
def Cache.new (size associativity blockBytes : Nat) : Option Cache :=
  if u32 (associativity * blockBytes) = 0 then none
  else
    match ceilLog2 (size / u32 (associativity * blockBytes)), ceilLog2 blockBytes,
      ceilLog2 associativity with
    | some t, some b, some a =>
      if u32 (t + b) < a then none
      else
        some
          { tagBits := t
            blockOffsetBits := b
            setIndexBits := u32 (t + b) - a
            sets := size / u32 (associativity * blockBytes)
            linesPerSet := associativity
            blocks := List.replicate
              (u32 (size / u32 (associativity * blockBytes) * associativity))
              { valid := false, tag := 0 }
            lruCounts := List.replicate
              (u32 (size / u32 (associativity * blockBytes) * associativity)) 0 }
    | _, _, _ => none

/-- What a call of `access` does: it returns a flag, it throws the `runtime_error` of
line 78, or its behaviour is undefined. -/
inductive Outcome where
  | returned (hit : Bool) (c : Cache)
  | thrown
  | undefined
deriving DecidableEq, Repr

/-- How the loop of `access` (lines 51-65) ends: with the `return true` of line 57 at
way `i`, after the last way with the local `lruVictim`, or with undefined
behaviour. -/
inductive Scan where
  | hit (i : Nat)
  | miss (lruVictim : Int)
  | undefined
deriving DecidableEq, Repr

/-- The loop of `access` (lines 51-65) with the locals `lruVictim` and `maxLruCount`.
The index `setIndex * linesPerSet + i` is computed in `uint32_t`; behaviour is
undefined when it is not an index of the vector, when `i` overflows `int`, or when
the `int` victim of line 62 is negative at line 63. -/
def accessLoop (c : Cache) (setIndex tag : Nat) : Nat → Nat → Int → Nat → Scan
  | 0, _, lruVictim, _ => Scan.miss lruVictim
  | n + 1, i, lruVictim, maxLruCount =>
    if 2 ^ 31 ≤ i then Scan.undefined
    else
      match c.blocks.get? (u32 (setIndex * c.linesPerSet + i)) with
      | none => Scan.undefined
      | some block =>
        if decide (block.tag = tag) && block.valid then Scan.hit i
        else
          match c.lruCounts.get? (u32 (setIndex * c.linesPerSet + i)) with
          | none => Scan.undefined
          | some count =>
            if count > maxLruCount then
              if 2 ^ 31 ≤ u32 (setIndex * c.linesPerSet + i) then Scan.undefined
              else
                accessLoop c setIndex tag n (i + 1)
                  (u32 (setIndex * c.linesPerSet + i) : Nat) count
            else accessLoop c setIndex tag n (i + 1) lruVictim maxLruCount

/-- The loop of `updateLru` (lines 85-88): every count of the set is incremented, in
`uint32_t`; `none` when an index is out of range or `i` overflows `int`. -/
def updateLruLoop (setIndex linesPerSet : Nat) : Nat → Nat → List Nat → Option (List Nat)
  | 0, _, counts => some counts
  | n + 1, i, counts =>
    if 2 ^ 31 ≤ i then none
    else
      match counts.get? (u32 (setIndex * linesPerSet + i)) with
      | none => none
      | some count =>
        updateLruLoop setIndex linesPerSet n (i + 1)
          (counts.set (u32 (setIndex * linesPerSet + i)) (u32 (count + 1)))

/-- The method `updateLru(setIndex, lineIndex)` (lines 83-90); the `int` `lineIndex`
is converted to `uint32_t` in the sum of line 89. -/
def updateLru (c : Cache) (setIndex : Nat) (lineIndex : Int) : Option Cache :=
  match updateLruLoop setIndex c.linesPerSet c.linesPerSet 0 c.lruCounts with
  | none => none
  | some counts =>
    if u32 (setIndex * c.linesPerSet + (lineIndex % 2 ^ 32).toNat) < counts.length then
      some { c with
        lruCounts := counts.set
          (u32 (setIndex * c.linesPerSet + (lineIndex % 2 ^ 32).toNat)) 0 }
    else none

/-- The conversion of a `uint32_t` value to `int`. -/
def toInt (n : Nat) : Int :=
  ((n + 2 ^ 31) % 2 ^ 32 : Nat) - 2 ^ 31

/-- The helper `getTag` (lines 8-11), with the names `blockOffsetBits` and
`setIndexBits` of line 10 read as the fields of the cache: `none` when the shift
count is 64 or more. -/
def getTag (c : Cache) (address : Nat) : Option Nat :=
  if 64 ≤ u32 (c.blockOffsetBits + c.setIndexBits) then none
  else some (u32 (address >>> u32 (c.blockOffsetBits + c.setIndexBits)))

/-- The helper `getSetIndex` (lines 13-16), with the name `setIndexBits` of line 15
read as the field of the cache: `none` when a shift count is too large or
`(1 << setIndexBits) - 1` overflows `int`. -/
def getSetIndex (c : Cache) (address : Nat) : Option Nat :=
  if 64 ≤ c.blockOffsetBits ∨ 31 ≤ c.setIndexBits then none
  else some (u32 ((address >>> c.blockOffsetBits) &&& ((1 <<< c.setIndexBits) - 1)))

/-- The method `access(address)` (lines 43-79) on a 64-bit address. -/
def access (c : Cache) (address : Nat) : Outcome :=
  match getTag c address, getSetIndex c address with
  | some tag, some setIndex =>
    match accessLoop c setIndex tag c.linesPerSet 0 (-1) 0 with
    | Scan.undefined => Outcome.undefined
    | Scan.hit i =>
      match updateLru c setIndex i with
      | none => Outcome.undefined
      | some c1 => Outcome.returned true c1
    | Scan.miss lruVictim =>
      if lruVictim ≠ -1 then
        if lruVictim < 0 ∨ (c.blocks.length : Int) ≤ lruVictim ∨ c.linesPerSet = 0 then
          Outcome.undefined
        else
          match updateLru
            { c with blocks := c.blocks.set lruVictim.toNat { valid := true, tag := tag } }
            setIndex (toInt (lruVictim.toNat % c.linesPerSet)) with
          | none => Outcome.undefined
          | some c1 => Outcome.returned false c1
      else Outcome.thrown
  | _, _ => Outcome.undefined

end Cache193039

namespace Cache183924

/-- The state of `Cache(2, 2, 4)` after the calls `access(0)`, `access(8)` and
`access(0)`. -/
def afterAccessZeroEightZero : Cache :=
  { cache := [[⟨true, 0, 0⟩, ⟨true, 1, 1⟩], [⟨false, 0, 0⟩, ⟨false, 0, 0⟩]]
    lruCounters := [(1, 1), (0, 0)]
    setSize := 2
    associativity := 2
    blockSize := 4
    cacheSize := 16
    totalAccesses := 3
    hitCount := 1 }

end Cache183924

namespace Cache183924

/-- The number of valid lines of set `s`. -/
def validLines (c : Cache) (s : Nat) : Nat :=
  ((rowAt c s).filter (fun b => b.valid)).length

/-- Reference model, following the specification: the number of distinct blocks
(`address div blockSize`) among the addresses that map to set `s`
(`block mod setSize`). -/
def distinctBlocks (setSize blockSize s : Nat) (addresses : List Nat) : Nat :=
  ((addresses.map (fun a => a / blockSize)).filter
    (fun b => decide (b % setSize = s))).dedup.length

end Cache183924

/-! ## Snapshot `Cache_20240216183924.cpp`: the loops of `access` -/

namespace Cache183924

theorem lineAt_replicate (n i : Nat) :
    lineAt (List.replicate n ⟨false, 0, 0⟩) i = ⟨false, 0, 0⟩ := by
  unfold lineAt
  rw [List.getD_eq_getElem?_getD, List.getElem?_replicate]
  split <;> rfl

theorem rowAt_new (setSize associativity blockSize index : Nat) :
    rowAt (Cache.new setSize associativity blockSize) index
      = if index < setSize then List.replicate associativity ⟨false, 0, 0⟩ else [] := by
  unfold rowAt Cache.new
  simp only [List.getD_eq_getElem?_getD, List.getElem?_replicate]
  split <;> rfl

theorem lineAt_new (setSize associativity blockSize index i : Nat) :
    lineAt (rowAt (Cache.new setSize associativity blockSize) index) i = ⟨false, 0, 0⟩ := by
  rw [rowAt_new]
  split
  · exact lineAt_replicate _ _
  · rfl

/-- The way returned by the hit-search loop is the first way of the scanned range whose
line is valid and holds the tag. -/
theorem accessLoop_some {row : List CacheBlock} {tag : Nat} :
    ∀ (n i j : Nat), accessLoop row tag n i = some j →
      i ≤ j ∧ j < i + n ∧ (lineAt row j).valid = true ∧ (lineAt row j).tag = tag ∧
      ∀ k, i ≤ k → k < j → ¬((lineAt row k).valid = true ∧ (lineAt row k).tag = tag) := by
  intro n
  induction n with
  | zero => intro i j h; simp [accessLoop] at h
  | succ n ih =>
    intro i j h
    unfold accessLoop at h
    split at h
    · rename_i hc
      simp only [Bool.and_eq_true, decide_eq_true_eq] at hc
      cases h
      exact ⟨le_refl _, by omega, hc.1, hc.2, fun k h1 h2 => by omega⟩
    · rename_i hc
      simp only [Bool.and_eq_true, decide_eq_true_eq] at hc
      obtain ⟨h1, h2, h3, h4, h5⟩ := ih (i + 1) j h
      refine ⟨by omega, by omega, h3, h4, fun k hk1 hk2 => ?_⟩
      by_cases hki : k = i
      · subst hki; exact hc
      · exact h5 k (by omega) hk2

/-- The hit-search loop finds nothing exactly when no line of the scanned range is
valid with the tag. -/
theorem accessLoop_none {row : List CacheBlock} {tag : Nat} :
    ∀ (n i : Nat), accessLoop row tag n i = none ↔
      ∀ k, i ≤ k → k < i + n → ¬((lineAt row k).valid = true ∧ (lineAt row k).tag = tag) := by
  intro n
  induction n with
  | zero => intro i; simp [accessLoop]; intro k h1 h2; omega
  | succ n ih =>
    intro i
    unfold accessLoop
    split
    · rename_i hc
      simp only [Bool.and_eq_true, decide_eq_true_eq] at hc
      simp only [reduceCtorEq, false_iff, not_forall]
      exact ⟨i, le_refl _, by omega, not_not.mpr hc⟩
    · rename_i hc
      simp only [Bool.and_eq_true, decide_eq_true_eq] at hc
      rw [ih (i + 1)]
      constructor
      · intro h k hk1 hk2
        by_cases hki : k = i
        · subst hki; exact hc
        · exact h k (by omega) (by omega)
      · intro h k hk1 hk2
        exact h k (by omega) (by omega)

theorem access_eq_none {c : Cache} {a : Nat}
    (h : c.blockSize = 0 ∨ c.setSize = 0 ∨ tagDivisor c = 0) : access c a = none := by
  unfold access
  rw [if_pos h]

/-- A call of `access` that returns leaves the configuration fields alone, and its
divisors were not zero. -/
theorem access_config {c c1 : Cache} {a : Nat} {hit : Bool}
    (h : access c a = some (hit, c1)) :
    c1.setSize = c.setSize ∧ c1.associativity = c.associativity ∧
      c1.blockSize = c.blockSize ∧
      ¬(c.blockSize = 0 ∨ c.setSize = 0 ∨ tagDivisor c = 0) := by
  unfold access at h
  split at h
  · cases h
  · rename_i hz
    simp only at h
    split at h <;> cases h <;> exact ⟨rfl, rfl, rfl, hz⟩

/-- With a zero divisor no call of `access` returns, so the only reachable state is the
fresh one, all of whose lines are invalid. -/
theorem Reachable.invalid_of_zero_divisor {c : Cache} (hr : Reachable c)
    (hz : c.blockSize = 0 ∨ c.setSize = 0 ∨ tagDivisor c = 0) (index i : Nat) :
    (lineAt (rowAt c index) i).valid = false := by
  cases hr with
  | fresh s n b => rw [lineAt_new]
  | step hr0 hacc =>
    obtain ⟨h1, _, h3, h4⟩ := access_config hacc
    exfalso
    apply h4
    unfold tagDivisor at hz ⊢
    rw [h1, h3] at hz
    exact hz

/-- C2. In every state reachable from a fresh cache, `access` returns `true` exactly when
some valid line of the set selected by the address holds the tag computed for the
address. -/
theorem C2_hit_iff_valid_line_with_tag (c : Cache) (hr : Reachable c) (a : Nat) :
    (access c a).map Prod.fst = some true ↔
      ∃ i, i < c.associativity ∧ (lineAt (rowAt c (indexOf c a)) i).valid = true ∧
        (lineAt (rowAt c (indexOf c a)) i).tag = tagOf c a := by
  by_cases hz : c.blockSize = 0 ∨ c.setSize = 0 ∨ tagDivisor c = 0
  · rw [access_eq_none hz]
    simp only [Option.map_none', reduceCtorEq, false_iff, not_exists, not_and]
    intro i _ hv
    rw [hr.invalid_of_zero_divisor hz] at hv
    cases hv
  · unfold access
    rw [if_neg hz]
    simp only
    cases hl : accessLoop (rowAt c (indexOf c a)) (tagOf c a) c.associativity 0 with
    | some i =>
      have hl1 : accessLoop (rowAt { c with totalAccesses := u32 (c.totalAccesses + 1) }
          (indexOf { c with totalAccesses := u32 (c.totalAccesses + 1) } a))
          (tagOf { c with totalAccesses := u32 (c.totalAccesses + 1) } a) c.associativity 0
          = some i := hl
      rw [hl1]
      obtain ⟨_, h2, h3, h4, _⟩ := accessLoop_some _ _ _ hl
      simp only [Option.map_some', true_iff]
      exact ⟨i, by omega, h3, h4⟩
    | none =>
      have hl1 : accessLoop (rowAt { c with totalAccesses := u32 (c.totalAccesses + 1) }
          (indexOf { c with totalAccesses := u32 (c.totalAccesses + 1) } a))
          (tagOf { c with totalAccesses := u32 (c.totalAccesses + 1) } a) c.associativity 0
          = none := hl
      rw [hl1]
      simp only [Option.map_some', Option.some.injEq, Bool.false_eq_true, false_iff,
        not_exists, not_and]
      intro i hi hv ht
      exact (accessLoop_none _ _).mp hl i (Nat.zero_le _) (by omega) ⟨hv, ht⟩

/-- Witness of C2: the state of `Cache(2, 2, 4)` after `access(0)`, probed with
address 8, which maps to the same set with another tag. -/
theorem C2_hit_iff_valid_line_with_tag_witness :
    Reachable afterAccessZero ∧
      ((access afterAccessZero 8).map Prod.fst = some true ↔
        ∃ i, i < afterAccessZero.associativity ∧
          (lineAt (rowAt afterAccessZero (indexOf afterAccessZero 8)) i).valid = true ∧
          (lineAt (rowAt afterAccessZero (indexOf afterAccessZero 8)) i).tag
            = tagOf afterAccessZero 8) :=
  ⟨Reachable.step (Reachable.fresh 2 2 4)
      (by decide : access (Cache.new 2 2 4) 0 = some (false, afterAccessZero)),
    C2_hit_iff_valid_line_with_tag afterAccessZero
      (Reachable.step (Reachable.fresh 2 2 4)
        (by decide : access (Cache.new 2 2 4) 0 = some (false, afterAccessZero))) 8⟩

end Cache183924

/-! ## Snapshot `Cache_20240216183924.cpp`: one set under `access` -/

namespace Cache183924

theorem lineAt_valid_lt {row : List CacheBlock} {i : Nat}
    (h : (lineAt row i).valid = true) : i < row.length := by
  by_contra hlt
  unfold lineAt at h
  rw [List.getD_eq_getElem?_getD, List.getElem?_eq_none (by omega)] at h
  cases h

theorem lineAt_set (row : List CacheBlock) (i j : Nat) (x : CacheBlock) :
    lineAt (row.set i x) j = if j = i ∧ i < row.length then x else lineAt row j := by
  unfold lineAt
  simp only [List.getD_eq_getElem?_getD, List.getElem?_set]
  by_cases hji : i = j
  · subst hji
    by_cases hl : i < row.length
    · simp [hl]
    · simp [hl, List.getElem?_eq_none (not_lt.mp hl)]
  · have : ¬ j = i := fun h => hji h.symm
    simp [hji, this]

theorem updateLRUCountersLoop_length (acc : Nat) :
    ∀ (n i : Nat) (row : List CacheBlock),
      (updateLRUCountersLoop acc n i row).length = row.length := by
  intro n
  induction n with
  | zero => intro i row; rfl
  | succ n ih =>
    intro i row
    unfold updateLRUCountersLoop
    rw [ih]
    split <;> simp

/-- The line of way `j` after the loop of `updateLRUCounters`. -/
theorem lineAt_updateLRUCountersLoop (acc : Nat) :
    ∀ (n i : Nat) (row : List CacheBlock) (j : Nat),
      lineAt (updateLRUCountersLoop acc n i row) j
        = if i ≤ j ∧ j < i + n ∧ (lineAt row j).valid = true then
            ⟨true, (lineAt row j).tag,
              if j = acc then 0 else (lineAt row j).lruCounter + 1⟩
          else lineAt row j := by
  intro n
  induction n with
  | zero =>
    intro i row j
    have : ¬(i ≤ j ∧ j < i + 0 ∧ (lineAt row j).valid = true) := by omega
    rw [if_neg this]; rfl
  | succ n ih =>
    intro i row j
    unfold updateLRUCountersLoop
    rw [ih]
    by_cases hji : j = i
    · subst hji
      by_cases hv : (lineAt row j).valid = true
      · have hlt := lineAt_valid_lt hv
        simp [hv, lineAt_set, hlt]
      · simp [hv]
    · have hiff : (i + 1 ≤ j ∧ j < i + 1 + n) ↔ (i ≤ j ∧ j < i + (n + 1)) := by omega
      by_cases hv : (lineAt row i).valid = true
      · simp only [hv, if_true, lineAt_set, hji, false_and, if_false]
        by_cases hr : i ≤ j ∧ j < i + (n + 1)
        · have hr1 := hiff.mpr hr
          simp [hr.1, hr.2, hr1.1, hr1.2]
        · have hr1 : ¬(i + 1 ≤ j ∧ j < i + 1 + n) := fun h => hr (hiff.mp h)
          rw [if_neg (fun h => hr1 ⟨h.1, h.2.1⟩), if_neg (fun h => hr ⟨h.1, h.2.1⟩)]
      · simp only [hv, Bool.false_eq_true, if_false]
        by_cases hr : i ≤ j ∧ j < i + (n + 1)
        · have hr1 := hiff.mpr hr
          simp [hr.1, hr.2, hr1.1, hr1.2]
        · have hr1 : ¬(i + 1 ≤ j ∧ j < i + 1 + n) := fun h => hr (hiff.mp h)
          rw [if_neg (fun h => hr1 ⟨h.1, h.2.1⟩), if_neg (fun h => hr ⟨h.1, h.2.1⟩)]

/-- What the loop of `findLRUBlockIndex` returns: the first invalid way of the scanned
range if there is one, otherwise a way holding the largest counter seen. -/
theorem findLRUBlockIndexLoop_spec (row : List CacheBlock) :
    ∀ (n i li mx : Nat),
      (i ≤ findLRUBlockIndexLoop row n i li mx ∧ findLRUBlockIndexLoop row n i li mx < i + n ∧
        (lineAt row (findLRUBlockIndexLoop row n i li mx)).valid = false ∧
        ∀ k, i ≤ k → k < findLRUBlockIndexLoop row n i li mx → (lineAt row k).valid = true) ∨
      ((∀ k, i ≤ k → k < i + n → (lineAt row k).valid = true) ∧
        ((findLRUBlockIndexLoop row n i li mx = li ∧
            ∀ k, i ≤ k → k < i + n → (lineAt row k).lruCounter ≤ mx) ∨
          (i ≤ findLRUBlockIndexLoop row n i li mx ∧
            findLRUBlockIndexLoop row n i li mx < i + n ∧
            mx < (lineAt row (findLRUBlockIndexLoop row n i li mx)).lruCounter ∧
            ∀ k, i ≤ k → k < i + n →
              (lineAt row k).lruCounter
                ≤ (lineAt row (findLRUBlockIndexLoop row n i li mx)).lruCounter))) := by
  intro n
  induction n with
  | zero =>
    intro i li mx
    right
    exact ⟨fun k h1 h2 => by omega, Or.inl ⟨rfl, fun k h1 h2 => by omega⟩⟩
  | succ n ih =>
    intro i li mx
    unfold findLRUBlockIndexLoop
    by_cases hv : (lineAt row i).valid = true
    · simp only [hv, Bool.not_true, Bool.false_eq_true, if_false]
      by_cases hc : (lineAt row i).lruCounter > mx
      · simp only [hc, if_true]
        rcases ih (i + 1) i (lineAt row i).lruCounter with h | ⟨hall, h | h⟩
        · left
          refine ⟨by omega, by omega, h.2.2.1, fun k hk1 hk2 => ?_⟩
          by_cases hki : k = i
          · subst hki; exact hv
          · exact h.2.2.2 k (by omega) hk2
        · right
          refine ⟨fun k hk1 hk2 => ?_, Or.inr ?_⟩
          · by_cases hki : k = i
            · subst hki; exact hv
            · exact hall k (by omega) (by omega)
          · rw [h.1]
            refine ⟨le_refl _, by omega, hc, fun k hk1 hk2 => ?_⟩
            by_cases hki : k = i
            · subst hki; exact le_refl _
            · exact h.2 k (by omega) (by omega)
        · right
          refine ⟨fun k hk1 hk2 => ?_, Or.inr ?_⟩
          · by_cases hki : k = i
            · subst hki; exact hv
            · exact hall k (by omega) (by omega)
          · refine ⟨by omega, by omega, by omega, fun k hk1 hk2 => ?_⟩
            by_cases hki : k = i
            · subst hki; omega
            · exact h.2.2.2 k (by omega) (by omega)
      · simp only [hc, if_false]
        rcases ih (i + 1) li mx with h | ⟨hall, h | h⟩
        · left
          refine ⟨by omega, by omega, h.2.2.1, fun k hk1 hk2 => ?_⟩
          by_cases hki : k = i
          · subst hki; exact hv
          · exact h.2.2.2 k (by omega) hk2
        · right
          refine ⟨fun k hk1 hk2 => ?_, Or.inl ⟨h.1, fun k hk1 hk2 => ?_⟩⟩
          · by_cases hki : k = i
            · subst hki; exact hv
            · exact hall k (by omega) (by omega)
          · by_cases hki : k = i
            · subst hki; omega
            · exact h.2 k (by omega) (by omega)
        · right
          refine ⟨fun k hk1 hk2 => ?_, Or.inr ?_⟩
          · by_cases hki : k = i
            · subst hki; exact hv
            · exact hall k (by omega) (by omega)
          · refine ⟨by omega, by omega, h.2.2.1, fun k hk1 hk2 => ?_⟩
            by_cases hki : k = i
            · subst hki; omega
            · exact h.2.2.2 k (by omega) (by omega)
    · have hv0 : (lineAt row i).valid = false := by simpa using hv
      rw [if_pos (by simp [hv0])]
      left
      exact ⟨le_refl _, by omega, hv0, fun k hk1 hk2 => by omega⟩

theorem tagsOf_cons (row : List CacheBlock) (i : Nat) (ways : List Nat) :
    tagsOf row (i :: ways) = (lineAt row i).tag :: tagsOf row ways := rfl

theorem mem_tagsOf {row : List CacheBlock} {ways : List Nat} {t : Nat} :
    t ∈ tagsOf row ways ↔ ∃ i, i ∈ ways ∧ (lineAt row i).tag = t := by
  unfold tagsOf
  simp [List.mem_map]

theorem tagsOf_congr {row row1 : List CacheBlock} {ways : List Nat}
    (h : ∀ i, i ∈ ways → (lineAt row1 i).tag = (lineAt row i).tag) :
    tagsOf row1 ways = tagsOf row ways := by
  unfold tagsOf
  exact List.map_congr_left h

/-- The common step of a hit and of a miss: way `r` becomes the most recently used
line with tag `t`, the ways `keep` stay behind it in their order. -/
theorem RowInv.touch {N : Nat} {row row1 : List CacheBlock} {ways keep : List Nat}
    {r t : Nat} (inv : RowInv N row ways) (hr : r < N) (hlen : row1.length = N)
    (hline : ∀ j, lineAt row1 j =
      if j = r then ⟨true, t, 0⟩
      else if j < N ∧ (lineAt row j).valid = true then
        ⟨true, (lineAt row j).tag, (lineAt row j).lruCounter + 1⟩
      else lineAt row j)
    (hsub : keep.Sublist ways) (hrk : r ∉ keep)
    (hways : ∀ j, j ∈ ways → j = r ∨ j ∈ keep)
    (hmem : ∀ i, (i = r ∨ i ∈ keep) ↔ i < keep.length + 1)
    (hle : keep.length + 1 ≤ N) (ht : t ∉ tagsOf row keep) :
    RowInv N row1 (r :: keep) ∧ tagsOf row1 (r :: keep) = t :: tagsOf row keep := by
  have hkeep_ways : ∀ j, j ∈ keep → j ∈ ways := fun j hj => hsub.subset hj
  have hkeep_lt : ∀ j, j ∈ keep → j < N := fun j hj =>
    lt_of_lt_of_le ((inv.mem_iff j).mp (hkeep_ways j hj)) inv.length_le
  have hkeep_valid : ∀ j, j ∈ keep → (lineAt row j).valid = true := fun j hj =>
    (inv.valid_iff j (hkeep_lt j hj)).mpr ((inv.mem_iff j).mp (hkeep_ways j hj))
  have hkeep_ne : ∀ j, j ∈ keep → j ≠ r := fun j hj h => hrk (h ▸ hj)
  have hkeep_line : ∀ j, j ∈ keep → lineAt row1 j =
      ⟨true, (lineAt row j).tag, (lineAt row j).lruCounter + 1⟩ := by
    intro j hj
    rw [hline j, if_neg (hkeep_ne j hj), if_pos ⟨hkeep_lt j hj, hkeep_valid j hj⟩]
  have hr_line : lineAt row1 r = ⟨true, t, 0⟩ := by rw [hline r, if_pos rfl]
  have htags : tagsOf row1 keep = tagsOf row keep :=
    tagsOf_congr (fun j hj => by rw [hkeep_line j hj])
  have htags1 : tagsOf row1 (r :: keep) = t :: tagsOf row keep := by
    rw [tagsOf_cons, hr_line, htags]
  refine ⟨⟨hlen, ?_, ?_, ?_, ?_, ?_, ?_⟩, htags1⟩
  · exact List.nodup_cons.mpr ⟨hrk, inv.nodup.sublist hsub⟩
  · intro i
    rw [List.mem_cons, List.length_cons]
    exact hmem i
  · rw [List.length_cons]; exact hle
  · intro i hi
    rw [List.length_cons, ← hmem i]
    by_cases hir : i = r
    · subst hir
      rw [hr_line]
      simp
    · rw [hline i, if_neg hir]
      by_cases hv : (lineAt row i).valid = true
      · rw [if_pos ⟨hi, hv⟩]
        have hiw : i ∈ ways := (inv.mem_iff i).mpr ((inv.valid_iff i hi).mp hv)
        simp only [true_iff]
        exact hways i hiw
      · rw [if_neg (fun h => hv h.2)]
        constructor
        · intro h; exact absurd h hv
        · rintro (h | h)
          · exact absurd h hir
          · exact absurd (hkeep_valid i h) hv
  · rw [List.pairwise_cons]
    constructor
    · intro j hj
      rw [hr_line, hkeep_line j hj]
      exact Nat.succ_pos _
    · have hp := inv.counters.sublist hsub
      refine List.Pairwise.imp_of_mem ?_ hp
      intro a b ha hb hab
      rw [hkeep_line a ha, hkeep_line b hb]
      exact Nat.succ_lt_succ hab
  · rw [htags1]
    refine List.nodup_cons.mpr ⟨ht, ?_⟩
    exact inv.tags_nodup.sublist (List.Sublist.map _ hsub)

theorem tagsOf_erase {row : List CacheBlock} :
    ∀ {ways : List Nat} {i0 : Nat}, (tagsOf row ways).Nodup → i0 ∈ ways →
      tagsOf row (ways.erase i0) = (tagsOf row ways).erase (lineAt row i0).tag := by
  intro ways
  induction ways with
  | nil => intro i0 _ h; cases h
  | cons x l ih =>
    intro i0 hnd hmem
    rw [tagsOf_cons] at hnd
    obtain ⟨hx, hl⟩ := List.nodup_cons.mp hnd
    by_cases hxi : x = i0
    · subst hxi
      rw [List.erase_cons_head, tagsOf_cons, List.erase_cons_head]
    · have hi0 : i0 ∈ l := by
        rcases List.mem_cons.mp hmem with h | h
        · exact absurd h.symm hxi
        · exact h
      have hne : (lineAt row x).tag ≠ (lineAt row i0).tag := by
        intro h
        apply hx
        rw [h]
        exact mem_tagsOf.mpr ⟨i0, hi0, rfl⟩
      rw [List.erase_cons_tail (by simpa using hxi), tagsOf_cons, tagsOf_cons,
        List.erase_cons_tail (by simpa using hne), ih hl hi0]

theorem tagsOf_length (row : List CacheBlock) (ways : List Nat) :
    (tagsOf row ways).length = ways.length := by
  unfold tagsOf
  exact List.length_map _ _

theorem RowInv.mem_lt {N : Nat} {row : List CacheBlock} {ways : List Nat}
    (inv : RowInv N row ways) {j : Nat} (hj : j ∈ ways) : j < N :=
  lt_of_lt_of_le ((inv.mem_iff j).mp hj) inv.length_le

theorem RowInv.mem_valid {N : Nat} {row : List CacheBlock} {ways : List Nat}
    (inv : RowInv N row ways) {j : Nat} (hj : j ∈ ways) : (lineAt row j).valid = true :=
  (inv.valid_iff j (inv.mem_lt hj)).mpr ((inv.mem_iff j).mp hj)

/-- A tag is resident in the set exactly when some way below `N` is valid with it. -/
theorem RowInv.mem_tags_iff {N : Nat} {row : List CacheBlock} {ways : List Nat}
    (inv : RowInv N row ways) (t : Nat) :
    t ∈ tagsOf row ways ↔
      ∃ k, k < N ∧ (lineAt row k).valid = true ∧ (lineAt row k).tag = t := by
  rw [mem_tagsOf]
  constructor
  · rintro ⟨i, hi, ht⟩
    exact ⟨i, inv.mem_lt hi, inv.mem_valid hi, ht⟩
  · rintro ⟨k, hk, hv, ht⟩
    exact ⟨k, (inv.mem_iff k).mpr ((inv.valid_iff k hk).mp hv), ht⟩

/-- A hit on way `i0`: the set keeps its lines, way `i0` moves to the front of the
recency order. -/
theorem RowInv.hit {N : Nat} {row : List CacheBlock} {ways : List Nat} {i0 t : Nat}
    (inv : RowInv N row ways) (hi0 : i0 < N) (hv : (lineAt row i0).valid = true)
    (htag : (lineAt row i0).tag = t) :
    RowInv N (updateLRUCountersLoop i0 N 0 row) (i0 :: ways.erase i0) ∧
      tagsOf (updateLRUCountersLoop i0 N 0 row) (i0 :: ways.erase i0)
        = lruTouch N (tagsOf row ways) t := by
  have hmem0 : i0 ∈ ways := (inv.mem_iff i0).mpr ((inv.valid_iff i0 hi0).mp hv)
  have hlenE : (ways.erase i0).length + 1 = ways.length := by
    rw [List.length_erase_of_mem hmem0]
    have := List.length_pos_of_mem hmem0
    omega
  have hte : tagsOf row (ways.erase i0) = (tagsOf row ways).erase t := by
    rw [tagsOf_erase inv.tags_nodup hmem0, htag]
  have key := @RowInv.touch N row (updateLRUCountersLoop i0 N 0 row) ways (ways.erase i0)
    i0 t inv hi0
    (by rw [updateLRUCountersLoop_length]; exact inv.length_eq)
    (by
      intro j
      rw [lineAt_updateLRUCountersLoop]
      by_cases hj : j = i0
      · subst hj
        simp [hv, hi0, htag]
      · simp [hj])
    (List.erase_sublist _ _)
    (fun h => (inv.nodup.mem_erase_iff.mp h).1 rfl)
    (by
      intro j hj
      by_cases h : j = i0
      · exact Or.inl h
      · exact Or.inr (inv.nodup.mem_erase_iff.mpr ⟨h, hj⟩))
    (by
      intro i
      rw [hlenE, ← inv.mem_iff i, inv.nodup.mem_erase_iff]
      constructor
      · rintro (h | h)
        · rw [h]; exact hmem0
        · exact h.2
      · intro h
        by_cases hi : i = i0
        · exact Or.inl hi
        · exact Or.inr ⟨hi, h⟩)
    (by rw [hlenE]; exact inv.length_le)
    (by
      rw [hte]
      exact fun h => (inv.tags_nodup.mem_erase_iff.mp h).1 rfl)
  refine ⟨key.1, ?_⟩
  rw [key.2, hte]
  unfold lruTouch
  rw [List.take_of_length_le]
  rw [List.length_cons, ← hte, tagsOf_length, hlenE]
  exact inv.length_le

/-- While the set has an invalid line, `findLRUBlockIndex` returns the first invalid
way, which is the number of valid lines. -/
theorem RowInv.findLRU_of_not_full {N : Nat} {row : List CacheBlock} {ways : List Nat}
    (inv : RowInv N row ways) (hlt : ways.length < N) :
    findLRUBlockIndexLoop row N 0 0 0 = ways.length := by
  rcases findLRUBlockIndexLoop_spec row N 0 0 0 with ⟨_, h2, h3, h4⟩ | ⟨hall, _⟩
  · rw [Nat.zero_add] at h2
    have h5 : ¬ findLRUBlockIndexLoop row N 0 0 0 < ways.length := by
      intro h
      rw [(inv.valid_iff _ h2).mpr h] at h3
      cases h3
    by_contra hne
    have h6 : ways.length < findLRUBlockIndexLoop row N 0 0 0 := by omega
    have := (inv.valid_iff _ hlt).mp (h4 _ (Nat.zero_le _) h6)
    omega
  · have := (inv.valid_iff _ hlt).mp (hall _ (Nat.zero_le _) (by omega))
    omega

/-- When every line of the set is valid, `findLRUBlockIndex` returns the least recently
used way. -/
theorem RowInv.findLRU_of_full {N : Nat} {row : List CacheBlock} {ways : List Nat}
    (inv : RowInv N row ways) (hN : 1 ≤ N) (hfull : ways.length = N) :
    findLRUBlockIndexLoop row N 0 0 0 < N ∧
      ways = ways.dropLast ++ [findLRUBlockIndexLoop row N 0 0 0] := by
  have hne : ways ≠ [] := by
    intro h
    rw [h] at hfull
    simp at hfull
    omega
  have hmax : findLRUBlockIndexLoop row N 0 0 0 < N ∧ ∀ k, k < N →
      (lineAt row k).lruCounter
        ≤ (lineAt row (findLRUBlockIndexLoop row N 0 0 0)).lruCounter := by
    rcases findLRUBlockIndexLoop_spec row N 0 0 0 with ⟨_, h2, h3, _⟩ | ⟨_, h | h⟩
    · rw [Nat.zero_add] at h2
      rw [(inv.valid_iff _ h2).mpr (by omega)] at h3
      cases h3
    · refine ⟨by rw [h.1]; omega, fun k hk => ?_⟩
      exact le_trans (h.2 k (Nat.zero_le _) (by omega)) (Nat.zero_le _)
    · exact ⟨by omega, fun k hk => h.2.2.2 k (Nat.zero_le _) (by omega)⟩
  refine ⟨hmax.1, ?_⟩
  have hsplit := List.dropLast_append_getLast hne
  have hr_mem : findLRUBlockIndexLoop row N 0 0 0 ∈ ways :=
    (inv.mem_iff _).mpr (by omega)
  have hlast_mem : ways.getLast hne ∈ ways := List.getLast_mem hne
  have hpw := inv.counters
  rw [← hsplit, List.pairwise_append] at hpw
  have hnot : findLRUBlockIndexLoop row N 0 0 0 ∉ ways.dropLast := by
    intro h
    have h1 := hpw.2.2 _ h (ways.getLast hne) (List.mem_singleton.mpr rfl)
    have h2 := hmax.2 (ways.getLast hne) (inv.mem_lt hlast_mem)
    omega
  rw [← hsplit, List.mem_append] at hr_mem
  rcases hr_mem with h | h
  · exact absurd h hnot
  · rw [List.mem_singleton] at h
    rw [h]
    exact hsplit.symm

theorem lineAt_miss {N : Nat} {row : List CacheBlock} {r t : Nat}
    (hlen : row.length = N) (hr : r < N) (j : Nat) :
    lineAt (updateLRUCountersLoop r N 0 (row.set r ⟨true, t, 0⟩)) j =
      if j = r then ⟨true, t, 0⟩
      else if j < N ∧ (lineAt row j).valid = true then
        ⟨true, (lineAt row j).tag, (lineAt row j).lruCounter + 1⟩
      else lineAt row j := by
  rw [lineAt_updateLRUCountersLoop, lineAt_set]
  by_cases hj : j = r
  · subst hj
    simp [hlen, hr]
  · simp [hj]

/-- A miss: the way chosen by `findLRUBlockIndex` receives the tag and moves to the
front of the recency order; when the set was full the least recently used tag
leaves it. -/
theorem RowInv.miss {N : Nat} {row : List CacheBlock} {ways : List Nat} {t : Nat}
    (inv : RowInv N row ways) (hN : 1 ≤ N) (ht : t ∉ tagsOf row ways) :
    ∃ ways1,
      RowInv N (updateLRUCountersLoop (findLRUBlockIndexLoop row N 0 0 0) N 0
        (row.set (findLRUBlockIndexLoop row N 0 0 0) ⟨true, t, 0⟩)) ways1 ∧
      tagsOf (updateLRUCountersLoop (findLRUBlockIndexLoop row N 0 0 0) N 0
        (row.set (findLRUBlockIndexLoop row N 0 0 0) ⟨true, t, 0⟩)) ways1
        = lruTouch N (tagsOf row ways) t := by
  have htouch : lruTouch N (tagsOf row ways) t = t :: (tagsOf row ways).take (N - 1) := by
    unfold lruTouch
    rw [List.erase_of_not_mem ht]
    obtain ⟨M, rfl⟩ : ∃ M, N = M + 1 := ⟨N - 1, by omega⟩
    rw [List.take_succ_cons]
    rfl
  rcases Nat.lt_or_ge ways.length N with hlt | hge
  · have hr := inv.findLRU_of_not_full hlt
    have key := @RowInv.touch N row (updateLRUCountersLoop (findLRUBlockIndexLoop row N 0 0 0)
      N 0 (row.set (findLRUBlockIndexLoop row N 0 0 0) ⟨true, t, 0⟩)) ways ways
      (findLRUBlockIndexLoop row N 0 0 0) t inv (by rw [hr]; exact hlt)
      (by rw [updateLRUCountersLoop_length, List.length_set]; exact inv.length_eq)
      (lineAt_miss inv.length_eq (by rw [hr]; exact hlt))
      (List.Sublist.refl _)
      (by rw [hr, inv.mem_iff]; omega)
      (fun j hj => Or.inr hj)
      (by
        intro i
        rw [hr, inv.mem_iff]
        omega)
      (by omega) ht
    refine ⟨_, key.1, ?_⟩
    rw [key.2, htouch, List.take_of_length_le]
    rw [tagsOf_length]
    omega
  · have hfull : ways.length = N := le_antisymm inv.length_le hge
    obtain ⟨hr, hsplit⟩ := inv.findLRU_of_full hN hfull
    have hnd := inv.nodup
    rw [hsplit, List.nodup_append] at hnd
    have hlenD : ways.dropLast.length + 1 = N := by
      rw [List.length_dropLast, hfull]
      omega
    have key := @RowInv.touch N row (updateLRUCountersLoop (findLRUBlockIndexLoop row N 0 0 0)
      N 0 (row.set (findLRUBlockIndexLoop row N 0 0 0) ⟨true, t, 0⟩)) ways ways.dropLast
      (findLRUBlockIndexLoop row N 0 0 0) t inv hr
      (by rw [updateLRUCountersLoop_length, List.length_set]; exact inv.length_eq)
      (lineAt_miss inv.length_eq hr)
      (List.dropLast_sublist _)
      (fun h => hnd.2.2 h (List.mem_singleton.mpr rfl) )
      (by
        intro j hj
        rw [hsplit, List.mem_append, List.mem_singleton] at hj
        exact hj.symm)
      (by
        intro i
        have h1 : i < N ↔ i ∈ ways := by rw [inv.mem_iff, hfull]
        have h2 : i ∈ ways ↔
            (i ∈ ways.dropLast ∨ i = findLRUBlockIndexLoop row N 0 0 0) := by
          conv_lhs => rw [hsplit]
          rw [List.mem_append, List.mem_singleton]
        rw [hlenD, h1, h2]
        exact Or.comm)
      (by omega)
      (fun h => ht ((List.Sublist.map _ (List.dropLast_sublist ways)).subset h))
    refine ⟨_, key.1, ?_⟩
    rw [key.2, htouch]
    unfold tagsOf
    rw [List.map_dropLast, List.dropLast_eq_take, List.length_map, hfull]

/-- One call of `access` on a set that satisfies the invariant: the flag is `true`
exactly when the tag is resident, the invariant holds again, and the recency
order of the tags is that of the reference list after one touch. -/
theorem RowInv.accessRow {N : Nat} {row : List CacheBlock} {ways : List Nat}
    (inv : RowInv N row ways) (hN : 1 ≤ N) (t : Nat) :
    (accessRow N row t).1 = decide (t ∈ tagsOf row ways) ∧
      ∃ ways1, RowInv N (accessRow N row t).2 ways1 ∧
        tagsOf (accessRow N row t).2 ways1 = lruTouch N (tagsOf row ways) t := by
  unfold Cache183924.accessRow
  cases hl : accessLoop row t N 0 with
  | some i0 =>
    obtain ⟨_, h2, h3, h4, _⟩ := accessLoop_some _ _ _ hl
    have hi0 : i0 < N := by omega
    have hmem : t ∈ tagsOf row ways := (inv.mem_tags_iff t).mpr ⟨i0, hi0, h3, h4⟩
    refine ⟨by simp [hmem], _, (inv.hit hi0 h3 h4).1, (inv.hit hi0 h3 h4).2⟩
  | none =>
    have hnone := (accessLoop_none _ _).mp hl
    have hmem : t ∉ tagsOf row ways := by
      intro h
      obtain ⟨k, hk, hv, ht⟩ := (inv.mem_tags_iff t).mp h
      exact hnone k (Nat.zero_le _) (by omega) ⟨hv, ht⟩
    refine ⟨by simp [hmem], ?_⟩
    exact inv.miss hN hmem

theorem rowAt_set (c : Cache) (cache1 : List (List CacheBlock)) (index s : Nat)
    (row : List CacheBlock) (h : index < c.cache.length)
    (hc : cache1 = c.cache.set index row) :
    cache1.getD s [] = if s = index then row else rowAt c s := by
  subst hc
  unfold rowAt
  simp only [List.getD_eq_getElem?_getD, List.getElem?_set]
  by_cases hs : index = s
  · subst hs; simp [h]
  · have : ¬ s = index := fun h => hs h.symm
    simp [hs, this]

/-- One call of `access`, read on the selected set: the call returns the flag of
`accessRow`, replaces the lines of the selected set by those of `accessRow`, and
leaves the other sets and the configuration alone. -/
theorem access_eq_accessRow {c : Cache} (a : Nat)
    (hz : ¬(c.blockSize = 0 ∨ c.setSize = 0 ∨ tagDivisor c = 0))
    (hidx : indexOf c a < c.cache.length) :
    ∃ c1, access c a
        = some ((accessRow c.associativity (rowAt c (indexOf c a)) (tagOf c a)).1, c1) ∧
      c1.cache = c.cache.set (indexOf c a)
        (accessRow c.associativity (rowAt c (indexOf c a)) (tagOf c a)).2 ∧
      c1.setSize = c.setSize ∧ c1.associativity = c.associativity ∧
      c1.blockSize = c.blockSize := by
  unfold access accessRow
  rw [if_neg hz]
  simp only
  have hrow : ∀ t, rowAt { c with totalAccesses := t } (indexOf c a) = rowAt c (indexOf c a) :=
    fun _ => rfl
  have hidx1 : ∀ t, indexOf { c with totalAccesses := t } a = indexOf c a := fun _ => rfl
  have htag1 : ∀ t, tagOf { c with totalAccesses := t } a = tagOf c a := fun _ => rfl
  rw [hidx1, htag1, hrow]
  cases hl : accessLoop (rowAt c (indexOf c a)) (tagOf c a) c.associativity 0 with
  | some i =>
    exact ⟨_, rfl, rfl, rfl, rfl, rfl⟩
  | none =>
    refine ⟨_, rfl, ?_, rfl, rfl, rfl⟩
    simp only [updateLRUCounters, findLRUBlockIndex, rowAt]
    rw [List.set_set]
    congr 1
    simp only [List.getD_eq_getElem?_getD, List.getElem?_set, hidx, if_true]
    rfl

theorem rowAt_access {c c1 : Cache} {row : List CacheBlock} {index : Nat}
    (hidx : index < c.cache.length) (hc : c1.cache = c.cache.set index row) (s : Nat) :
    rowAt c1 s = if s = index then row else rowAt c s :=
  rowAt_set c c1.cache index s row hidx hc

/-- The invariant of the whole cache is kept by `access`, which returns `true` exactly
when the tag is in the recency list of the selected set. -/
theorem CacheInv.access {c : Cache} {m : Nat → List Nat} (inv : CacheInv c m)
    (hN : 1 ≤ c.associativity)
    (hz : ¬(c.blockSize = 0 ∨ c.setSize = 0 ∨ tagDivisor c = 0)) (a : Nat) :
    ∃ c1, Cache183924.access c a = some (decide (tagOf c a ∈ m (indexOf c a)), c1) ∧
      CacheInv c1 (lruAccess c.associativity m (indexOf c a) (tagOf c a)) ∧
      c1.setSize = c.setSize ∧ c1.associativity = c.associativity ∧
      c1.blockSize = c.blockSize := by
  have hs0 : 0 < c.setSize := Nat.pos_of_ne_zero (fun h => hz (Or.inr (Or.inl h)))
  have hidx : indexOf c a < c.setSize := Nat.mod_lt _ hs0
  have hidx1 : indexOf c a < c.cache.length := by rw [inv.length_eq]; exact hidx
  obtain ⟨ways, hrow, htags⟩ := inv.rows _ hidx
  obtain ⟨c1, h1, h2, h3, h4, h5⟩ := access_eq_accessRow a hz hidx1
  obtain ⟨hflag, ways1, hinv1, htags1⟩ := hrow.accessRow hN (tagOf c a)
  refine ⟨c1, ?_, ⟨?_, ?_⟩, h3, h4, h5⟩
  · rw [h1, hflag, htags]
  · rw [h2, List.length_set, h3]; exact inv.length_eq
  · intro s hs
    rw [h3] at hs
    rw [rowAt_access hidx1 h2 s, h4]
    unfold lruAccess
    by_cases hsi : s = indexOf c a
    · rw [if_pos hsi, if_pos hsi, hsi, ← htags]
      exact ⟨ways1, hinv1, htags1⟩
    · rw [if_neg hsi, if_neg hsi]
      exact inv.rows s hs

theorem CacheInv.new (setSize associativity blockSize : Nat) :
    CacheInv (Cache.new setSize associativity blockSize) (fun _ => []) := by
  refine ⟨by simp [Cache.new], fun s hs => ⟨[], ⟨?_, ?_, ?_, ?_, ?_, ?_, ?_⟩, rfl⟩⟩
  · rw [rowAt_new]
    have hs1 : s < setSize := hs
    simp [hs1, Cache.new]
  · exact List.nodup_nil
  · intro i; simp
  · exact Nat.zero_le _
  · intro i _
    rw [lineAt_new]
    simp
  · exact List.Pairwise.nil
  · exact List.nodup_nil

/-- Refinement, on keys: a cache that satisfies the invariant returns, on every address
sequence, the flags of the reference strict-LRU lists over the pairs
(set index, tag) that `access` computes. -/
theorem CacheInv.results {c : Cache} {m : Nat → List Nat} (inv : CacheInv c m)
    (hN : 1 ≤ c.associativity)
    (hz : ¬(c.blockSize = 0 ∨ c.setSize = 0 ∨ tagDivisor c = 0)) (addresses : List Nat) :
    ∃ c1, accessAll c addresses
        = some (lruResults c.associativity (fun a => (indexOf c a, tagOf c a)) m addresses, c1) ∧
      CacheInv c1
        (lruStates c.associativity (fun a => (indexOf c a, tagOf c a)) m addresses) ∧
      c1.setSize = c.setSize ∧ c1.associativity = c.associativity ∧
      c1.blockSize = c.blockSize := by
  induction addresses generalizing c m with
  | nil => exact ⟨c, rfl, inv, rfl, rfl, rfl⟩
  | cons a rest ih =>
    obtain ⟨c1, h1, hinv1, h3, h4, h5⟩ := inv.access hN hz a
    have hz1 : ¬(c1.blockSize = 0 ∨ c1.setSize = 0 ∨ tagDivisor c1 = 0) := by
      unfold tagDivisor at hz ⊢
      rw [h3, h5]; exact hz
    obtain ⟨c2, h6, hinv2, h7, h8, h9⟩ := ih hinv1 (by rw [h4]; exact hN) hz1
    have hkey : (fun a => (indexOf c1 a, tagOf c1 a)) = (fun a => (indexOf c a, tagOf c a)) := by
      funext x
      unfold indexOf tagOf tagDivisor
      rw [h3, h5]
    rw [hkey, h4] at h6 hinv2
    refine ⟨c2, ?_, hinv2, by rw [h7, h3], by rw [h8, h4], by rw [h9, h5]⟩
    unfold accessAll
    rw [h1]
    simp only
    rw [h6]
    simp only [lruResults]

theorem accessRow_counter_le {N : Nat} {row : List CacheBlock} {k : Nat} (t : Nat)
    (h : ∀ i, (lineAt row i).lruCounter ≤ k) (i : Nat) :
    (lineAt (accessRow N row t).2 i).lruCounter ≤ k + 1 := by
  unfold accessRow
  split
  · simp only
    rw [lineAt_updateLRUCountersLoop]
    split
    · simp only
      split
      · exact Nat.zero_le _
      · exact Nat.succ_le_succ (h i)
    · exact le_trans (h i) (Nat.le_succ _)
  · simp only
    rw [lineAt_updateLRUCountersLoop]
    have hset : (lineAt (row.set (findLRUBlockIndexLoop row N 0 0 0) ⟨true, t, 0⟩) i).lruCounter
        ≤ k := by
      rw [lineAt_set]
      split
      · exact Nat.zero_le _
      · exact h i
    split
    · simp only
      split
      · exact Nat.zero_le _
      · exact Nat.succ_le_succ hset
    · exact le_trans hset (Nat.le_succ _)

/-- The recency counters are bounded by the number of calls of `access`: after the
addresses of a sequence are fed to a fresh cache, no counter exceeds the length of
the sequence. -/
theorem CacheInv.counter_le {c : Cache} {m : Nat → List Nat} (inv : CacheInv c m)
    (hN : 1 ≤ c.associativity) :
    ∀ (addresses : List Nat) (k : Nat) (hits : List Bool) (c1 : Cache),
      (∀ s i, (lineAt (rowAt c s) i).lruCounter ≤ k) →
      accessAll c addresses = some (hits, c1) →
      ∀ s i, (lineAt (rowAt c1 s) i).lruCounter ≤ k + addresses.length := by
  intro addresses
  induction addresses generalizing c m with
  | nil =>
    intro k hits c1 hk hacc
    simp only [accessAll, Option.some.injEq, Prod.mk.injEq] at hacc
    rw [← hacc.2]
    exact hk
  | cons a rest ih =>
    intro k hits c1 hk hacc
    unfold accessAll at hacc
    cases hstep : Cache183924.access c a with
    | none => rw [hstep] at hacc; cases hacc
    | some p =>
      obtain ⟨hit, c2⟩ := p
      rw [hstep] at hacc
      simp only at hacc
      obtain ⟨_, h2, _, hz⟩ := access_config hstep
      obtain ⟨c2', h4, inv2, h5, _, _⟩ := inv.access hN hz a
      rw [hstep] at h4
      simp only [Option.some.injEq, Prod.mk.injEq] at h4
      obtain ⟨_, h4c⟩ := h4
      subst h4c
      have hs0 : 0 < c.setSize := Nat.pos_of_ne_zero (fun h => hz (Or.inr (Or.inl h)))
      have hidx1 : indexOf c a < c.cache.length := by
        rw [inv.length_eq]; exact Nat.mod_lt _ hs0
      obtain ⟨c3, h6, h7, _⟩ := access_eq_accessRow a hz hidx1
      rw [hstep] at h6
      simp only [Option.some.injEq, Prod.mk.injEq] at h6
      obtain ⟨_, h6c⟩ := h6
      subst h6c
      have hk2 : ∀ s i, (lineAt (rowAt c2 s) i).lruCounter ≤ k + 1 := by
        intro s i
        rw [rowAt_access hidx1 h7 s]
        split
        · exact accessRow_counter_le _ (hk _) i
        · exact le_trans (hk s i) (Nat.le_succ _)
      cases hrest : accessAll c2 rest with
      | none => rw [hrest] at hacc; cases hacc
      | some q =>
        obtain ⟨hits2, c4⟩ := q
        rw [hrest] at hacc
        simp only [Option.some.injEq, Prod.mk.injEq] at hacc
        rw [← hacc.2]
        intro s i
        have := ih inv2 (by rw [h2]; exact hN) (k + 1) hits2 c4 hk2 hrest s i
        rw [List.length_cons]
        omega

/-- No recency counter of a cache reached from a fresh one exceeds the number of
accesses made, so a 64-bit counter cannot wrap within `2 ^ 64` accesses. -/
theorem counter_le_length (setSize N blockSize : Nat) (hN : 1 ≤ N) (addresses : List Nat)
    (hits : List Bool) (c : Cache)
    (hacc : accessAll (Cache.new setSize N blockSize) addresses = some (hits, c))
    (s i : Nat) : (lineAt (rowAt c s) i).lruCounter ≤ addresses.length := by
  have := (CacheInv.new setSize N blockSize).counter_le hN addresses 0 hits c
    (by intro s i; rw [lineAt_new]) hacc s i
  omega

/-! ### The reference lists and the wording of the specification -/

theorem mem_recentDistinct {x : Nat} : ∀ {l : List Nat}, x ∈ recentDistinct l ↔ x ∈ l := by
  intro l
  induction l with
  | nil => simp [recentDistinct]
  | cons b older ih =>
    simp only [recentDistinct, List.mem_cons, List.mem_filter, decide_eq_true_eq, ih]
    constructor
    · rintro (h | h)
      · exact Or.inl h
      · exact Or.inr h.1
    · rintro (h | h)
      · exact Or.inl h
      · by_cases hx : x = b
        · exact Or.inl hx
        · exact Or.inr ⟨h, hx⟩

theorem recentDistinct_nodup : ∀ (l : List Nat), (recentDistinct l).Nodup := by
  intro l
  induction l with
  | nil => exact List.nodup_nil
  | cons b older ih =>
    simp only [recentDistinct]
    refine List.nodup_cons.mpr ⟨?_, ih.filter _⟩
    simp [List.mem_filter]

/-- Cutting a duplicate-free list to `M + 1` entries before removing one key does not
change the first `M` entries that remain. -/
theorem take_filter_take (B : Nat) :
    ∀ (R : List Nat) (M : Nat), R.Nodup →
      ((R.take (M + 1)).filter (fun x => decide (x ≠ B))).take M
        = (R.filter (fun x => decide (x ≠ B))).take M := by
  intro R
  induction R with
  | nil => intro M _; simp
  | cons x R ih =>
    intro M hnd
    obtain ⟨hx, hR⟩ := List.nodup_cons.mp hnd
    rw [List.take_succ_cons]
    by_cases hxB : x = B
    · subst hxB
      have h1 : ∀ l : List Nat, x ∉ l → l.filter (fun y => decide (y ≠ x)) = l := by
        intro l hl
        rw [List.filter_eq_self]
        intro y hy
        simp only [decide_eq_true_eq]
        exact fun h => hl (h ▸ hy)
      simp only [List.filter_cons, ne_eq, not_true_eq_false, decide_False, Bool.false_eq_true,
        if_false]
      rw [h1 R hx, h1 (R.take M) (fun h => hx (List.mem_of_mem_take h))]
      rw [List.take_take, min_self]
    · have hd : decide (x ≠ B) = true := by simpa using hxB
      simp only [List.filter_cons, hd, if_true]
      cases M with
      | zero => simp
      | succ M =>
        rw [List.take_succ_cons, List.take_succ_cons, ih M hR]

theorem div_eq_of_mod_eq {s x y : Nat} (hm : x % s = y % s) (hd : x / s = y / s) : x = y := by
  rw [← Nat.div_add_mod x s, ← Nat.div_add_mod y s, hm, hd]

theorem map_div_erase (s B : Nat) :
    ∀ (l : List Nat), (∀ x, x ∈ l → x % s = B % s) →
      (l.map (fun x => x / s)).erase (B / s) = (l.erase B).map (fun x => x / s) := by
  intro l
  induction l with
  | nil => intro _; rfl
  | cons x l ih =>
    intro h
    have hx := h x (List.mem_cons_self _ _)
    have hl := fun y hy => h y (List.mem_cons_of_mem _ hy)
    by_cases hxB : x = B
    · subst hxB
      simp
    · have hne : x / s ≠ B / s := fun hd => hxB (div_eq_of_mod_eq hx hd)
      rw [List.map_cons, List.erase_cons_tail (by simpa using hne),
        List.erase_cons_tail (by simpa using hxB), List.map_cons, ih hl]

theorem mem_map_div_iff (s B : Nat) (l : List Nat) (h : ∀ x, x ∈ l → x % s = B % s) :
    B / s ∈ l.map (fun x => x / s) ↔ B ∈ l := by
  rw [List.mem_map]
  constructor
  · rintro ⟨x, hx, hd⟩
    rw [← div_eq_of_mod_eq (h x hx) hd]
    exact hx
  · intro hB
    exact ⟨B, hB, rfl⟩

theorem mem_earlierBlocks {setSize blockSize setIndex : Nat} {earlier : List Nat} {x : Nat}
    (h : x ∈ earlierBlocks setSize blockSize setIndex earlier) : x % setSize = setIndex := by
  unfold earlierBlocks at h
  rw [List.mem_reverse, List.mem_filter] at h
  simpa using h.2

theorem earlierBlocks_append (setSize blockSize setIndex : Nat) (earlier : List Nat) (a : Nat) :
    earlierBlocks setSize blockSize setIndex (earlier ++ [a])
      = if (a / blockSize) % setSize = setIndex then
          (a / blockSize) :: earlierBlocks setSize blockSize setIndex earlier
        else earlierBlocks setSize blockSize setIndex earlier := by
  unfold earlierBlocks
  rw [List.map_append, List.filter_append, List.reverse_append]
  by_cases h : (a / blockSize) % setSize = setIndex
  · simp [h]
  · simp [h]

/-- Touching the block of an address in the reference lists gives the lists that the
specification describes for the history extended by that address. -/
theorem lruAccess_specState (setSize N blockSize : Nat) (earlier : List Nat) (a : Nat) :
    lruAccess N (specState setSize N blockSize earlier)
        ((a / blockSize) % setSize) ((a / blockSize) / setSize)
      = specState setSize N blockSize (earlier ++ [a]) := by
  funext s
  unfold lruAccess specState
  rw [earlierBlocks_append]
  by_cases hs : s = (a / blockSize) % setSize
  · rw [if_pos hs, if_pos hs.symm]
    have hres : ∀ x, x ∈ (recentDistinct (earlierBlocks setSize blockSize s earlier)).take N →
        x % setSize = (a / blockSize) % setSize := by
      intro x hx
      rw [← hs]
      exact mem_earlierBlocks (mem_recentDistinct.mp (List.mem_of_mem_take hx))
    have hnd := recentDistinct_nodup (earlierBlocks setSize blockSize s earlier)
    unfold lruTouch
    rw [map_div_erase setSize (a / blockSize) _ hres]
    have hcons : ∀ X : List Nat, a / blockSize / setSize :: X.map (fun x => x / setSize)
        = (a / blockSize :: X).map (fun x => x / setSize) := fun _ => rfl
    rw [hcons, ← List.map_take]
    congr 1
    cases N with
    | zero => simp
    | succ M =>
      rw [List.take_succ_cons, (hnd.sublist (List.take_sublist _ _)).erase_eq_filter]
      simp only [recentDistinct]
      rw [List.take_succ_cons]
      congr 1
      have hf : (fun x : Nat => x != a / blockSize) = (fun x => decide (x ≠ a / blockSize)) := by
        funext x
        by_cases hx : x = a / blockSize <;> simp [hx]
      rw [hf]
      exact take_filter_take _ _ _ hnd
  · have hs1 : ¬ (a / blockSize) % setSize = s := fun h => hs h.symm
    rw [if_neg hs, if_neg hs1]

/-- On blocks, the reference lists return the flags that the specification describes. -/
theorem lruResults_specState (setSize N blockSize : Nat) :
    ∀ (addresses earlier : List Nat),
      lruResults N (fun a => ((a / blockSize) % setSize, (a / blockSize) / setSize))
          (specState setSize N blockSize earlier) addresses
        = specResultsFrom setSize N blockSize earlier addresses := by
  intro addresses
  induction addresses with
  | nil => intro _; rfl
  | cons a rest ih =>
    intro earlier
    simp only [lruResults, specResultsFrom]
    rw [lruAccess_specState, ih]
    congr 1
    unfold specHit specState
    have hres : ∀ x, x ∈ (recentDistinct
        (earlierBlocks setSize blockSize ((a / blockSize) % setSize) earlier)).take N →
        x % setSize = (a / blockSize) % setSize := by
      intro x hx
      exact mem_earlierBlocks (mem_recentDistinct.mp (List.mem_of_mem_take hx))
    simp only [mem_map_div_iff setSize (a / blockSize) _ hres]

theorem tagDivisor_new {setSize blockSize : Nat} (associativity : Nat)
    (h : blockSize * setSize < 2 ^ 32) :
    tagDivisor (Cache.new setSize associativity blockSize) = blockSize * setSize := by
  unfold tagDivisor u32 Cache.new
  exact Nat.mod_eq_of_lt h

/-- Refinement: when `blockSize * setSize` fits in 32 bits, a fresh cache returns on
every address sequence the flags of the strict-LRU reference of the specification. -/
theorem results_new_eq_specResults (setSize N blockSize : Nat) (hs : 1 ≤ setSize)
    (hN : 1 ≤ N) (hb : 1 ≤ blockSize) (hfit : blockSize * setSize < 2 ^ 32)
    (addresses : List Nat) :
    results (Cache.new setSize N blockSize) addresses
      = some (specResults setSize N blockSize addresses) := by
  have hdiv := tagDivisor_new N hfit
  have hz : ¬((Cache.new setSize N blockSize).blockSize = 0 ∨
      (Cache.new setSize N blockSize).setSize = 0 ∨
      tagDivisor (Cache.new setSize N blockSize) = 0) := by
    rw [hdiv]
    have : 0 < blockSize * setSize := Nat.mul_pos hb hs
    simp only [Cache.new]
    omega
  obtain ⟨c1, h1, _⟩ := (CacheInv.new setSize N blockSize).results hN hz addresses
  unfold results
  rw [h1]
  simp only [Option.map_some']
  congr 1
  have hkey : (fun a => (indexOf (Cache.new setSize N blockSize) a,
      tagOf (Cache.new setSize N blockSize) a))
      = (fun a => ((a / blockSize) % setSize, (a / blockSize) / setSize)) := by
    funext a
    unfold tagOf
    rw [hdiv, Nat.div_div_eq_div_mul]
    rfl
  rw [hkey]
  have h0 : specState setSize N blockSize [] = fun _ => [] := by
    funext s
    simp [specState, earlierBlocks, recentDistinct]
  have h2 := lruResults_specState setSize N blockSize addresses []
  rw [h0] at h2
  exact h2

/-- Every state reachable from a fresh cache with at least one way per set satisfies
the invariant of the whole cache. -/
theorem Reachable.cacheInv {c : Cache} (hr : Reachable c) (hN : 1 ≤ c.associativity) :
    ∃ m, CacheInv c m := by
  induction hr with
  | fresh s n b => exact ⟨_, CacheInv.new s n b⟩
  | @step c0 c1 a hit _ hacc ih =>
    obtain ⟨h1, h2, h3, hz⟩ := access_config hacc
    obtain ⟨m, inv⟩ := ih (by rw [← h2]; exact hN)
    obtain ⟨c2, h4, inv2, _⟩ := inv.access (by rw [← h2]; exact hN) hz a
    rw [hacc] at h4
    cases h4
    exact ⟨_, inv2⟩

theorem lruTouch_head {N : Nat} (hN : 1 ≤ N) (mru : List Nat) (t : Nat) :
    t ∈ lruTouch N mru t := by
  unfold lruTouch
  obtain ⟨M, rfl⟩ : ∃ M, N = M + 1 := ⟨N - 1, by omega⟩
  rw [List.take_succ_cons]
  exact List.mem_cons_self _ _

/-- Immediate re-access, on keys: in a reachable state of a cache with at least one
way, an access that computes the same set index and tag as the access just
before it returns `true`. -/
theorem Reachable.access_again {c c1 : Cache} {a a1 : Nat} {hit : Bool} (hr : Reachable c)
    (hN : 1 ≤ c.associativity) (hacc : access c a = some (hit, c1))
    (hidx : indexOf c a1 = indexOf c a) (htag : tagOf c a1 = tagOf c a) :
    ∃ c2, access c1 a1 = some (true, c2) := by
  obtain ⟨m, inv⟩ := hr.cacheInv hN
  obtain ⟨_, _, _, hz⟩ := access_config hacc
  obtain ⟨c1', h4, inv1, h5, h6, h7⟩ := inv.access hN hz a
  rw [hacc] at h4
  cases h4
  have hz1 : ¬(c1.blockSize = 0 ∨ c1.setSize = 0 ∨ tagDivisor c1 = 0) := by
    unfold tagDivisor at hz ⊢
    rw [h5, h7]; exact hz
  obtain ⟨c2, h8, _⟩ := inv1.access (by rw [h6]; exact hN) hz1 a1
  refine ⟨c2, ?_⟩
  rw [h8]
  have hi : indexOf c1 a1 = indexOf c a := by
    unfold indexOf at hidx ⊢
    rw [h5, h7]; exact hidx
  have ht : tagOf c1 a1 = tagOf c a := by
    unfold tagOf tagDivisor at htag ⊢
    rw [h5, h7]; exact htag
  rw [hi, ht]
  have : tagOf c a ∈ lruAccess c.associativity m (indexOf c a) (tagOf c a) (indexOf c a) := by
    unfold lruAccess
    rw [if_pos rfl]
    exact lruTouch_head hN _ _
  simp [this]

theorem tagOf_eq_div_div {c : Cache} (hfit : c.blockSize * c.setSize < 2 ^ 32) (a : Nat) :
    tagOf c a = (a / c.blockSize) / c.setSize := by
  unfold tagOf tagDivisor u32
  rw [Nat.mod_eq_of_lt hfit, Nat.div_div_eq_div_mul]

/-- Immediate re-access, on blocks: when `blockSize * setSize` fits in 32 bits, an
access to the block of the access just before it returns `true`. -/
theorem Reachable.access_same_block {c c1 : Cache} {a a1 : Nat} {hit : Bool}
    (hr : Reachable c) (hN : 1 ≤ c.associativity)
    (hfit : c.blockSize * c.setSize < 2 ^ 32)
    (hacc : access c a = some (hit, c1)) (hblock : a1 / c.blockSize = a / c.blockSize) :
    ∃ c2, access c1 a1 = some (true, c2) := by
  refine hr.access_again hN hacc ?_ ?_
  · unfold indexOf; rw [hblock]
  · rw [tagOf_eq_div_div hfit, tagOf_eq_div_div hfit, hblock]

/-- An access is defined whenever no divisor of lines 46-47 is zero. -/
theorem access_isSome {c : Cache} (a : Nat)
    (hz : ¬(c.blockSize = 0 ∨ c.setSize = 0 ∨ tagDivisor c = 0)) :
    ∃ hit c1, access c a = some (hit, c1) := by
  unfold access
  rw [if_neg hz]
  simp only
  split
  · exact ⟨_, _, rfl⟩
  · exact ⟨_, _, rfl⟩

/-- Cold miss, on the reference of the specification: a block that no earlier access
touched is not among the recent blocks of its set. -/
theorem specHit_false_of_new_block (setSize N blockSize : Nat) (earlier : List Nat) (a : Nat)
    (hnew : ∀ x, x ∈ earlier → x / blockSize ≠ a / blockSize) :
    specHit setSize N blockSize earlier a = false := by
  unfold specHit
  rw [decide_eq_false_iff_not]
  intro h
  have h1 := mem_recentDistinct.mp (List.mem_of_mem_take h)
  unfold earlierBlocks at h1
  rw [List.mem_reverse, List.mem_filter, List.mem_map] at h1
  obtain ⟨⟨x, hx, hxb⟩, _⟩ := h1
  exact hnew x hx hxb

theorem lruStates_specState (setSize N blockSize : Nat) :
    ∀ (addresses earlier : List Nat),
      lruStates N (fun a => ((a / blockSize) % setSize, (a / blockSize) / setSize))
          (specState setSize N blockSize earlier) addresses
        = specState setSize N blockSize (earlier ++ addresses) := by
  intro addresses
  induction addresses with
  | nil => intro earlier; simp [lruStates]
  | cons a rest ih =>
    intro earlier
    simp only [lruStates]
    rw [lruAccess_specState, ih]
    simp

theorem specState_nil (setSize N blockSize : Nat) :
    specState setSize N blockSize [] = fun _ => [] := by
  funext s
  simp [specState, earlierBlocks, recentDistinct]

theorem key_new {setSize blockSize : Nat} (N : Nat) (hfit : blockSize * setSize < 2 ^ 32) :
    (fun a => (indexOf (Cache.new setSize N blockSize) a,
      tagOf (Cache.new setSize N blockSize) a))
      = (fun a => ((a / blockSize) % setSize, (a / blockSize) / setSize)) := by
  funext a
  rw [tagOf_eq_div_div (by exact hfit)]
  rfl

/-- When `blockSize * setSize` fits in 32 bits, feeding any address sequence to a fresh
cache returns the flags of the reference and leaves every set with the recency
list the specification describes. -/
theorem accessAll_new (setSize N blockSize : Nat) (hs : 1 ≤ setSize)
    (hN : 1 ≤ N) (hb : 1 ≤ blockSize) (hfit : blockSize * setSize < 2 ^ 32)
    (addresses : List Nat) :
    ∃ c, accessAll (Cache.new setSize N blockSize) addresses
        = some (specResults setSize N blockSize addresses, c) ∧
      CacheInv c (specState setSize N blockSize addresses) ∧
      c.setSize = setSize ∧ c.associativity = N ∧ c.blockSize = blockSize := by
  have hdiv := tagDivisor_new N hfit
  have hz : ¬((Cache.new setSize N blockSize).blockSize = 0 ∨
      (Cache.new setSize N blockSize).setSize = 0 ∨
      tagDivisor (Cache.new setSize N blockSize) = 0) := by
    rw [hdiv]
    have : 0 < blockSize * setSize := Nat.mul_pos hb hs
    simp only [Cache.new]
    omega
  obtain ⟨c1, h1, h2, h3, h4, h5⟩ := (CacheInv.new setSize N blockSize).results hN hz addresses
  rw [key_new N hfit, ← specState_nil setSize N blockSize] at h1 h2
  have hN' : (Cache.new setSize N blockSize).associativity = N := rfl
  rw [hN'] at h1 h2
  rw [lruResults_specState] at h1
  rw [lruStates_specState, List.nil_append] at h2
  exact ⟨c1, h1, h2, h3, h4, h5⟩

/-- The flag of one access after any history, when `blockSize * setSize` fits in 32
bits: `access` returns `true` exactly when the block of the address is among the `N`
most recently accessed distinct blocks of its set. -/
theorem access_after (setSize N blockSize : Nat) (hs : 1 ≤ setSize)
    (hN : 1 ≤ N) (hb : 1 ≤ blockSize) (hfit : blockSize * setSize < 2 ^ 32)
    (earlier : List Nat) (a : Nat) :
    ∃ c c1, accessAll (Cache.new setSize N blockSize) earlier
        = some (specResults setSize N blockSize earlier, c) ∧
      access c a = some (specHit setSize N blockSize earlier a, c1) := by
  obtain ⟨c, h1, inv, h3, h4, h5⟩ := accessAll_new setSize N blockSize hs hN hb hfit earlier
  have hfit1 : c.blockSize * c.setSize < 2 ^ 32 := by rw [h3, h5]; exact hfit
  have hz : ¬(c.blockSize = 0 ∨ c.setSize = 0 ∨ tagDivisor c = 0) := by
    unfold tagDivisor u32
    rw [Nat.mod_eq_of_lt hfit1, h3, h5]
    have : 0 < blockSize * setSize := Nat.mul_pos hb hs
    omega
  obtain ⟨c1, h6, _⟩ := inv.access (by rw [h4]; exact hN) hz a
  refine ⟨c, c1, h1, ?_⟩
  rw [h6]
  congr 2
  rw [tagOf_eq_div_div hfit1]
  unfold indexOf specHit specState
  rw [h3, h5]
  have hres : ∀ x, x ∈ (recentDistinct
      (earlierBlocks setSize blockSize ((a / blockSize) % setSize) earlier)).take N →
      x % setSize = (a / blockSize) % setSize := by
    intro x hx
    exact mem_earlierBlocks (mem_recentDistinct.mp (List.mem_of_mem_take hx))
  simp only [mem_map_div_iff setSize (a / blockSize) _ hres]

theorem recentDistinct_append (U X : List Nat) (hU : U.Nodup) :
    ∃ Y, recentDistinct (U ++ X) = U ++ Y := by
  induction U with
  | nil => exact ⟨_, rfl⟩
  | cons u U ih =>
    obtain ⟨hu, hU1⟩ := List.nodup_cons.mp hU
    obtain ⟨Y, hY⟩ := ih hU1
    refine ⟨Y.filter (fun x => decide (x ≠ u)), ?_⟩
    rw [List.cons_append]
    simp only [recentDistinct]
    rw [hY, List.filter_append]
    congr 2
    rw [List.filter_eq_self]
    intro y hy
    simp only [decide_eq_true_eq]
    exact fun h => hu (h ▸ hy)

/-- A block is missed when the `N` or more most recent accesses to its set went to
pairwise distinct other blocks. -/
theorem specHit_false_of_recent {setSize N blockSize : Nat} {earlier : List Nat} {a : Nat}
    {U X : List Nat}
    (hE : earlierBlocks setSize blockSize ((a / blockSize) % setSize) earlier = U ++ X)
    (hU : U.Nodup) (hlen : N ≤ U.length) (hB : a / blockSize ∉ U) :
    specHit setSize N blockSize earlier a = false := by
  unfold specHit
  rw [decide_eq_false_iff_not, hE]
  obtain ⟨Y, hY⟩ := recentDistinct_append U X hU
  rw [hY, List.take_append_of_le_length hlen]
  exact fun h => hB (List.mem_of_mem_take h)

/-- A block is hit when it is among the most recent accesses to its set and these went
to at most `N` pairwise distinct blocks. -/
theorem specHit_true_of_recent {setSize N blockSize : Nat} {earlier : List Nat} {a : Nat}
    {U X : List Nat}
    (hE : earlierBlocks setSize blockSize ((a / blockSize) % setSize) earlier = U ++ X)
    (hU : U.Nodup) (hlen : U.length ≤ N) (hB : a / blockSize ∈ U) :
    specHit setSize N blockSize earlier a = true := by
  unfold specHit
  rw [decide_eq_true_eq, hE]
  obtain ⟨Y, hY⟩ := recentDistinct_append U X hU
  rw [hY, List.take_append_eq_append_take, List.take_of_length_le hlen]
  exact List.mem_append_left _ hB

theorem earlierBlocks_of_same_set {setSize blockSize setIndex : Nat} {l : List Nat}
    (h : ∀ x, x ∈ l → (x / blockSize) % setSize = setIndex) :
    earlierBlocks setSize blockSize setIndex l = (l.map (fun a => a / blockSize)).reverse := by
  unfold earlierBlocks
  rw [List.filter_eq_self.mpr]
  intro y hy
  obtain ⟨x, hx, rfl⟩ := List.mem_map.mp hy
  simpa using h x hx

theorem earlierBlocks_append_list (setSize blockSize setIndex : Nat) (l1 l2 : List Nat) :
    earlierBlocks setSize blockSize setIndex (l1 ++ l2)
      = earlierBlocks setSize blockSize setIndex l2
        ++ earlierBlocks setSize blockSize setIndex l1 := by
  unfold earlierBlocks
  rw [List.map_append, List.filter_append, List.reverse_append]

/-- Eviction order on the reference: after `N + 1` accesses to pairwise distinct blocks
of one set, the first block is missed and the other `N` blocks are hit. -/
theorem specHit_after_distinct_blocks {setSize N blockSize : Nat} (a1 : Nat)
    (rest : List Nat) (hlen : rest.length = N)
    (hnd : ((a1 :: rest).map (fun x => x / blockSize)).Nodup)
    (hset : ∀ x, x ∈ rest → (x / blockSize) % setSize = (a1 / blockSize) % setSize) :
    (∀ a, a / blockSize = a1 / blockSize →
        specHit setSize N blockSize (a1 :: rest) a = false) ∧
      (∀ a x, x ∈ rest → a / blockSize = x / blockSize →
        specHit setSize N blockSize (a1 :: rest) a = true) := by
  rw [List.map_cons, List.nodup_cons] at hnd
  have hall : ∀ x, x ∈ a1 :: rest → (x / blockSize) % setSize = (a1 / blockSize) % setSize := by
    intro x hx
    rcases List.mem_cons.mp hx with h | h
    · rw [h]
    · exact hset x h
  have hE : earlierBlocks setSize blockSize ((a1 / blockSize) % setSize) (a1 :: rest)
      = (rest.map (fun x => x / blockSize)).reverse ++ [a1 / blockSize] := by
    rw [earlierBlocks_of_same_set hall, List.map_cons, List.reverse_cons]
  have hU : ((rest.map (fun x => x / blockSize)).reverse).Nodup :=
    List.nodup_reverse.mpr hnd.2
  have hUlen : ((rest.map (fun x => x / blockSize)).reverse).length = N := by
    rw [List.length_reverse, List.length_map, hlen]
  constructor
  · intro a ha
    refine specHit_false_of_recent (U := (rest.map (fun x => x / blockSize)).reverse)
      (X := [a1 / blockSize]) ?_ hU (by rw [hUlen]) ?_
    · rw [ha]; exact hE
    · rw [ha, List.mem_reverse]; exact hnd.1
  · intro a x hx ha
    refine specHit_true_of_recent (U := (rest.map (fun x => x / blockSize)).reverse)
      (X := [a1 / blockSize]) ?_ hU (by rw [hUlen]) ?_
    · rw [ha, hset x hx]; exact hE
    · rw [ha, List.mem_reverse]; exact List.mem_map.mpr ⟨x, hx, rfl⟩

theorem specResultsFrom_append (setSize N blockSize : Nat) :
    ∀ (l1 l2 earlier : List Nat),
      specResultsFrom setSize N blockSize earlier (l1 ++ l2)
        = specResultsFrom setSize N blockSize earlier l1
          ++ specResultsFrom setSize N blockSize (earlier ++ l1) l2 := by
  intro l1
  induction l1 with
  | nil => intro l2 earlier; simp [specResultsFrom]
  | cons a l1 ih =>
    intro l2 earlier
    rw [List.cons_append]
    show specHit setSize N blockSize earlier a ::
        specResultsFrom setSize N blockSize (earlier ++ [a]) (l1 ++ l2) = _
    rw [ih]
    simp [specResultsFrom]

theorem specResultsFrom_all_false (setSize N blockSize : Nat) :
    ∀ (l earlier : List Nat),
      (∀ P a S, l = P ++ a :: S → specHit setSize N blockSize (earlier ++ P) a = false) →
      specResultsFrom setSize N blockSize earlier l = List.replicate l.length false := by
  intro l
  induction l with
  | nil => intro _ _; rfl
  | cons a l ih =>
    intro earlier h
    simp only [specResultsFrom, List.length_cons, List.replicate_succ]
    have h0 := h [] a l rfl
    rw [List.append_nil] at h0
    rw [h0, ih (earlier ++ [a])]
    intro P b S hl
    have := h (a :: P) b S (by rw [hl]; rfl)
    rw [List.append_assoc]
    exact this

/-- One round of the cycle on the reference: when the history is empty or ends with a
full round over `N + 1` pairwise distinct blocks of one set, every access of the
next round is missed. -/
theorem specResultsFrom_round {setSize N blockSize : Nat} (cyc : List Nat)
    (hlen : cyc.length = N + 1)
    (hnd : (cyc.map (fun x => x / blockSize)).Nodup)
    (hset : ∀ x y, x ∈ cyc → y ∈ cyc → (x / blockSize) % setSize = (y / blockSize) % setSize)
    (earlier : List Nat) (hE : earlier = [] ∨ ∃ e0, earlier = e0 ++ cyc) :
    specResultsFrom setSize N blockSize earlier cyc = List.replicate (N + 1) false := by
  rw [← hlen]
  apply specResultsFrom_all_false
  intro P a S hsplit
  rcases hE with h | ⟨e0, h⟩
  · subst h
    rw [List.nil_append]
    apply specHit_false_of_new_block
    intro x hx hxa
    rw [hsplit, List.map_append, List.map_cons, List.nodup_append] at hnd
    exact hnd.2.2 (List.mem_map.mpr ⟨x, hx, rfl⟩) (by rw [hxa]; exact List.mem_cons_self _ _)
  · have hmemP : ∀ x, x ∈ P → x ∈ cyc := fun x hx => by
      rw [hsplit]; exact List.mem_append_left _ hx
    have hmemS : ∀ x, x ∈ S → x ∈ cyc := fun x hx => by
      rw [hsplit]; exact List.mem_append_right _ (List.mem_cons_of_mem _ hx)
    have hmema : a ∈ cyc := by
      rw [hsplit]; exact List.mem_append_right _ (List.mem_cons_self _ _)
    have hEB : earlierBlocks setSize blockSize ((a / blockSize) % setSize) (earlier ++ P)
        = ((P.map (fun x => x / blockSize)).reverse
            ++ (S.map (fun x => x / blockSize)).reverse)
          ++ ([a / blockSize] ++ (P.map (fun x => x / blockSize)).reverse
            ++ earlierBlocks setSize blockSize ((a / blockSize) % setSize) e0) := by
      rw [h, earlierBlocks_append_list, earlierBlocks_append_list]
      rw [hsplit]
      rw [earlierBlocks_append_list,
        earlierBlocks_of_same_set (fun x hx => hset x a (hmemP x hx) hmema),
        earlierBlocks_of_same_set (l := a :: S) (fun x hx => by
          rcases List.mem_cons.mp hx with hx | hx
          · rw [hx]
          · exact hset x a (hmemS x hx) hmema)]
      simp
    rw [hsplit, List.map_append, List.map_cons] at hnd
    have hnd1 := List.nodup_append.mp hnd
    have hnd2 := List.nodup_cons.mp hnd1.2.1
    refine specHit_false_of_recent hEB ?_ ?_ ?_
    · rw [List.nodup_append]
      refine ⟨List.nodup_reverse.mpr hnd1.1, List.nodup_reverse.mpr hnd2.2, ?_⟩
      intro x hx1 hx2
      rw [List.mem_reverse] at hx1 hx2
      exact hnd1.2.2 hx1 (List.mem_cons_of_mem _ hx2)
    · rw [List.length_append, List.length_reverse, List.length_reverse, List.length_map,
        List.length_map]
      rw [hsplit, List.length_append, List.length_cons] at hlen
      omega
    · rw [List.mem_append, List.mem_reverse, List.mem_reverse]
      rintro (hx | hx)
      · exact hnd1.2.2 hx (List.mem_cons_self _ _)
      · exact hnd2.1 hx

/-- Thrashing on the reference: cycling over `N + 1` pairwise distinct blocks of one
set, for any number of rounds, misses on every access. -/
theorem specResultsFrom_rounds {setSize N blockSize : Nat} (cyc : List Nat)
    (hlen : cyc.length = N + 1)
    (hnd : (cyc.map (fun x => x / blockSize)).Nodup)
    (hset : ∀ x y, x ∈ cyc → y ∈ cyc → (x / blockSize) % setSize = (y / blockSize) % setSize) :
    ∀ (rounds : Nat) (earlier : List Nat), (earlier = [] ∨ ∃ e0, earlier = e0 ++ cyc) →
      specResultsFrom setSize N blockSize earlier (List.replicate rounds cyc).flatten
        = List.replicate (rounds * (N + 1)) false := by
  intro rounds
  induction rounds with
  | zero => intro _ _; simp [specResultsFrom]
  | succ r ih =>
    intro earlier hE
    rw [List.replicate_succ, List.flatten_cons, specResultsFrom_append,
      specResultsFrom_round cyc hlen hnd hset earlier hE,
      ih (earlier ++ cyc) (Or.inr ⟨earlier, rfl⟩), ← List.replicate_add]
    congr 1
    ring

/-- Working set on the reference: when every set receives at most `N` distinct blocks
over the whole sequence, an access is hit exactly when its block was accessed
before. -/
theorem specHit_of_working_set_fits {setSize N blockSize : Nat} (pre : List Nat) (a : Nat)
    (post : List Nat)
    (hfits : ∀ s, (earlierBlocks setSize blockSize s (pre ++ a :: post)).toFinset.card ≤ N) :
    specHit setSize N blockSize pre a
      = decide (a / blockSize ∈ pre.map (fun x => x / blockSize)) := by
  have hnd := recentDistinct_nodup
    (earlierBlocks setSize blockSize ((a / blockSize) % setSize) pre)
  have hlen : (recentDistinct
      (earlierBlocks setSize blockSize ((a / blockSize) % setSize) pre)).length ≤ N := by
    rw [← List.toFinset_card_of_nodup hnd]
    refine le_trans (Finset.card_le_card ?_) (hfits ((a / blockSize) % setSize))
    intro x hx
    rw [List.mem_toFinset] at hx ⊢
    rw [earlierBlocks_append_list]
    exact List.mem_append_right _ (mem_recentDistinct.mp hx)
  unfold specHit
  rw [List.take_of_length_le hlen]
  congr 1
  rw [mem_recentDistinct]
  unfold earlierBlocks
  rw [List.mem_reverse, List.mem_filter]
  simp

/-- Cold miss: when `blockSize * setSize` fits in 32 bits, an access to a block that no
earlier access of the sequence touched returns `false`. -/
theorem access_new_block (setSize N blockSize : Nat) (hs : 1 ≤ setSize)
    (hN : 1 ≤ N) (hb : 1 ≤ blockSize) (hfit : blockSize * setSize < 2 ^ 32)
    (earlier : List Nat) (a : Nat)
    (hnew : ∀ x, x ∈ earlier → x / blockSize ≠ a / blockSize) :
    ∃ c c1, accessAll (Cache.new setSize N blockSize) earlier
        = some (specResults setSize N blockSize earlier, c) ∧
      access c a = some (false, c1) := by
  obtain ⟨c, c1, h1, h2⟩ := access_after setSize N blockSize hs hN hb hfit earlier a
  rw [specHit_false_of_new_block setSize N blockSize earlier a hnew] at h2
  exact ⟨c, c1, h1, h2⟩

/-- Eviction order: when `blockSize * setSize` fits in 32 bits, after `N + 1` accesses
to pairwise distinct blocks of one set the next access returns `false` on the first
block and `true` on each of the other `N` blocks. -/
theorem access_after_distinct_blocks (setSize N blockSize : Nat) (hs : 1 ≤ setSize)
    (hN : 1 ≤ N) (hb : 1 ≤ blockSize) (hfit : blockSize * setSize < 2 ^ 32)
    (a1 : Nat) (rest : List Nat) (hlen : rest.length = N)
    (hnd : ((a1 :: rest).map (fun x => x / blockSize)).Nodup)
    (hset : ∀ x, x ∈ rest → (x / blockSize) % setSize = (a1 / blockSize) % setSize) :
    ∃ c, accessAll (Cache.new setSize N blockSize) (a1 :: rest)
        = some (specResults setSize N blockSize (a1 :: rest), c) ∧
      (∀ a, a / blockSize = a1 / blockSize → ∃ c1, access c a = some (false, c1)) ∧
      (∀ a x, x ∈ rest → a / blockSize = x / blockSize →
        ∃ c1, access c a = some (true, c1)) := by
  obtain ⟨c, _, h1, _⟩ := access_after setSize N blockSize hs hN hb hfit (a1 :: rest) 0
  have hspec := @specHit_after_distinct_blocks setSize N blockSize a1 rest hlen hnd hset
  refine ⟨c, h1, ?_, ?_⟩
  · intro a ha
    obtain ⟨c', c1, h1', h2⟩ := access_after setSize N blockSize hs hN hb hfit (a1 :: rest) a
    rw [h1] at h1'
    cases h1'
    rw [hspec.1 a ha] at h2
    exact ⟨c1, h2⟩
  · intro a x hx ha
    obtain ⟨c', c1, h1', h2⟩ := access_after setSize N blockSize hs hN hb hfit (a1 :: rest) a
    rw [h1] at h1'
    cases h1'
    rw [hspec.2 a x hx ha] at h2
    exact ⟨c1, h2⟩

/-- Thrashing: when `blockSize * setSize` fits in 32 bits, a fresh `N`-way cache fed
`N + 1` pairwise distinct blocks of one set cyclically returns `false` on every
access, for any number of rounds. -/
theorem results_cyclic (setSize N blockSize : Nat) (hs : 1 ≤ setSize)
    (hN : 1 ≤ N) (hb : 1 ≤ blockSize) (hfit : blockSize * setSize < 2 ^ 32)
    (cyc : List Nat) (hlen : cyc.length = N + 1)
    (hnd : (cyc.map (fun x => x / blockSize)).Nodup)
    (hset : ∀ x y, x ∈ cyc → y ∈ cyc → (x / blockSize) % setSize = (y / blockSize) % setSize)
    (rounds : Nat) :
    results (Cache.new setSize N blockSize) (List.replicate rounds cyc).flatten
      = some (List.replicate (rounds * (N + 1)) false) := by
  rw [results_new_eq_specResults setSize N blockSize hs hN hb hfit]
  unfold specResults
  rw [specResultsFrom_rounds cyc hlen hnd hset rounds [] (Or.inl rfl)]

/-- Working set: when `blockSize * setSize` fits in 32 bits and every set receives at
most `N` distinct blocks over the whole sequence, an access returns `false` exactly
when it is the first access to its block. -/
theorem access_of_working_set_fits (setSize N blockSize : Nat) (hs : 1 ≤ setSize)
    (hN : 1 ≤ N) (hb : 1 ≤ blockSize) (hfit : blockSize * setSize < 2 ^ 32)
    (pre : List Nat) (a : Nat) (post : List Nat)
    (hfits : ∀ s, (earlierBlocks setSize blockSize s (pre ++ a :: post)).toFinset.card ≤ N) :
    ∃ c c1, accessAll (Cache.new setSize N blockSize) pre
        = some (specResults setSize N blockSize pre, c) ∧
      access c a = some (decide (a / blockSize ∈ pre.map (fun x => x / blockSize)), c1) := by
  obtain ⟨c, c1, h1, h2⟩ := access_after setSize N blockSize hs hN hb hfit pre a
  rw [specHit_of_working_set_fits pre a post hfits] at h2
  exact ⟨c, c1, h1, h2⟩

end Cache183924

/-! ## Snapshot `Cache_20240216183924.cpp` where the 32-bit product wraps

Line 47 divides by `blockSize * setSize`, a product of two `unsigned int` that is
reduced modulo `2 ^ 32`. Whenever the product fits in 32 bits the cache is the
strict-LRU reference (`results_new_eq_specResults`, `access_after`) and has the
properties `access_new_block`, `Reachable.access_same_block`,
`access_after_distinct_blocks`, `results_cyclic` and `access_of_working_set_fits`;
the evaluations below are at configurations where the product does not fit. -/

namespace Cache183924

/-- C1. Strict-LRU refinement, where the 32-bit product wraps: on
`Cache(3, 1, 2147483649)` the product `blockSize * setSize` wraps to `2147483651`;
the addresses `2147483649` and `2147483651` lie in the same block, the reference of
the specification answers miss then hit, `access` answers miss twice. -/
theorem C1_refinement_fails_when_product_wraps :
    results (Cache.new 3 1 2147483649) [2147483649, 2147483651] = some [false, false] ∧
      specResults 3 1 2147483649 [2147483649, 2147483651] = [false, true] := by
  decide

/-- C5. Eviction order, where the 32-bit product wraps: on `Cache(3, 1, 2147483649)`
the blocks 1 and 4 map to set 1; after an access to block 1 and one to block 4, an
access to another address of block 4 returns miss. On `Cache(65536, 1, 65536)` the
accesses to the blocks 0 and 65536 return nothing. -/
theorem C5_reaccess_after_eviction_fails_when_product_wraps :
    results (Cache.new 3 1 2147483649) [2147483649, 8589934596, 8589934604]
        = some [false, false, false] ∧
      specResults 3 1 2147483649 [2147483649, 8589934596, 8589934604]
        = [false, false, true] ∧
      8589934596 / 2147483649 = 4 ∧ 8589934604 / 2147483649 = 4 ∧
      results (Cache.new 65536 1 65536) [0, 4294967296, 0] = none := by
  decide

/-- C6. Thrashing, where the 32-bit product wraps: on `Cache(65536, 1, 65536)` the
product `blockSize * setSize` wraps to zero, so the first access of the cycle over
the blocks 0 and 65536 divides by zero and no flag is returned. -/
theorem C6_thrashing_undefined_when_product_wraps_to_zero :
    tagDivisor (Cache.new 65536 1 65536) = 0 ∧
      results (Cache.new 65536 1 65536) [0, 4294967296, 0, 4294967296] = none ∧
      specResults 65536 1 65536 [0, 4294967296, 0, 4294967296]
        = [false, false, false, false] := by
  decide

/-- C7. Working set that fits, where the 32-bit product wraps: on
`Cache(3, 2, 2147483649)` only block 1 is accessed, through the addresses
`2147483649` and `2147483651`, and the second access, which is not the first access
to its block, returns miss. -/
theorem C7_second_access_to_block_misses_when_product_wraps :
    results (Cache.new 3 2 2147483649) [2147483649, 2147483651] = some [false, false] ∧
      2147483649 / 2147483649 = 2147483651 / 2147483649 := by
  decide

/-- C8. Cold miss, where the 32-bit product wraps: on `Cache(65536, 1, 65536)` the
first access divides by zero at line 47 and returns nothing. -/
theorem C8_cold_access_undefined_when_product_wraps_to_zero :
    access (Cache.new 65536 1 65536) 0 = none := by
  decide

/-- C9. Immediate re-access, where the 32-bit product wraps: on
`Cache(3, 1, 2147483649)` the call `access(2147483651)` right after
`access(2147483649)`, an address of the same block, returns `false`. -/
theorem C9_immediate_reaccess_misses_when_product_wraps :
    ((access (Cache.new 3 1 2147483649) 2147483649).bind
        (fun p => (access p.2 2147483651).map Prod.fst)) = some false ∧
      2147483651 / 2147483649 = 2147483649 / 2147483649 := by
  decide

/-- C10. Set index and tag of an address, where the 32-bit product wraps: with
`blockSize = 2147483649` and `setSize = 3` the divisor of line 47 is `2147483651`,
so address `2147483651` gets tag 1 where `(address div blockSize) div setSize` is 0;
the set index of line 46 is `(address div blockSize) mod setSize`. -/
theorem C10_tag_differs_when_product_wraps :
    tagDivisor (Cache.new 3 1 2147483649) = 2147483651 ∧
      tagOf (Cache.new 3 1 2147483649) 2147483651 = 1 ∧
      (2147483651 / 2147483649) / 3 = 0 ∧
      indexOf (Cache.new 3 1 2147483649) 2147483651 = (2147483651 / 2147483649) % 3 := by
  decide

end Cache183924

/-! ## The latest snapshot `Cache_20240216205421.cpp` on the two scenarios -/

namespace Cache205421

/-- C3. On a fresh `Cache(1, 1, 1)` the addresses `[0, 1, 0, 1]` return miss, hit, hit,
hit: the hit test of line 40 reads the valid bit and the counter of a line and
compares no tag. -/
theorem C3_one_line_scenario_flags :
    freshResults 1 1 1 [0, 1, 0, 1] = some [false, true, true, true] := by
  decide

/-- C4. On a fresh `Cache(16, 2, 4)` the addresses `[0, 4, 8, 0]` return miss, miss,
hit, hit: address 8 maps to set 0, whose way 0 is valid with counter 0 after
the access to address 0. -/
theorem C4_two_way_scenario_flags :
    freshResults 16 2 4 [0, 4, 8, 0] = some [false, false, true, true] := by
  decide

end Cache205421

/-! ## Snapshot `Cache_20240216183924.cpp`: invariants of the reachable states -/

namespace Cache183924

/-- The step of `RowInv.accessRow` for any number of ways: with no way at all the set
has no line, `access` finds nothing and changes nothing. -/
theorem RowInv.accessRow_any {N : Nat} {row : List CacheBlock} {ways : List Nat}
    (inv : RowInv N row ways) (t : Nat) :
    (Cache183924.accessRow N row t).1 = decide (t ∈ tagsOf row ways) ∧
      ∃ ways1, RowInv N (Cache183924.accessRow N row t).2 ways1 ∧
        tagsOf (Cache183924.accessRow N row t).2 ways1
          = lruTouch N (tagsOf row ways) t := by
  rcases Nat.eq_zero_or_pos N with h0 | hpos
  · subst h0
    have hrow : row = [] := List.length_eq_zero.mp inv.length_eq
    have hways : ways = [] := List.length_eq_zero.mp (Nat.le_zero.mp inv.length_le)
    subst hrow hways
    refine ⟨rfl, [], inv, rfl⟩
  · exact inv.accessRow hpos t

/-- The invariant of the whole cache is kept by `access`, for any number of ways. -/
theorem CacheInv.access_any {c : Cache} {m : Nat → List Nat} (inv : CacheInv c m)
    (hz : ¬(c.blockSize = 0 ∨ c.setSize = 0 ∨ tagDivisor c = 0)) (a : Nat) :
    ∃ c1, Cache183924.access c a = some (decide (tagOf c a ∈ m (indexOf c a)), c1) ∧
      CacheInv c1 (lruAccess c.associativity m (indexOf c a) (tagOf c a)) ∧
      c1.setSize = c.setSize ∧ c1.associativity = c.associativity ∧
      c1.blockSize = c.blockSize := by
  have hs0 : 0 < c.setSize := Nat.pos_of_ne_zero (fun h => hz (Or.inr (Or.inl h)))
  have hidx : indexOf c a < c.setSize := Nat.mod_lt _ hs0
  have hidx1 : indexOf c a < c.cache.length := by rw [inv.length_eq]; exact hidx
  obtain ⟨ways, hrow, htags⟩ := inv.rows _ hidx
  obtain ⟨c1, h1, h2, h3, h4, h5⟩ := access_eq_accessRow a hz hidx1
  obtain ⟨hflag, ways1, hinv1, htags1⟩ := hrow.accessRow_any (tagOf c a)
  refine ⟨c1, ?_, ⟨?_, ?_⟩, h3, h4, h5⟩
  · rw [h1, hflag, htags]
  · rw [h2, List.length_set, h3]; exact inv.length_eq
  · intro s hs
    rw [h3] at hs
    rw [rowAt_access hidx1 h2 s, h4]
    unfold lruAccess
    by_cases hsi : s = indexOf c a
    · rw [if_pos hsi, if_pos hsi, hsi, ← htags]
      exact ⟨ways1, hinv1, htags1⟩
    · rw [if_neg hsi, if_neg hsi]
      exact inv.rows s hs

/-- Every state reachable from a fresh cache satisfies the invariant of the whole
cache. -/
theorem Reachable.cacheInv_any {c : Cache} (hr : Reachable c) : ∃ m, CacheInv c m := by
  induction hr with
  | fresh s n b => exact ⟨_, CacheInv.new s n b⟩
  | @step c0 c1 a hit _ hacc ih =>
    obtain ⟨_, _, _, hz⟩ := access_config hacc
    obtain ⟨m, inv⟩ := ih
    obtain ⟨c2, h4, inv2, _⟩ := inv.access_any hz a
    rw [hacc] at h4
    simp only [Option.some.injEq, Prod.mk.injEq] at h4
    obtain ⟨_, h4c⟩ := h4
    subst h4c
    exact ⟨_, inv2⟩

theorem CacheInv.rowAt_of_ge {c : Cache} {m : Nat → List Nat} (inv : CacheInv c m)
    {s : Nat} (hs : c.setSize ≤ s) : rowAt c s = [] := by
  unfold rowAt
  rw [List.getD_eq_getElem?_getD, List.getElem?_eq_none (by rw [inv.length_eq]; exact hs)]
  rfl

/-- In a cache that satisfies the invariant, every valid line of every set is one of
the ways of the recency order of its set. -/
theorem CacheInv.valid_ways {c : Cache} {m : Nat → List Nat} (inv : CacheInv c m) (s : Nat) :
    ∃ ways, RowInv c.associativity (rowAt c s) ways ∨
      (rowAt c s = [] ∧ ways = []) := by
  rcases Nat.lt_or_ge s c.setSize with hs | hs
  · obtain ⟨ways, h, _⟩ := inv.rows s hs
    exact ⟨ways, Or.inl h⟩
  · exact ⟨[], Or.inr ⟨inv.rowAt_of_ge hs, rfl⟩⟩

theorem lineAt_nil (i : Nat) : lineAt [] i = ⟨false, 0, 0⟩ := rfl

theorem RowInv.valid_mem {N : Nat} {row : List CacheBlock} {ways : List Nat}
    (inv : RowInv N row ways) {i : Nat} (hv : (lineAt row i).valid = true) : i ∈ ways := by
  have hi : i < N := by rw [← inv.length_eq]; exact lineAt_valid_lt hv
  exact (inv.mem_iff i).mpr ((inv.valid_iff i hi).mp hv)

/-- C12. In every state reachable from a fresh cache and in every set, two distinct
valid lines hold different tags. The reachable states are closed under `access`, so
every access keeps the property. -/
theorem C12_no_duplicate_residency (c : Cache) (hr : Reachable c) (s i j : Nat)
    (hij : i ≠ j) (hi : (lineAt (rowAt c s) i).valid = true)
    (hj : (lineAt (rowAt c s) j).valid = true) :
    (lineAt (rowAt c s) i).tag ≠ (lineAt (rowAt c s) j).tag := by
  intro htag
  apply hij
  obtain ⟨m, inv⟩ := hr.cacheInv_any
  obtain ⟨ways, h | ⟨h, _⟩⟩ := inv.valid_ways s
  · exact List.inj_on_of_nodup_map h.tags_nodup (h.valid_mem hi) (h.valid_mem hj) htag
  · rw [h, lineAt_nil] at hi
    cases hi

/-- Witness of C12: in the state of `Cache(2, 2, 4)` after `access(0)` and
`access(8)`, the ways 0 and 1 of set 0 are valid and hold the tags 0 and 1. -/
theorem C12_no_duplicate_residency_witness :
    Reachable afterAccessZeroEight ∧ (0 : Nat) ≠ 1 ∧
      (lineAt (rowAt afterAccessZeroEight 0) 0).valid = true ∧
      (lineAt (rowAt afterAccessZeroEight 0) 1).valid = true ∧
      (lineAt (rowAt afterAccessZeroEight 0) 0).tag
        ≠ (lineAt (rowAt afterAccessZeroEight 0) 1).tag :=
  ⟨Reachable.step
      (Reachable.step (Reachable.fresh 2 2 4)
        (by decide : access (Cache.new 2 2 4) 0 = some (false, afterAccessZero)))
      (by decide : access afterAccessZero 8 = some (false, afterAccessZeroEight)),
    by decide, by decide, by decide,
    C12_no_duplicate_residency afterAccessZeroEight
      (Reachable.step
        (Reachable.step (Reachable.fresh 2 2 4)
          (by decide : access (Cache.new 2 2 4) 0 = some (false, afterAccessZero)))
        (by decide : access afterAccessZero 8 = some (false, afterAccessZeroEight)))
      0 0 1 (by decide) (by decide) (by decide)⟩

/-- The line that one call of `access` touches in a set that satisfies the invariant:
it is a way of the set, it is valid with the tag and counter 0 after the call, and
every other valid line has a positive counter after the call. -/
theorem RowInv.accessRow_touched {N : Nat} {row : List CacheBlock} {ways : List Nat}
    (inv : RowInv N row ways) (hN : 1 ≤ N) (t w : Nat)
    (hw : w = match accessLoop row t N 0 with
      | some i => i
      | none => findLRUBlockIndexLoop row N 0 0 0) :
    w < N ∧ lineAt (Cache183924.accessRow N row t).2 w = ⟨true, t, 0⟩ ∧
      ∀ j, j ≠ w → (lineAt (Cache183924.accessRow N row t).2 j).valid = true →
        0 < (lineAt (Cache183924.accessRow N row t).2 j).lruCounter := by
  unfold Cache183924.accessRow
  cases hl : accessLoop row t N 0 with
  | some i0 =>
    rw [hl] at hw
    simp only at hw ⊢
    subst hw
    obtain ⟨_, h2, h3, h4, _⟩ := accessLoop_some _ _ _ hl
    have hi0 : w < N := by omega
    refine ⟨hi0, ?_, ?_⟩
    · rw [lineAt_updateLRUCountersLoop]
      simp [h3, hi0, h4]
    · intro j hj hv
      rw [lineAt_updateLRUCountersLoop] at hv ⊢
      by_cases hc : 0 ≤ j ∧ j < 0 + N ∧ (lineAt row j).valid = true
      · rw [if_pos hc]
        simp [hj]
      · rw [if_neg hc] at hv
        exfalso
        apply hc
        have := lineAt_valid_lt hv
        rw [inv.length_eq] at this
        exact ⟨Nat.zero_le _, by omega, hv⟩
  | none =>
    rw [hl] at hw
    simp only at hw ⊢
    subst hw
    have hr : findLRUBlockIndexLoop row N 0 0 0 < N := by
      rcases Nat.lt_or_ge ways.length N with hlt | hge
      · rw [inv.findLRU_of_not_full hlt]; exact hlt
      · exact (inv.findLRU_of_full hN (le_antisymm inv.length_le hge)).1
    refine ⟨hr, ?_, ?_⟩
    · rw [lineAt_miss inv.length_eq hr, if_pos rfl]
    · intro j hj hv
      rw [lineAt_miss inv.length_eq hr, if_neg hj] at hv ⊢
      by_cases hc : j < N ∧ (lineAt row j).valid = true
      · rw [if_pos hc]
        exact Nat.succ_pos _
      · rw [if_neg hc] at hv
        exfalso
        apply hc
        have := lineAt_valid_lt hv
        rw [inv.length_eq] at this
        exact ⟨this, hv⟩

theorem ReachableTouched.reachable {c : Cache} {g : Nat → Option Nat}
    (hr : ReachableTouched c g) : Reachable c := by
  induction hr with
  | fresh s n b => exact Reachable.fresh s n b
  | step _ hacc ih => exact Reachable.step ih hacc

/-- Every reachable state is reached with some record of the touched ways. -/
theorem Reachable.touched {c : Cache} (hr : Reachable c) : ∃ g, ReachableTouched c g := by
  induction hr with
  | fresh s n b => exact ⟨_, ReachableTouched.fresh s n b⟩
  | step _ hacc ih =>
    obtain ⟨g, hg⟩ := ih
    exact ⟨_, ReachableTouched.step hg hacc⟩

/-- The line touched by the most recent access to a set is valid with counter 0, and it
is the only valid line of the set with counter 0. -/
theorem ReachableTouched.mru {c : Cache} {g : Nat → Option Nat}
    (hr : ReachableTouched c g) (hN : 1 ≤ c.associativity) (s w : Nat) (hg : g s = some w) :
    w < c.associativity ∧ (lineAt (rowAt c s) w).valid = true ∧
      (lineAt (rowAt c s) w).lruCounter = 0 ∧
      ∀ j, (lineAt (rowAt c s) j).valid = true → (lineAt (rowAt c s) j).lruCounter = 0 →
        j = w := by
  induction hr generalizing s w with
  | fresh a n b => cases hg
  | @step c0 c1 g0 a hit hr0 hacc ih =>
    obtain ⟨h1, h2, h3, hz⟩ := access_config hacc
    rw [h2] at hN ⊢
    obtain ⟨m, inv⟩ := hr0.reachable.cacheInv_any
    have hs0 : 0 < c0.setSize := Nat.pos_of_ne_zero (fun h => hz (Or.inr (Or.inl h)))
    have hidx : indexOf c0 a < c0.setSize := Nat.mod_lt _ hs0
    have hidx1 : indexOf c0 a < c0.cache.length := by rw [inv.length_eq]; exact hidx
    obtain ⟨c2, h6, h7, _⟩ := access_eq_accessRow a hz hidx1
    rw [hacc] at h6
    simp only [Option.some.injEq, Prod.mk.injEq] at h6
    obtain ⟨_, h6c⟩ := h6
    subst h6c
    rw [rowAt_access hidx1 h7 s]
    by_cases hs : s = indexOf c0 a
    · simp only [hs, if_true] at hg ⊢
      simp only [Option.some.injEq] at hg
      obtain ⟨ways, hrow, _⟩ := inv.rows _ hidx
      obtain ⟨hw1, hw2, hw3⟩ := hrow.accessRow_touched hN (tagOf c0 a) w (by
        rw [← hg]; rfl)
      refine ⟨hw1, by rw [hw2], by rw [hw2], fun j hv hc => ?_⟩
      by_contra hj
      have := hw3 j hj hv
      omega
    · simp only [hs, if_false] at hg ⊢
      exact ih hN s w hg

/-- C13. In every state reachable from a fresh cache and in every set, distinct valid
lines have distinct recency counters; and when the set has been accessed (and the
cache has at least one way, so that the set has a line to touch), the line touched
by the most recent access to the set is valid with counter 0 and is the only valid
line of the set with counter 0. -/
theorem C13_counters_distinct_and_mru_zero (c : Cache) (g : Nat → Option Nat)
    (hr : ReachableTouched c g) (s : Nat) :
    (∀ i j, i ≠ j → (lineAt (rowAt c s) i).valid = true →
        (lineAt (rowAt c s) j).valid = true →
        (lineAt (rowAt c s) i).lruCounter ≠ (lineAt (rowAt c s) j).lruCounter) ∧
      (∀ w, g s = some w → 1 ≤ c.associativity →
        w < c.associativity ∧ (lineAt (rowAt c s) w).valid = true ∧
          (lineAt (rowAt c s) w).lruCounter = 0 ∧
          ∀ j, (lineAt (rowAt c s) j).valid = true →
            (lineAt (rowAt c s) j).lruCounter = 0 → j = w) := by
  constructor
  · intro i j hij hi hj
    obtain ⟨m, inv⟩ := hr.reachable.cacheInv_any
    obtain ⟨ways, h | ⟨h, _⟩⟩ := inv.valid_ways s
    · have hne : ways.Pairwise
          (fun x y => (lineAt (rowAt c s) x).lruCounter ≠ (lineAt (rowAt c s) y).lruCounter) :=
        h.counters.imp (fun hlt => Nat.ne_of_lt hlt)
      exact hne.forall (fun _ _ hxy => fun h => hxy h.symm) (h.valid_mem hi) (h.valid_mem hj) hij
    · rw [h, lineAt_nil] at hi
      cases hi
  · intro w hg hN
    exact hr.mru hN s w hg

/-- Witness of C13: the state of `Cache(2, 2, 4)` after `access(0)` and `access(8)`;
in set 0 the counters of the two valid lines are 1 and 0 and way 1 was touched
last. -/
theorem C13_counters_distinct_and_mru_zero_witness :
    ReachableTouched afterAccessZeroEight touchedAfterZeroEight ∧
      touchedAfterZeroEight 0 = some 1 ∧
      (∀ i j, i ≠ j → (lineAt (rowAt afterAccessZeroEight 0) i).valid = true →
        (lineAt (rowAt afterAccessZeroEight 0) j).valid = true →
        (lineAt (rowAt afterAccessZeroEight 0) i).lruCounter
          ≠ (lineAt (rowAt afterAccessZeroEight 0) j).lruCounter) ∧
      (∀ w, touchedAfterZeroEight 0 = some w → 1 ≤ afterAccessZeroEight.associativity →
        w < afterAccessZeroEight.associativity ∧
          (lineAt (rowAt afterAccessZeroEight 0) w).valid = true ∧
          (lineAt (rowAt afterAccessZeroEight 0) w).lruCounter = 0 ∧
          ∀ j, (lineAt (rowAt afterAccessZeroEight 0) j).valid = true →
            (lineAt (rowAt afterAccessZeroEight 0) j).lruCounter = 0 → j = w) :=
  ⟨ReachableTouched.step
      (ReachableTouched.step (ReachableTouched.fresh 2 2 4)
        (by decide : access (Cache.new 2 2 4) 0 = some (false, afterAccessZero)))
      (by decide : access afterAccessZero 8 = some (false, afterAccessZeroEight)),
    by decide,
    C13_counters_distinct_and_mru_zero afterAccessZeroEight touchedAfterZeroEight
      (ReachableTouched.step
        (ReachableTouched.step (ReachableTouched.fresh 2 2 4)
          (by decide : access (Cache.new 2 2 4) 0 = some (false, afterAccessZero)))
        (by decide : access afterAccessZero 8 = some (false, afterAccessZeroEight))) 0⟩


/-- The sets after one call of `access`, in any state: the selected set is replaced by
the lines of `accessRow`, when it exists. -/
theorem access_cache_eq {c c1 : Cache} {a : Nat} {hit : Bool}
    (h : access c a = some (hit, c1)) :
    c1.cache = c.cache.set (indexOf c a)
      (accessRow c.associativity (rowAt c (indexOf c a)) (tagOf c a)).2 := by
  obtain ⟨_, _, _, hz⟩ := access_config h
  rcases Nat.lt_or_ge (indexOf c a) c.cache.length with hidx | hidx
  · obtain ⟨c2, h1, h2, _⟩ := access_eq_accessRow a hz hidx
    rw [h] at h1
    simp only [Option.some.injEq, Prod.mk.injEq] at h1
    rw [h1.2]
    exact h2
  · rw [List.set_eq_of_length_le hidx]
    unfold access at h
    rw [if_neg hz] at h
    simp only at h
    split at h
    · simp only [Option.some.injEq, Prod.mk.injEq] at h
      rw [← h.2]
      simp only [updateLRUCounters]
      exact List.set_eq_of_length_le hidx
    · simp only [Option.some.injEq, Prod.mk.injEq] at h
      rw [← h.2]
      simp only [updateLRUCounters]
      rw [List.set_set]
      exact List.set_eq_of_length_le hidx

theorem accessRow_valid (N : Nat) (row : List CacheBlock) (t i : Nat)
    (hv : (lineAt row i).valid = true) : (lineAt (accessRow N row t).2 i).valid = true := by
  unfold accessRow
  split
  · simp only
    rw [lineAt_updateLRUCountersLoop]
    split
    · rfl
    · exact hv
  · simp only
    rw [lineAt_updateLRUCountersLoop]
    split
    · rfl
    · rw [lineAt_set]
      split
      · rfl
      · exact hv

/-- C14. A call of `access` that returns leaves every valid line valid: in any state
and for any address, a line of any set that is valid before the call is valid after
it. -/
theorem C14_valid_lines_stay_valid (c c1 : Cache) (a : Nat) (hit : Bool)
    (h : access c a = some (hit, c1)) (s i : Nat)
    (hv : (lineAt (rowAt c s) i).valid = true) : (lineAt (rowAt c1 s) i).valid = true := by
  have hc := access_cache_eq h
  unfold rowAt at hv ⊢
  rw [hc]
  simp only [List.getD_eq_getElem?_getD, List.getElem?_set] at hv ⊢
  by_cases hs : indexOf c a = s
  · subst hs
    by_cases hl : indexOf c a < c.cache.length
    · simp only [hl, if_true, Option.getD_some]
      apply accessRow_valid
      unfold rowAt
      rw [List.getD_eq_getElem?_getD]
      exact hv
    · simp only [hl, if_false, if_true]
      rw [List.getElem?_eq_none (not_lt.mp hl)] at hv
      exact hv
  · simp only [hs, if_false]
    exact hv

/-- Witness of C14: in `Cache(2, 2, 4)` after `access(0)`, way 0 of set 0 is valid and
stays valid under `access(8)`, which fills way 1 of the same set. -/
theorem C14_valid_lines_stay_valid_witness :
    access afterAccessZero 8 = some (false, afterAccessZeroEight) ∧
      (lineAt (rowAt afterAccessZero 0) 0).valid = true ∧
      (lineAt (rowAt afterAccessZeroEight 0) 0).valid = true :=
  ⟨by decide, by decide,
    C14_valid_lines_stay_valid afterAccessZero afterAccessZeroEight 8 false (by decide) 0 0
      (by decide)⟩

/-- A call of `access` depends on its address only through the set index of line 46
and the tag of line 47. -/
theorem access_congr {c : Cache} {a a1 : Nat} (hidx : indexOf c a1 = indexOf c a)
    (htag : tagOf c a1 = tagOf c a) : access c a1 = access c a := by
  have hidx1 : ∀ t, indexOf { c with totalAccesses := t } a1
      = indexOf { c with totalAccesses := t } a := fun _ => hidx
  have htag1 : ∀ t, tagOf { c with totalAccesses := t } a1
      = tagOf { c with totalAccesses := t } a := fun _ => htag
  unfold access
  simp only [hidx1, htag1]

/-- When `blockSize * setSize` fits in 32 bits, the block number of an address is
`tag * setSize + set index`. -/
theorem block_eq_tag_mul_add_index {c : Cache} (hfit : c.blockSize * c.setSize < 2 ^ 32)
    (a : Nat) : a / c.blockSize = tagOf c a * c.setSize + indexOf c a := by
  rw [tagOf_eq_div_div hfit]
  unfold indexOf
  rw [Nat.mul_comm]
  exact (Nat.div_add_mod _ _).symm

/-- When `blockSize * setSize` fits in 32 bits, two addresses get the same set index
and tag exactly when they lie in the same block. -/
theorem key_eq_iff_same_block {c : Cache} (hfit : c.blockSize * c.setSize < 2 ^ 32)
    (a a1 : Nat) :
    (indexOf c a1 = indexOf c a ∧ tagOf c a1 = tagOf c a)
      ↔ a1 / c.blockSize = a / c.blockSize := by
  constructor
  · rintro ⟨h1, h2⟩
    rw [block_eq_tag_mul_add_index hfit a1, block_eq_tag_mul_add_index hfit a, h1, h2]
  · intro h
    refine ⟨?_, ?_⟩
    · unfold indexOf; rw [h]
    · rw [tagOf_eq_div_div hfit, tagOf_eq_div_div hfit, h]

/-- When `blockSize * setSize` fits in 32 bits, the offset within the block has no
effect: two addresses of one block get the same flag and the same resulting state
from `access`, in any state. -/
theorem access_same_block_eq {c : Cache} (hfit : c.blockSize * c.setSize < 2 ^ 32)
    {a a1 : Nat} (h : a1 / c.blockSize = a / c.blockSize) : access c a1 = access c a :=
  access_congr ((key_eq_iff_same_block hfit a a1).mpr h).1
    ((key_eq_iff_same_block hfit a a1).mpr h).2

/-- C11. Set index, tag and block, where the 32-bit product wraps: on
`Cache(3, 1, 2147483649)` the addresses `2147483649` and `2147483651` lie in the same
block and get the same set index but the tags 0 and 1; `access` leaves different
states for them, and after `access(2147483649)` the first address hits where the
second misses; the block number 1 of `2147483651` is not `tag * setSize + index`. -/
theorem C11_same_block_different_tag_when_product_wraps :
    2147483651 / 2147483649 = 2147483649 / 2147483649 ∧
      indexOf (Cache.new 3 1 2147483649) 2147483651
        = indexOf (Cache.new 3 1 2147483649) 2147483649 ∧
      tagOf (Cache.new 3 1 2147483649) 2147483649 = 0 ∧
      tagOf (Cache.new 3 1 2147483649) 2147483651 = 1 ∧
      access (Cache.new 3 1 2147483649) 2147483651
        ≠ access (Cache.new 3 1 2147483649) 2147483649 ∧
      results (Cache.new 3 1 2147483649) [2147483649, 2147483649] = some [false, true] ∧
      results (Cache.new 3 1 2147483649) [2147483649, 2147483651] = some [false, false] ∧
      2147483651 / 2147483649
        ≠ tagOf (Cache.new 3 1 2147483649) 2147483651 * 3
          + indexOf (Cache.new 3 1 2147483649) 2147483651 := by
  decide

/-- C20. On a freshly constructed cache `getHitRate()` divides the converted
`hitCount = 0` by `totalAccesses = 0`: the result is the quotient `0.0 / 0`, not
`0.0`. -/
theorem C20_hit_rate_of_fresh_cache_is_zero_by_zero
    (setSize associativity blockSize : Nat) :
    getHitRate (Cache.new setSize associativity blockSize) = DoubleValue.nan ∧
      getHitRate (Cache.new setSize associativity blockSize) ≠ DoubleValue.finite 0 := by
  constructor
  · rfl
  · intro h
    cases h


end Cache183924

/-! ## The latest snapshot `Cache_20240216205421.cpp`: `resetCacheState` -/

namespace Cache205421

theorem validAt_resetCacheState (c : Cache) (s i : Nat) :
    validAt (resetCacheState c) s i = false := by
  unfold validAt resetCacheState
  simp only [List.getD_eq_getElem?_getD, List.getElem?_replicate]
  split
  · simp only [Option.getD_some, List.getElem?_replicate]
    split <;> rfl
  · rfl

theorem accessLoop_resetCacheState (c : Cache) (s : Nat) :
    ∀ (n i : Nat), accessLoop (resetCacheState c) s n i = none := by
  intro n
  induction n with
  | zero => intro i; rfl
  | succ n ih =>
    intro i
    unfold accessLoop
    rw [validAt_resetCacheState, ih]
    rfl

/-- After `resetCacheState()` an access with a non-negative `int` address misses, in
a cache with a positive block size and at least one set. -/
theorem access_after_reset (c : Cache) (hb : 0 < c.block_size) (hs : 0 < c.sets)
    (a : Int) (ha : 0 ≤ a) :
    ∃ c1, access (resetCacheState c) a = some (false, c1) := by
  have hq : 0 ≤ Int.tdiv a c.block_size := Int.tdiv_nonneg ha (le_of_lt hb)
  have hm0 : 0 ≤ Int.tmod (Int.tdiv a c.block_size) c.sets := Int.tmod_nonneg _ hq
  have hm1 : Int.tmod (Int.tdiv a c.block_size) c.sets < c.sets := Int.tmod_lt_of_pos _ hs
  have hbs : (resetCacheState c).block_size = c.block_size := rfl
  have hss : (resetCacheState c).sets = c.sets := rfl
  unfold access
  rw [hbs, hss]
  rw [if_neg (by omega), if_neg (by omega), if_neg (by omega), if_neg (by omega)]
  simp only
  rw [accessLoop_resetCacheState]
  exact ⟨_, rfl⟩

/-- A call of `access` changes only `valid` and `lru_counter`. -/
theorem access_fields {c c1 : Cache} {a : Int} {hit : Bool}
    (h : access c a = some (hit, c1)) :
    c1.size = c.size ∧ c1.associativity = c.associativity ∧
      c1.block_size = c.block_size ∧ c1.sets = c.sets := by
  unfold access at h
  split at h
  · cases h
  · split at h
    · cases h
    · split at h
      · cases h
      · split at h
        · cases h
        · simp only at h
          split at h <;>
            (simp only [Option.some.injEq, Prod.mk.injEq] at h
             rw [← h.2]
             exact ⟨rfl, rfl, rfl, rfl⟩)

theorem resetCacheState_eq_of_fields {c c1 : Cache} (h1 : c1.size = c.size)
    (h2 : c1.associativity = c.associativity) (h3 : c1.block_size = c.block_size)
    (h4 : c1.sets = c.sets) : resetCacheState c1 = resetCacheState c := by
  unfold resetCacheState
  rw [Cache.mk.injEq]
  simp only [h1, h2, h3, h4, and_self]

theorem new_eq_some {size associativity block_size : Int} {c : Cache}
    (h : Cache.new size associativity block_size = some c) :
    c.size = size ∧ c.associativity = associativity ∧ c.block_size = block_size ∧
      resetCacheState c = c := by
  unfold Cache.new at h
  split at h
  · cases h
  · split at h
    · cases h
    · split at h
      · cases h
      · split at h
        · cases h
        · simp only [Option.some.injEq] at h
          rw [← h]
          exact ⟨rfl, rfl, rfl, rfl⟩

/-- In every reachable state, constructing a cache from the configuration fields gives
the state that `resetCacheState` produces. -/
theorem Reachable.new_eq_reset {c : Cache} (hr : Reachable c) :
    Cache.new c.size c.associativity c.block_size = some (resetCacheState c) := by
  induction hr with
  | @fresh size a b c0 h =>
    obtain ⟨h1, h2, h3, h4⟩ := new_eq_some h
    rw [h1, h2, h3, h4]
    exact h
  | @step c0 c1 a hit _ hacc ih =>
    obtain ⟨h1, h2, h3, h4⟩ := access_fields hacc
    rw [h1, h2, h3, resetCacheState_eq_of_fields h1 h2 h3 h4]
    exact ih
  | @reset c0 _ ih =>
    have h5 : resetCacheState (resetCacheState c0) = resetCacheState c0 := rfl
    rw [h5]
    exact ih

/-- C16. `resetCacheState()` applied to any reachable state gives exactly the state of
a freshly constructed cache of the same configuration, so every address sequence
replayed after the reset gets the flags it gets on a freshly constructed cache (and
with them the same ratio of hits to accesses). -/
theorem C16_reset_equals_fresh (c : Cache) (hr : Reachable c) :
    Cache.new c.size c.associativity c.block_size = some (resetCacheState c) ∧
      ∀ t, (accessAll (resetCacheState c) t).map Prod.fst
        = freshResults c.size c.associativity c.block_size t := by
  refine ⟨hr.new_eq_reset, fun t => ?_⟩
  unfold freshResults
  rw [hr.new_eq_reset]

/-- Witness of C16: the state of `Cache(16, 2, 4)` after `access(0)`. -/
theorem C16_reset_equals_fresh_witness :
    Reachable sixteenAfterZero ∧
      Cache.new sixteenAfterZero.size sixteenAfterZero.associativity
          sixteenAfterZero.block_size = some (resetCacheState sixteenAfterZero) ∧
      ∀ t, (accessAll (resetCacheState sixteenAfterZero) t).map Prod.fst
        = freshResults sixteenAfterZero.size sixteenAfterZero.associativity
            sixteenAfterZero.block_size t :=
  ⟨Reachable.step (Reachable.fresh (by decide : Cache.new 16 2 4 = some freshSixteen))
      (by decide : access freshSixteen 0 = some (false, sixteenAfterZero)),
    C16_reset_equals_fresh sixteenAfterZero
      (Reachable.step (Reachable.fresh (by decide : Cache.new 16 2 4 = some freshSixteen))
        (by decide : access freshSixteen 0 = some (false, sixteenAfterZero)))⟩

/-- C15. Access after a reset, where the set index is negative: in `Cache(16384, 8, 64)`
after `access(0)` and `resetCacheState()`, the address `4294967232` read by `main`
becomes the `int` -64, whose set index `(-64 / 64) % 32` is -1, outside `valid`: the
call has no defined result. The address 0 misses after the same reset. -/
theorem C15_access_after_reset_undefined_for_negative_index :
    toInt 4294967232 = -64 ∧ Int.tmod (Int.tdiv (-64) 64) 32 = -1 ∧
      (Cache.new 16384 8 64).bind (fun c0 => (access c0 0).bind (fun p =>
        access (resetCacheState p.2) (toInt 4294967232))) = none ∧
      (Cache.new 16384 8 64).bind (fun c0 => (access c0 0).bind (fun p =>
        (access (resetCacheState p.2) 0).map Prod.fst)) = some false := by
  decide

end Cache205421

/-! ## Snapshot `Cache_20240216165323.cpp`: the counters and the hit rate -/

namespace Cache165323

/-- What one call of `access` does to the counters: a hit adds one to `hits` and leaves
`accesses` alone, a miss adds one to `accesses` and leaves `hits` alone. -/
theorem access_counters {c c1 : Cache} {a : Int} {hit : Bool}
    (h : access c a = some (hit, c1)) :
    (hit = true → c1.hits = u64 (c.hits + 1) ∧ c1.accesses = c.accesses) ∧
      (hit = false → c1.hits = c.hits ∧ c1.accesses = u64 (c.accesses + 1)) := by
  unfold access at h
  split at h
  · cases h
  · split at h
    · cases h
    · split at h
      · cases h
      · split at h
        · cases h
        · simp only at h
          split at h <;>
            (simp only [Option.some.injEq, Prod.mk.injEq] at h
             rw [← h.1, ← h.2]
             simp [updateLRU])

/-- C17. Counters of `access`, evaluated: on a fresh `Cache(2048, 1, 64)` the two calls
`access(0)`, `access(0)` return miss and hit and leave `hits = 1` and
`accesses = 1`: the call that hits does not increment `accesses`. -/
theorem C17_accesses_not_incremented_on_hit :
    (freshRun 2048 1 64 [0, 0]).map (fun p => (p.1, p.2.hits, p.2.accesses))
      = some ([false, true], 1, 1) := by
  decide

theorem getHitRate_of_counters {c : Cache} {h a : Nat} (hh : c.hits = h)
    (ha : c.accesses = a) (hpos : 0 < a) :
    getHitRate c = DoubleValue.finite ((h : ℚ) / (a : ℚ)) := by
  unfold getHitRate divDouble
  rw [hh, ha, if_pos hpos, if_neg (by omega)]

/-- C18. Counters and hit rate, evaluated: on a fresh `Cache(2048, 1, 64)` the three
calls `access(0)` leave `hits = 2` and `accesses = 1`, and `getHitRate()` is 2. -/
theorem C18_hits_exceed_accesses :
    (freshRun 2048 1 64 [0, 0, 0]).map (fun p => (p.2.hits, p.2.accesses)) = some (2, 1) ∧
      (freshRun 2048 1 64 [0, 0, 0]).map (fun p => getHitRate p.2)
        = some (DoubleValue.finite 2) ∧
      (1 : ℚ) < 2 := by
  have h : (freshRun 2048 1 64 [0, 0, 0]).map (fun p => (p.2.hits, p.2.accesses))
      = some (2, 1) := by decide
  refine ⟨h, ?_, by norm_num⟩
  cases hrun : freshRun 2048 1 64 [0, 0, 0] with
  | none => rw [hrun] at h; simp at h
  | some p =>
    rw [hrun] at h
    simp only [Option.map_some', Option.some.injEq, Prod.mk.injEq] at h ⊢
    rw [getHitRate_of_counters h.1 h.2 (by norm_num)]
    norm_num

/-- C19. With `accesses = 0`, `getHitRate()` takes the branch of the literal `0.0`: the
result is exactly 0, and the division of line 61 is not evaluated. -/
theorem C19_hit_rate_zero_without_accesses (c : Cache) (h : c.accesses = 0) :
    getHitRate c = DoubleValue.finite 0 := by
  unfold getHitRate
  rw [h, if_neg (by omega)]

theorem accesses_new {size associativity block_size : Int} {c : Cache}
    (h : Cache.new size associativity block_size = some c) : c.accesses = 0 := by
  unfold Cache.new at h
  split at h
  · cases h
  · split at h
    · cases h
    · split at h
      · cases h
      · split at h
        · cases h
        · simp only [Option.some.injEq] at h
          rw [← h]

/-- The hit rate of a freshly constructed cache is 0. -/
theorem getHitRate_new {size associativity block_size : Int} {c : Cache}
    (h : Cache.new size associativity block_size = some c) :
    getHitRate c = DoubleValue.finite 0 := by
  unfold getHitRate
  rw [accesses_new h, if_neg (by omega)]

/-- The hit rate right after `resetCounters()` is 0. -/
theorem getHitRate_resetCounters (c : Cache) :
    getHitRate (resetCounters c) = DoubleValue.finite 0 := rfl

/-- Witness of C19: the freshly constructed `Cache(16, 2, 4)`. -/
theorem C19_hit_rate_zero_without_accesses_witness :
    Cache.new 16 2 4 = some freshSixteen ∧ freshSixteen.accesses = 0 ∧
      getHitRate freshSixteen = DoubleValue.finite 0 :=
  ⟨by decide, rfl, C19_hit_rate_zero_without_accesses freshSixteen rfl⟩

end Cache165323

/-! ## Snapshot `Cache_20240216183924.cpp`: the victim and the miss path -/

namespace Cache183924

/-- The loop of `findLRUBlockIndex` on lines that are all valid: when the locals
`lruIndex`, `maxLRUCounter` summarise the ways below `i` (the largest counter seen and
the first way holding it, or way 0 with 0 while no positive counter was seen), the
returned way holds the largest counter of all scanned ways and every way below it
holds a smaller counter. -/
theorem findLRUBlockIndexLoop_lowest (row : List CacheBlock) :
    ∀ (n i li mx : Nat),
      (∀ k, k < i → (lineAt row k).lruCounter ≤ mx) →
      ((li = 0 ∧ mx = 0) ∨ (li < i ∧ (lineAt row li).lruCounter = mx ∧ 0 < mx ∧
        ∀ k, k < li → (lineAt row k).lruCounter < mx)) →
      (∀ k, i ≤ k → k < i + n → (lineAt row k).valid = true) →
      (∀ k, k < i + n →
        (lineAt row k).lruCounter
          ≤ (lineAt row (findLRUBlockIndexLoop row n i li mx)).lruCounter) ∧
      (∀ k, k < findLRUBlockIndexLoop row n i li mx →
        (lineAt row k).lruCounter
          < (lineAt row (findLRUBlockIndexLoop row n i li mx)).lruCounter) ∧
      (findLRUBlockIndexLoop row n i li mx = 0 ∨
        findLRUBlockIndexLoop row n i li mx < i + n) := by
  intro n
  induction n with
  | zero =>
    intro i li mx hle hsum _
    simp only [findLRUBlockIndexLoop, Nat.add_zero]
    rcases hsum with ⟨h1, h2⟩ | ⟨h1, h2, h3, h4⟩
    · subst h1 h2
      refine ⟨fun k hk => le_trans (hle k hk) (Nat.zero_le _), fun k hk => by omega, Or.inl rfl⟩
    · refine ⟨fun k hk => by rw [h2]; exact hle k hk, fun k hk => by rw [h2]; exact h4 k hk,
        Or.inr h1⟩
  | succ n ih =>
    intro i li mx hle hsum hval
    have hvi : (lineAt row i).valid = true := hval i (le_refl _) (by omega)
    unfold findLRUBlockIndexLoop
    simp only [hvi, Bool.not_true, Bool.false_eq_true, if_false]
    have hval1 : ∀ k, i + 1 ≤ k → k < i + 1 + n → (lineAt row k).valid = true :=
      fun k h1 h2 => hval k (by omega) (by omega)
    by_cases hc : (lineAt row i).lruCounter > mx
    · simp only [hc, if_true]
      have key := ih (i + 1) i (lineAt row i).lruCounter
        (fun k hk => by
          rcases Nat.lt_or_ge k i with h | h
          · exact le_trans (hle k h) (le_of_lt hc)
          · have : k = i := by omega
            rw [this])
        (Or.inr ⟨by omega, rfl, by omega, fun k hk => lt_of_le_of_lt (hle k hk) hc⟩)
        hval1
      refine ⟨fun k hk => key.1 k (by omega), key.2.1, ?_⟩
      rcases key.2.2 with h | h
      · exact Or.inl h
      · exact Or.inr (by omega)
    · simp only [hc, if_false]
      have key := ih (i + 1) li mx
        (fun k hk => by
          rcases Nat.lt_or_ge k i with h | h
          · exact hle k h
          · have : k = i := by omega
            rw [this]; omega)
        (by
          rcases hsum with h | ⟨h1, h2, h3, h4⟩
          · exact Or.inl h
          · exact Or.inr ⟨by omega, h2, h3, h4⟩)
        hval1
      refine ⟨fun k hk => key.1 k (by omega), key.2.1, ?_⟩
      rcases key.2.2 with h | h
      · exact Or.inl h
      · exact Or.inr (by omega)

/-- C28. For every set state of a cache with at least one way, `findLRUBlockIndex`
returns a way below `associativity`; when some line of the set is invalid it is the
lowest invalid way, and when all lines are valid it holds the largest `lruCounter`
of the set and every way below it holds a smaller one. -/
theorem C28_findLRUBlockIndex_result (c : Cache) (index : Nat)
    (hN : 1 ≤ c.associativity) :
    findLRUBlockIndex c index < c.associativity ∧
      ((∃ i, i < c.associativity ∧ (lineAt (rowAt c index) i).valid = false) →
        (lineAt (rowAt c index) (findLRUBlockIndex c index)).valid = false ∧
        ∀ k, k < findLRUBlockIndex c index → (lineAt (rowAt c index) k).valid = true) ∧
      ((∀ i, i < c.associativity → (lineAt (rowAt c index) i).valid = true) →
        (∀ k, k < c.associativity →
          (lineAt (rowAt c index) k).lruCounter
            ≤ (lineAt (rowAt c index) (findLRUBlockIndex c index)).lruCounter) ∧
        ∀ k, k < findLRUBlockIndex c index →
          (lineAt (rowAt c index) k).lruCounter
            < (lineAt (rowAt c index) (findLRUBlockIndex c index)).lruCounter) := by
  unfold findLRUBlockIndex
  rcases findLRUBlockIndexLoop_spec (rowAt c index) c.associativity 0 0 0 with
    ⟨_, h2, h3, h4⟩ | ⟨hall, _⟩
  · rw [Nat.zero_add] at h2
    refine ⟨h2, fun _ => ⟨h3, fun k hk => h4 k (Nat.zero_le _) hk⟩, fun hallv => ?_⟩
    rw [hallv _ h2] at h3
    cases h3
  · have hall1 : ∀ i, i < c.associativity → (lineAt (rowAt c index) i).valid = true :=
      fun i hi => hall i (Nat.zero_le _) (by omega)
    have key := findLRUBlockIndexLoop_lowest (rowAt c index) c.associativity 0 0 0
      (fun k hk => by omega) (Or.inl ⟨rfl, rfl⟩) hall
    rw [Nat.zero_add] at key
    refine ⟨?_, ?_, fun _ => ⟨key.1, key.2.1⟩⟩
    · rcases key.2.2 with h | h
      · rw [h]; exact hN
      · exact h
    · rintro ⟨i, hi, hv⟩
      rw [hall1 i hi] at hv
      cases hv

/-- Witness of C28: set 0 of `Cache(2, 2, 4)` after `access(0)` and `access(8)`: both
lines are valid, with the counters 1 and 0, and way 0 is returned. -/
theorem C28_findLRUBlockIndex_result_witness :
    1 ≤ afterAccessZeroEight.associativity ∧ findLRUBlockIndex afterAccessZeroEight 0 = 0 ∧
      (findLRUBlockIndex afterAccessZeroEight 0 < afterAccessZeroEight.associativity ∧
      ((∃ i, i < afterAccessZeroEight.associativity ∧
          (lineAt (rowAt afterAccessZeroEight 0) i).valid = false) →
        (lineAt (rowAt afterAccessZeroEight 0)
          (findLRUBlockIndex afterAccessZeroEight 0)).valid = false ∧
        ∀ k, k < findLRUBlockIndex afterAccessZeroEight 0 →
          (lineAt (rowAt afterAccessZeroEight 0) k).valid = true) ∧
      ((∀ i, i < afterAccessZeroEight.associativity →
          (lineAt (rowAt afterAccessZeroEight 0) i).valid = true) →
        (∀ k, k < afterAccessZeroEight.associativity →
          (lineAt (rowAt afterAccessZeroEight 0) k).lruCounter
            ≤ (lineAt (rowAt afterAccessZeroEight 0)
                (findLRUBlockIndex afterAccessZeroEight 0)).lruCounter) ∧
        ∀ k, k < findLRUBlockIndex afterAccessZeroEight 0 →
          (lineAt (rowAt afterAccessZeroEight 0) k).lruCounter
            < (lineAt (rowAt afterAccessZeroEight 0)
                (findLRUBlockIndex afterAccessZeroEight 0)).lruCounter)) :=
  ⟨by decide, by decide, C28_findLRUBlockIndex_result afterAccessZeroEight 0 (by decide)⟩

/-- A call of `access` that returns `false` found no valid line with the tag. -/
theorem accessLoop_of_miss {c c1 : Cache} {a : Nat} (h : access c a = some (false, c1)) :
    accessLoop (rowAt c (indexOf c a)) (tagOf c a) c.associativity 0 = none := by
  unfold access at h
  split at h
  · cases h
  · simp only at h
    split at h
    · simp at h
    · rename_i hl
      exact hl

/-- In a reachable state of a cache with at least one way and non-zero divisors, the
indices that `access` uses are in range: the set index is below `setSize`, which is
the number of sets, the selected set has `associativity` lines, and the way that is
touched is below `associativity`. -/
theorem Reachable.indices_in_range {c : Cache} (hr : Reachable c)
    (hN : 1 ≤ c.associativity)
    (hz : ¬(c.blockSize = 0 ∨ c.setSize = 0 ∨ tagDivisor c = 0)) (a : Nat) :
    indexOf c a < c.setSize ∧ c.cache.length = c.setSize ∧
      (rowAt c (indexOf c a)).length = c.associativity ∧
      touchedWay c a < c.associativity ∧
      findLRUBlockIndex c (indexOf c a) < c.associativity := by
  obtain ⟨m, inv⟩ := hr.cacheInv_any
  have hs0 : 0 < c.setSize := Nat.pos_of_ne_zero (fun h => hz (Or.inr (Or.inl h)))
  have hidx : indexOf c a < c.setSize := Nat.mod_lt _ hs0
  obtain ⟨ways, hrow, _⟩ := inv.rows _ hidx
  refine ⟨hidx, inv.length_eq, hrow.length_eq, ?_, ?_⟩
  · exact (hrow.accessRow_touched hN (tagOf c a) (touchedWay c a) rfl).1
  · rcases Nat.lt_or_ge ways.length c.associativity with hlt | hge
    · unfold findLRUBlockIndex
      rw [hrow.findLRU_of_not_full hlt]; exact hlt
    · exact (hrow.findLRU_of_full hN (le_antisymm hrow.length_le hge)).1

/-- C29. After an access that misses, in a state reachable from a fresh cache with at
least one way: the line chosen by `findLRUBlockIndex` is valid, holds the computed
tag and has counter 0; every other line of the set keeps its valid bit and its tag,
and every other valid line of the set has its counter increased by exactly one. -/
theorem C29_miss_updates_the_set (c c1 : Cache) (a : Nat) (hr : Reachable c)
    (hN : 1 ≤ c.associativity) (h : access c a = some (false, c1)) :
    lineAt (rowAt c1 (indexOf c a)) (findLRUBlockIndex c (indexOf c a))
        = ⟨true, tagOf c a, 0⟩ ∧
      ∀ j, j ≠ findLRUBlockIndex c (indexOf c a) →
        (lineAt (rowAt c1 (indexOf c a)) j).valid = (lineAt (rowAt c (indexOf c a)) j).valid ∧
        (lineAt (rowAt c1 (indexOf c a)) j).tag = (lineAt (rowAt c (indexOf c a)) j).tag ∧
        ((lineAt (rowAt c (indexOf c a)) j).valid = true →
          (lineAt (rowAt c1 (indexOf c a)) j).lruCounter
            = (lineAt (rowAt c (indexOf c a)) j).lruCounter + 1) := by
  obtain ⟨_, _, _, hz⟩ := access_config h
  obtain ⟨hidx, hlen, hrow, _, hv⟩ := hr.indices_in_range hN hz a
  have hcache := access_cache_eq h
  have hrowAt : rowAt c1 (indexOf c a)
      = (accessRow c.associativity (rowAt c (indexOf c a)) (tagOf c a)).2 := by
    rw [rowAt_access (by rw [hlen]; exact hidx) hcache, if_pos rfl]
  have hmiss : (accessRow c.associativity (rowAt c (indexOf c a)) (tagOf c a)).2
      = updateLRUCountersLoop (findLRUBlockIndex c (indexOf c a)) c.associativity 0
          ((rowAt c (indexOf c a)).set (findLRUBlockIndex c (indexOf c a))
            ⟨true, tagOf c a, 0⟩) := by
    unfold accessRow
    rw [accessLoop_of_miss h]
    rfl
  rw [hrowAt, hmiss]
  refine ⟨?_, fun j hj => ?_⟩
  · rw [lineAt_miss hrow hv, if_pos rfl]
  · rw [lineAt_miss hrow hv, if_neg hj]
    by_cases hc : j < c.associativity ∧ (lineAt (rowAt c (indexOf c a)) j).valid = true
    · rw [if_pos hc]
      exact ⟨hc.2.symm, rfl, fun _ => rfl⟩
    · rw [if_neg hc]
      refine ⟨rfl, rfl, fun hvj => ?_⟩
      exfalso
      apply hc
      have := lineAt_valid_lt hvj
      rw [hrow] at this
      exact ⟨this, hvj⟩

/-- Witness of C29: `access(8)` on `Cache(2, 2, 4)` after `access(0)` misses, fills way 1
of set 0 and increases the counter of way 0. -/
theorem C29_miss_updates_the_set_witness :
    Reachable afterAccessZero ∧ 1 ≤ afterAccessZero.associativity ∧
      access afterAccessZero 8 = some (false, afterAccessZeroEight) ∧
      (lineAt (rowAt afterAccessZeroEight (indexOf afterAccessZero 8))
          (findLRUBlockIndex afterAccessZero (indexOf afterAccessZero 8))
        = ⟨true, tagOf afterAccessZero 8, 0⟩ ∧
      ∀ j, j ≠ findLRUBlockIndex afterAccessZero (indexOf afterAccessZero 8) →
        (lineAt (rowAt afterAccessZeroEight (indexOf afterAccessZero 8)) j).valid
          = (lineAt (rowAt afterAccessZero (indexOf afterAccessZero 8)) j).valid ∧
        (lineAt (rowAt afterAccessZeroEight (indexOf afterAccessZero 8)) j).tag
          = (lineAt (rowAt afterAccessZero (indexOf afterAccessZero 8)) j).tag ∧
        ((lineAt (rowAt afterAccessZero (indexOf afterAccessZero 8)) j).valid = true →
          (lineAt (rowAt afterAccessZeroEight (indexOf afterAccessZero 8)) j).lruCounter
            = (lineAt (rowAt afterAccessZero (indexOf afterAccessZero 8)) j).lruCounter + 1)) :=
  ⟨Reachable.step (Reachable.fresh 2 2 4)
      (by decide : access (Cache.new 2 2 4) 0 = some (false, afterAccessZero)),
    by decide, by decide,
    C29_miss_updates_the_set afterAccessZero afterAccessZeroEight 8
      (Reachable.step (Reachable.fresh 2 2 4)
        (by decide : access (Cache.new 2 2 4) 0 = some (false, afterAccessZero)))
      (by decide) (by decide)⟩

/-- C26. Divisions and indices of `access`, where the 32-bit product wraps: on
`Cache(65536, 1, 65536)`, with `setSize`, `associativity` and `blockSize` at least 1,
the divisor `blockSize * setSize` of line 47 is 0 and `access` has no defined
result on the fresh cache. -/
theorem C26_division_by_zero_when_product_wraps_to_zero :
    (1 ≤ 65536 ∧ 65536 < 2 ^ 32) ∧ tagDivisor (Cache.new 65536 1 65536) = 0 ∧
      access (Cache.new 65536 1 65536) 4294967296 = none ∧
      Reachable (Cache.new 65536 1 65536) :=
  ⟨by decide, by decide, by decide, Reachable.fresh 65536 1 65536⟩

end Cache183924

/-! ## The latest snapshot `Cache_20240216205421.cpp`: the constructor and the indices -/

namespace Cache205421

/-- What the constructor returns on parameters for which line 24 is defined: no test
of the parameters is made. -/
theorem new_of_defined (size a b : Int) (hs : 0 ≤ size) (ha : 0 < a) (hb : 0 < b)
    (hp : a * b < 2 ^ 31) :
    Cache.new size a b = some
      { size := size
        associativity := a
        block_size := b
        sets := Int.tdiv size (a * b)
        valid := List.replicate (Int.tdiv size (a * b)).toNat (List.replicate a.toNat false)
        lru_counter := List.replicate (Int.tdiv size (a * b)).toNat
          (List.replicate a.toNat 0) } := by
  have hpos : 0 < a * b := Int.mul_pos ha hb
  have hq : 0 ≤ Int.tdiv size (a * b) := Int.tdiv_nonneg hs (le_of_lt hpos)
  unfold Cache.new
  rw [if_neg (by omega), if_neg (by omega), if_neg (by omega), if_neg (by omega)]

/-- C22. For `size`, `associativity`, `block_size > 0` (an `int` size, below `2 ^ 31`)
with `size` evenly divisible by `associativity * block_size`, the constructor returns
a cache whose set count satisfies `sets * associativity * block_size = size`, and
`valid` and `lru_counter` have exactly `sets` rows of `associativity` entries. -/
theorem C22_capacity_invariant (size a b : Int) (hs : 0 < size) (hsz : size < 2 ^ 31)
    (ha : 0 < a) (hb : 0 < b) (hdiv : a * b ∣ size) :
    ∃ c, Cache.new size a b = some c ∧ c.sets * a * b = size ∧
      (c.valid.length : Int) = c.sets ∧ (c.lru_counter.length : Int) = c.sets ∧
      (∀ row, row ∈ c.valid → (row.length : Int) = a) ∧
      (∀ row, row ∈ c.lru_counter → (row.length : Int) = a) := by
  have hpos : 0 < a * b := Int.mul_pos ha hb
  have hple : a * b ≤ size := Int.le_of_dvd hs hdiv
  have hq : 0 ≤ Int.tdiv size (a * b) := Int.tdiv_nonneg (le_of_lt hs) (le_of_lt hpos)
  refine ⟨_, new_of_defined size a b (le_of_lt hs) ha hb (by omega), ?_, ?_, ?_, ?_, ?_⟩
  · show Int.tdiv size (a * b) * a * b = size
    rw [mul_assoc]
    exact Int.tdiv_mul_cancel hdiv
  · show ((List.replicate _ _).length : Int) = Int.tdiv size (a * b)
    rw [List.length_replicate]
    exact Int.toNat_of_nonneg hq
  · show ((List.replicate _ _).length : Int) = Int.tdiv size (a * b)
    rw [List.length_replicate]
    exact Int.toNat_of_nonneg hq
  · intro row hrow
    have := List.eq_of_mem_replicate hrow
    rw [this, List.length_replicate]
    exact Int.toNat_of_nonneg (le_of_lt ha)
  · intro row hrow
    have := List.eq_of_mem_replicate hrow
    rw [this, List.length_replicate]
    exact Int.toNat_of_nonneg (le_of_lt ha)

/-- Witness of C22: `Cache(16384, 8, 64)`, the configuration of `main`. -/
theorem C22_capacity_invariant_witness :
    ((0 : Int) < 16384 ∧ (16384 : Int) < 2 ^ 31 ∧ (0 : Int) < 8 ∧ (0 : Int) < 64 ∧
        (8 : Int) * 64 ∣ 16384) ∧
      ∃ c, Cache.new 16384 8 64 = some c ∧ c.sets * 8 * 64 = 16384 ∧
        (c.valid.length : Int) = c.sets ∧ (c.lru_counter.length : Int) = c.sets ∧
        (∀ row, row ∈ c.valid → (row.length : Int) = 8) ∧
        (∀ row, row ∈ c.lru_counter → (row.length : Int) = 8) :=
  ⟨⟨by decide, by decide, by decide, by decide, by decide⟩,
    C22_capacity_invariant 16384 8 64 (by decide) (by decide) (by decide) (by decide)
      (by decide)⟩

/-- C24, as the code behaves: the constructor makes no test of its parameters and
raises no configuration error. For `size ≥ 0` and `associativity`, `block_size > 0`
whose product fits in `int`, construction succeeds with
`sets = size / (associativity * block_size)` rounded down, whether or not `size` is
evenly divisible by the product. -/
theorem C24_constructor_without_validation (size a b : Int) (hs : 0 ≤ size) (ha : 0 < a)
    (hb : 0 < b) (hp : a * b < 2 ^ 31) :
    ∃ c, Cache.new size a b = some c ∧ c.sets = size / (a * b) ∧ c.size = size ∧
      c.associativity = a ∧ c.block_size = b := by
  refine ⟨_, new_of_defined size a b hs ha hb hp, ?_, rfl, rfl, rfl⟩
  exact Int.tdiv_eq_ediv hs (le_of_lt (Int.mul_pos ha hb))

/-- Witness of C24: `Cache(10, 1, 4)`, whose size is not a multiple of 4. -/
theorem C24_constructor_without_validation_witness :
    ((0 : Int) ≤ 10 ∧ (0 : Int) < 1 ∧ (0 : Int) < 4 ∧ (1 : Int) * 4 < 2 ^ 31) ∧
      ∃ c, Cache.new 10 1 4 = some c ∧ c.sets = 10 / (1 * 4) ∧ c.size = 10 ∧
        c.associativity = 1 ∧ c.block_size = 4 :=
  ⟨⟨by decide, by decide, by decide, by decide⟩,
    C24_constructor_without_validation 10 1 4 (by decide) (by decide) (by decide)
      (by decide)⟩

/-- C24, counterexample: `Cache(10, 1, 4)` is constructed, with 2 sets, although 10 is
not evenly divisible by `1 * 4`; `Cache(1, 2, 4)` is constructed with 0 sets, and its
first access divides by zero at line 34. -/
theorem C24_no_configuration_error :
    ¬((1 : Int) * 4 ∣ 10) ∧ (Cache.new 10 1 4).map (fun c => c.sets) = some 2 ∧
      (Cache.new 1 2 4).map (fun c => c.sets) = some 0 ∧
      (Cache.new 1 2 4).bind (fun c => access c 0) = none := by
  decide

/-- The set index of a non-negative address lies in `[0, sets)`, for a positive block
size and at least one set. -/
theorem setIndex_in_range {block_size sets address : Int} (hb : 0 < block_size)
    (hs : 0 < sets) (ha : 0 ≤ address) :
    0 ≤ setIndex block_size sets address ∧ setIndex block_size sets address < sets := by
  unfold setIndex
  exact ⟨Int.tmod_nonneg _ (Int.tdiv_nonneg ha (le_of_lt hb)), Int.tmod_lt_of_pos _ hs⟩

/-- The loop of `findLRUVictim` returns its initial victim or a way it has visited. -/
theorem findLRUVictimLoop_lt (c : Cache) (s : Nat) :
    ∀ (n i : Nat) (mx : Int) (v : Nat),
      findLRUVictimLoop c s n i mx v = v ∨ findLRUVictimLoop c s n i mx v < i + n := by
  intro n
  induction n with
  | zero => intro i mx v; exact Or.inl rfl
  | succ n ih =>
    intro i mx v
    unfold findLRUVictimLoop
    split
    · exact Or.inr (by omega)
    · split
      · rcases ih (i + 1) (counterAt c s i) i with h | h
        · exact Or.inr (by rw [h]; omega)
        · exact Or.inr (by omega)
      · rcases ih (i + 1) mx v with h | h
        · exact Or.inl h
        · exact Or.inr (by omega)

/-- The victim index of `findLRUVictim` is a way of the set, in a cache with at least
one way. -/
theorem findLRUVictim_lt (c : Cache) (s : Nat) (ha : 1 ≤ c.associativity) :
    (findLRUVictim c s : Int) < c.associativity := by
  have h1 : 1 ≤ c.associativity.toNat := by omega
  have h2 : findLRUVictim c s < c.associativity.toNat := by
    unfold findLRUVictim
    rcases findLRUVictimLoop_lt c s c.associativity.toNat 0 (-1) 0 with h | h
    · rw [h]; omega
    · omega
  omega

/-- C25. Set index of an address of `2 ^ 31` and above: in `Cache(16384, 8, 64)` the
address `2 ^ 31 + 64` read by `main` becomes the `int` `-2147483584`, whose set index
`(-2147483584 / 64) % 32` is -31, outside `[0, sets)`, and the call has no defined
result; the address 64 has set index 1. -/
theorem C25_negative_set_index_for_large_address :
    toInt 2147483712 = -2147483584 ∧ setIndex 64 32 (toInt 2147483712) = -31 ∧
      (Cache.new 16384 8 64).map (fun c => c.sets) = some 32 ∧
      (Cache.new 16384 8 64).bind (fun c => access c (toInt 2147483712)) = none ∧
      (Cache.new 16384 8 64).bind (fun c => (access c (toInt 64)).map Prod.fst)
        = some false := by
  decide

end Cache205421

/-! ## The latest snapshot `Cache_20240216205421.cpp`: hits without tags -/

namespace Cache205421

/-- Reading a list after one entry was written. -/
theorem getD_set_eq {α : Type} (l : List α) (i j : Nat) (x d : α) :
    (l.set i x).getD j d = if j = i ∧ i < l.length then x else l.getD j d := by
  simp only [List.getD_eq_getElem?_getD, List.getElem?_set]
  by_cases hji : i = j
  · subst hji
    by_cases hl : i < l.length
    · simp [hl]
    · simp [hl, List.getElem?_eq_none (not_lt.mp hl)]
  · have : ¬ j = i := fun h => hji h.symm
    simp [hji, this]

/-- The loop of `updateLRU` changes nothing when the used way is the only valid way. -/
theorem updateLRULoop_eq_self (validRow : List Bool) (used : Nat)
    (h : ∀ j, validRow.getD j false = true → j = used) :
    ∀ (n i : Nat) (counters : List Int),
      updateLRULoop validRow used n i counters = counters := by
  intro n
  induction n with
  | zero => intro i counters; rfl
  | succ n ih =>
    intro i counters
    unfold updateLRULoop
    have hc : (validRow.getD i false && decide (i ≠ used)) = false := by
      by_cases hv : validRow.getD i false = true
      · have := h i hv
        simp [this]
      · rw [Bool.not_eq_true] at hv
        rw [hv]; rfl
    rw [hc]
    exact ih (i + 1) counters

/-- The hit-search loop finds no way in a set without a valid way. -/
theorem accessLoop_none_of_invalid (c : Cache) (s : Nat)
    (h : ∀ i, validAt c s i = false) :
    ∀ (n i : Nat), accessLoop c s n i = none := by
  intro n
  induction n with
  | zero => intro i; rfl
  | succ n ih =>
    intro i
    unfold accessLoop
    rw [h i, ih]
    rfl

/-- The method `updateLRU` leaves the valid bits alone. -/
theorem validAt_updateLRU (c : Cache) (s u s1 i : Nat) :
    validAt (updateLRU c s u) s1 i = validAt c s1 i := rfl

/-- The counters after `updateLRU` on way 0, in a state where way 0 is the only way of
the set that can be valid and all counters are 0: all counters are 0 again. -/
theorem counterAt_updateLRU_zero (c : Cache) (s : Nat)
    (hv : ∀ j, validAt c s j = true → j = 0)
    (hc : ∀ s1 i, counterAt c s1 i = 0) (s1 i : Nat) :
    counterAt (updateLRU c s 0) s1 i = 0 := by
  unfold counterAt updateLRU
  simp only
  rw [updateLRULoop_eq_self _ 0 hv, getD_set_eq]
  split
  · rw [getD_set_eq]
    split
    · rfl
    · exact hc s i
  · exact hc s1 i

/-- The method `updateLRU` keeps the number of counter rows. -/
theorem lru_length_updateLRU (c : Cache) (s u : Nat) :
    (updateLRU c s u).lru_counter.length = c.lru_counter.length := by
  unfold updateLRU
  simp

/-- The method `updateLRU` on way 0 keeps the length of every counter row. -/
theorem lru_row_length_updateLRU (c : Cache) (s s1 : Nat)
    (hv : ∀ j, validAt c s j = true → j = 0) :
    ((updateLRU c s 0).lru_counter.getD s1 []).length = (c.lru_counter.getD s1 []).length := by
  unfold updateLRU
  simp only
  rw [updateLRULoop_eq_self _ 0 hv, getD_set_eq]
  split
  · rename_i h
    rw [List.length_set, h.1]
  · rfl

/-- The state after `updateLRU` on way 0 satisfies the invariant again. -/
theorem StateInv.updateLRU_zero {c : Cache} {touched : List Int} (inv : StateInv c touched)
    (s : Nat) : StateInv (updateLRU c s 0) touched := by
  have hvr : ∀ j, validAt c s j = true → j = 0 := by
    intro j hj
    by_contra hj0
    rw [inv.other_ways s j (by omega)] at hj
    cases hj
  refine ⟨inv.valid_length, ?_, inv.valid_row, ?_, inv.way_zero, inv.other_ways, ?_⟩
  · rw [lru_length_updateLRU]; exact inv.counter_length
  · intro s1 hs1
    rw [lru_row_length_updateLRU c s s1 hvr]
    exact inv.counter_row s1 hs1
  · exact counterAt_updateLRU_zero c s hvr inv.counters

/-- Line 49, `valid[set_index][0] = true`, keeps the invariant and adds the set. -/
theorem StateInv.fill {c : Cache} {touched : List Int} (inv : StateInv c touched)
    (s : Nat) (hs : s < c.sets.toNat) (ha : 1 ≤ c.associativity.toNat) :
    StateInv { c with valid := c.valid.set s ((c.valid.getD s []).set 0 true) }
      (touched ++ [(s : Int)]) := by
  have hrowlen := inv.valid_row s hs
  have hvalid1 : ∀ s1 i, validAt
      { c with valid := c.valid.set s ((c.valid.getD s []).set 0 true) } s1 i
        = if s1 = s ∧ i = 0 then true else validAt c s1 i := by
    intro s1 i
    unfold validAt
    simp only
    rw [getD_set_eq]
    by_cases hs1 : s1 = s
    · subst hs1
      rw [if_pos ⟨rfl, by rw [inv.valid_length]; exact hs⟩, getD_set_eq]
      by_cases hi : i = 0
      · rw [if_pos ⟨hi, by rw [hrowlen]; omega⟩, if_pos ⟨rfl, hi⟩]
      · rw [if_neg (fun h => hi h.1), if_neg (fun h => hi h.2)]
    · rw [if_neg (fun h => hs1 h.1), if_neg (fun h => hs1 h.1)]
  refine ⟨?_, inv.counter_length, ?_, inv.counter_row, ?_, ?_, inv.counters⟩
  · show (List.set _ _ _).length = _
    rw [List.length_set]; exact inv.valid_length
  · intro s1 hs1
    show ((List.set _ _ _).getD s1 []).length = _
    rw [getD_set_eq]
    split
    · rw [List.length_set]; exact hrowlen
    · exact inv.valid_row s1 hs1
  · intro s1 hs1
    rw [hvalid1, List.mem_append, List.mem_singleton]
    by_cases hs2 : s1 = s
    · rw [if_pos ⟨hs2, rfl⟩, hs2]
      simp
    · rw [if_neg (fun h => hs2 h.1)]
      have : ¬ (s1 : Int) = (s : Int) := fun h => hs2 (by exact_mod_cast h)
      simp only [this, or_false]
      exact inv.way_zero s1 hs1
  · intro s1 i hi
    rw [hvalid1, if_neg (fun h => by omega)]
    exact inv.other_ways s1 i hi

/-- The invariant depends on the set of touched set indices only. -/
theorem StateInv.mono {c : Cache} {t1 t2 : List Int} (inv : StateInv c t1)
    (h : ∀ x, x ∈ t1 ↔ x ∈ t2) : StateInv c t2 :=
  ⟨inv.valid_length, inv.counter_length, inv.valid_row, inv.counter_row,
    fun s hs => (inv.way_zero s hs).trans (h _), inv.other_ways, inv.counters⟩

/-- One call of `access` in a state that satisfies the invariant, for a non-negative
address: the call returns `true` exactly when the set was accessed before, and the
invariant holds again with the set index added. -/
theorem StateInv.access_step {c : Cache} {touched : List Int} (inv : StateInv c touched)
    (hs : 1 ≤ c.sets) (ha : 1 ≤ c.associativity) (hb : 0 < c.block_size)
    (a : Int) (hnn : 0 ≤ a) :
    ∃ c1, Cache205421.access c a
        = some (decide (setIndex c.block_size c.sets a ∈ touched), c1) ∧
      StateInv c1 (touched ++ [setIndex c.block_size c.sets a]) ∧
      c1.size = c.size ∧ c1.associativity = c.associativity ∧
      c1.block_size = c.block_size ∧ c1.sets = c.sets := by
  obtain ⟨h0, h1⟩ := setIndex_in_range hb (by omega : 0 < c.sets) hnn
  have hq : 0 ≤ Int.tdiv a c.block_size := Int.tdiv_nonneg hnn (le_of_lt hb)
  have hsi : Int.tmod (Int.tdiv a c.block_size) c.sets = setIndex c.block_size c.sets a := rfl
  have hn : 1 ≤ c.associativity.toNat := by omega
  have hsn : (setIndex c.block_size c.sets a).toNat < c.sets.toNat :=
    (Int.toNat_lt_toNat (by omega)).mpr h1
  have hcast : (((setIndex c.block_size c.sets a).toNat : Nat) : Int)
      = setIndex c.block_size c.sets a := Int.toNat_of_nonneg h0
  have hway := inv.way_zero _ hsn
  rw [hcast] at hway
  unfold Cache205421.access
  rw [if_neg (by omega), if_neg (by omega), if_neg (by omega), hsi, if_neg (by omega)]
  simp only
  obtain ⟨k, hk⟩ : ∃ k, c.associativity.toNat = k + 1 := ⟨c.associativity.toNat - 1, by omega⟩
  by_cases hmem : setIndex c.block_size c.sets a ∈ touched
  · have hv0 := hway.mpr hmem
    have hloop : accessLoop c (setIndex c.block_size c.sets a).toNat
        c.associativity.toNat 0 = some 0 := by
      rw [hk]
      unfold accessLoop
      rw [hv0, inv.counters]
      rfl
    rw [hloop]
    refine ⟨updateLRU c (setIndex c.block_size c.sets a).toNat 0, ?_, ?_, rfl, rfl, rfl, rfl⟩
    · simp [hmem]
    · exact (inv.updateLRU_zero _).mono (fun x => by
        rw [List.mem_append, List.mem_singleton]
        constructor
        · exact Or.inl
        · rintro (h | h)
          · exact h
          · rw [h]; exact hmem)
  · have hv0 : validAt c (setIndex c.block_size c.sets a).toNat 0 = false := by
      cases hv : validAt c (setIndex c.block_size c.sets a).toNat 0
      · rfl
      · exact absurd (hway.mp hv) hmem
    have hall : ∀ i, validAt c (setIndex c.block_size c.sets a).toNat i = false := by
      intro i
      rcases Nat.eq_zero_or_pos i with h | h
      · rw [h]; exact hv0
      · exact inv.other_ways _ i h
    rw [accessLoop_none_of_invalid c _ hall]
    have hvic : findLRUVictim c (setIndex c.block_size c.sets a).toNat = 0 := by
      unfold findLRUVictim
      rw [hk]
      unfold findLRUVictimLoop
      rw [hv0]
      rfl
    simp only [hvic]
    refine ⟨updateLRU
      { c with
        valid := c.valid.set (setIndex c.block_size c.sets a).toNat
          ((c.valid.getD (setIndex c.block_size c.sets a).toNat []).set 0 true) }
      (setIndex c.block_size c.sets a).toNat 0, ?_, ?_, rfl, rfl, rfl, rfl⟩
    · simp only [hmem, decide_False]
    · have := (inv.fill _ hsn hn).updateLRU_zero (setIndex c.block_size c.sets a).toNat
      rw [hcast] at this
      exact this


/-- The flags of a whole sequence of non-negative addresses, from a state that
satisfies the invariant for the set indices of the addresses `earlier`. -/
theorem StateInv.accessAll {c : Cache} {earlier : List Int}
    (inv : StateInv c (earlier.map (setIndex c.block_size c.sets)))
    (hs : 1 ≤ c.sets) (ha : 1 ≤ c.associativity) (hb : 0 < c.block_size)
    (addresses : List Int) (hnn : ∀ x, x ∈ addresses → 0 ≤ x) :
    (Cache205421.accessAll c addresses).map Prod.fst
      = some (touchedResultsFrom c.block_size c.sets earlier addresses) := by
  induction addresses generalizing c earlier with
  | nil => rfl
  | cons a rest ih =>
    obtain ⟨c1, h1, inv1, -, e2, e3, e4⟩ :=
      inv.access_step hs ha hb a (hnn a (List.mem_cons_self a rest))
    have inv2 : StateInv c1 ((earlier ++ [a]).map (setIndex c1.block_size c1.sets)) := by
      rw [e3, e4, List.map_append]
      exact inv1
    have h2 := @ih c1 (earlier ++ [a]) inv2 (by rw [e4]; exact hs) (by rw [e2]; exact ha)
      (by rw [e3]; exact hb) (fun x hx => hnn x (List.mem_cons_of_mem a hx))
    rw [e3, e4] at h2
    unfold Cache205421.accessAll
    rw [h1]
    simp only
    cases h3 : Cache205421.accessAll c1 rest with
    | none => rw [h3] at h2; cases h2
    | some p =>
      rw [h3] at h2
      simp only [Option.map_some', Option.some.injEq] at h2
      simp only [Option.map_some', Option.some.injEq, touchedResultsFrom]
      rw [h2]

/-- The number of `false` flags of the reference: the set indices not seen before. -/
theorem count_false_touchedResultsFrom (block_size sets : Int) (addresses earlier : List Int) :
    (touchedResultsFrom block_size sets earlier addresses).count false
      = ((addresses.map (setIndex block_size sets)).toFinset
          \ (earlier.map (setIndex block_size sets)).toFinset).card := by
  induction addresses generalizing earlier with
  | nil => simp [touchedResultsFrom]
  | cons a rest ih =>
    simp only [touchedResultsFrom, List.map_cons, List.toFinset_cons]
    rw [List.count_cons, ih (earlier ++ [a])]
    simp only [List.map_append, List.map_cons, List.map_nil, List.toFinset_append,
      List.toFinset_cons, List.toFinset_nil, insert_emptyc_eq]
    by_cases hm : setIndex block_size sets a ∈ earlier.map (setIndex block_size sets)
    · have hm1 : setIndex block_size sets a ∈ (earlier.map (setIndex block_size sets)).toFinset :=
        List.mem_toFinset.mpr hm
      simp only [hm, decide_True, Bool.true_eq_false, beq_iff_eq, if_false, add_zero]
      congr 1
      ext x
      simp only [Finset.mem_sdiff, Finset.mem_union, Finset.mem_singleton, Finset.mem_insert]
      constructor
      · rintro ⟨h1, h2⟩
        exact ⟨Or.inr h1, fun h => h2 (Or.inl h)⟩
      · rintro ⟨h1 | h1, h2⟩
        · rw [h1] at h2; exact absurd hm1 h2
        · exact ⟨h1, fun h => h.elim h2 (fun h3 => h2 (h3 ▸ hm1))⟩
    · have hm1 : setIndex block_size sets a ∉ (earlier.map (setIndex block_size sets)).toFinset :=
        fun h => hm (List.mem_toFinset.mp h)
      simp only [hm, decide_False, beq_self_eq_true, if_true]
      rw [show insert (setIndex block_size sets a) (rest.map (setIndex block_size sets)).toFinset
            \ (earlier.map (setIndex block_size sets)).toFinset
          = insert (setIndex block_size sets a)
              ((rest.map (setIndex block_size sets)).toFinset
                \ ((earlier.map (setIndex block_size sets)).toFinset
                  ∪ {setIndex block_size sets a})) from ?_]
      · rw [Finset.card_insert_of_not_mem]
        simp
      · ext x
        simp only [Finset.mem_sdiff, Finset.mem_union, Finset.mem_singleton, Finset.mem_insert]
        constructor
        · rintro ⟨h1 | h1, h2⟩
          · exact Or.inl h1
          · by_cases hx : x = setIndex block_size sets a
            · exact Or.inl hx
            · exact Or.inr ⟨h1, fun h => h.elim h2 hx⟩
        · rintro (h1 | ⟨h1, h2⟩)
          · exact ⟨Or.inl h1, h1 ▸ hm1⟩
          · exact ⟨Or.inr h1, fun h => h2 (Or.inl h)⟩

/-- A freshly constructed cache satisfies the invariant with no set touched. -/
theorem StateInv.of_new {size a b : Int} {c : Cache} (h : Cache.new size a b = some c) :
    StateInv c [] := by
  unfold Cache.new at h
  split at h
  · cases h
  split at h
  · cases h
  split at h
  · cases h
  split at h
  · cases h
  simp only [Option.some.injEq] at h
  subst h
  refine ⟨by simp, by simp, ?_, ?_, ?_, ?_, ?_⟩
  · intro s hs
    simp only [List.getD_eq_getElem?_getD, List.getElem?_replicate, if_pos hs]
    simp
  · intro s hs
    simp only [List.getD_eq_getElem?_getD, List.getElem?_replicate, if_pos hs]
    simp
  · intro s hs
    unfold validAt
    simp only [List.getD_eq_getElem?_getD, List.getElem?_replicate, if_pos hs]
    by_cases h0 : 0 < a.toNat <;> simp [h0]
  · intro s i _
    unfold validAt
    simp only [List.getD_eq_getElem?_getD, List.getElem?_replicate]
    by_cases hs : s < (Int.tdiv size (a * b)).toNat <;> by_cases h0 : i < a.toNat <;>
      simp [hs, h0]
  · intro s i
    unfold counterAt
    simp only [List.getD_eq_getElem?_getD, List.getElem?_replicate]
    by_cases hs : s < (Int.tdiv size (a * b)).toNat <;> by_cases h0 : i < a.toNat <;>
      simp [hs, h0]

/-- The reference flags are as many as the addresses. -/
theorem length_touchedResultsFrom (block_size sets : Int) (addresses earlier : List Int) :
    (touchedResultsFrom block_size sets earlier addresses).length = addresses.length := by
  induction addresses generalizing earlier with
  | nil => rfl
  | cons a rest ih => simp [touchedResultsFrom, ih]

/-- The k-th reference flag: whether the set index of the k-th address is the set index
of an earlier address. -/
theorem getD_touchedResultsFrom (block_size sets : Int) (addresses earlier : List Int)
    (k : Nat) (hk : k < addresses.length) :
    (touchedResultsFrom block_size sets earlier addresses).getD k false
      = decide (setIndex block_size sets (addresses.getD k 0)
          ∈ (earlier ++ addresses.take k).map (setIndex block_size sets)) := by
  induction addresses generalizing earlier k with
  | nil => simp at hk
  | cons a rest ih =>
    cases k with
    | zero => simp [touchedResultsFrom]
    | succ k =>
      simp only [touchedResultsFrom, List.getD_cons_succ, List.take_succ_cons]
      rw [ih (earlier ++ [a]) k (by simpa using hk)]
      simp

/-- Membership in the image of the first `k` entries of a list. -/
theorem mem_map_take_iff (f : Int → Int) (l : List Int) (k : Nat) (hk : k ≤ l.length) (y : Int) :
    y ∈ (l.take k).map f ↔ ∃ j, j < k ∧ f (l.getD j 0) = y := by
  induction l generalizing k with
  | nil =>
    have : k = 0 := by simpa using hk
    subst this
    simp
  | cons a rest ih =>
    cases k with
    | zero => simp
    | succ k =>
      simp only [List.take_succ_cons, List.map_cons, List.mem_cons]
      rw [ih k (by simpa using hk)]
      constructor
      · rintro (h | ⟨j, hj, h⟩)
        · exact ⟨0, by omega, h.symm⟩
        · exact ⟨j + 1, by omega, h⟩
      · rintro ⟨j, hj, h⟩
        cases j with
        | zero => exact Or.inl h.symm
        | succ j => exact Or.inr ⟨j, by omega, h⟩

/-- The state after `resetCacheState()` satisfies the invariant with no set touched. -/
theorem StateInv.resetCacheState (c : Cache) : StateInv (Cache205421.resetCacheState c) [] := by
  refine ⟨by simp [Cache205421.resetCacheState], by simp [Cache205421.resetCacheState],
    ?_, ?_, ?_, ?_, ?_⟩
  · intro s hs
    have hs1 : s < c.sets.toNat := hs
    simp only [Cache205421.resetCacheState, List.getD_eq_getElem?_getD,
      List.getElem?_replicate, if_pos hs1]
    simp
  · intro s hs
    have hs1 : s < c.sets.toNat := hs
    simp only [Cache205421.resetCacheState, List.getD_eq_getElem?_getD,
      List.getElem?_replicate, if_pos hs1]
    simp
  · intro s hs
    have hs1 : s < c.sets.toNat := hs
    unfold validAt
    simp only [Cache205421.resetCacheState, List.getD_eq_getElem?_getD,
      List.getElem?_replicate, if_pos hs1]
    by_cases h0 : 0 < c.associativity.toNat <;> simp [h0]
  · intro s i _
    unfold validAt
    simp only [Cache205421.resetCacheState, List.getD_eq_getElem?_getD,
      List.getElem?_replicate]
    by_cases hs : s < c.sets.toNat <;> by_cases h0 : i < c.associativity.toNat <;>
      simp [hs, h0]
  · intro s i
    unfold counterAt
    simp only [Cache205421.resetCacheState, List.getD_eq_getElem?_getD,
      List.getElem?_replicate]
    by_cases hs : s < c.sets.toNat <;> by_cases h0 : i < c.associativity.toNat <;>
      simp [hs, h0]

/-- C30: in `Cache_20240216205421.cpp`, for a fresh or reset cache with `sets >= 1`,
`associativity >= 1` and a positive block size, fed a sequence of non-negative
addresses: every call returns, the k-th call returns `true` exactly when an earlier
address of the sequence has the same set index `(address / block_size) % sets`, the
tags playing no part, and the number of `false` results is the number of distinct set
indices of the sequence. -/
theorem C30_hit_iff_set_touched_before (c0 : Cache) (addresses : List Int)
    (hfresh : (∃ size a b, Cache.new size a b = some c0)
      ∨ (∃ c, Reachable c ∧ c0 = resetCacheState c))
    (hs : 1 ≤ c0.sets) (ha : 1 ≤ c0.associativity) (hb : 0 < c0.block_size)
    (hnn : ∀ x, x ∈ addresses → 0 ≤ x) :
    ∃ flags c1, accessAll c0 addresses = some (flags, c1) ∧
      flags.length = addresses.length ∧
      (∀ k, k < addresses.length →
        (flags.getD k false = true ↔
          ∃ j, j < k ∧ setIndex c0.block_size c0.sets (addresses.getD j 0)
            = setIndex c0.block_size c0.sets (addresses.getD k 0))) ∧
      flags.count false
        = (addresses.map (setIndex c0.block_size c0.sets)).toFinset.card := by
  have inv : StateInv c0 (([] : List Int).map (setIndex c0.block_size c0.sets)) := by
    rcases hfresh with ⟨size, a, b, h⟩ | ⟨c, -, h⟩
    · exact StateInv.of_new h
    · rw [h]; exact StateInv.resetCacheState c
  have hall := inv.accessAll hs ha hb addresses hnn
  cases hacc : accessAll c0 addresses with
  | none => rw [hacc] at hall; cases hall
  | some p =>
    obtain ⟨flags, c1⟩ := p
    rw [hacc] at hall
    simp only [Option.map_some', Option.some.injEq] at hall
    subst hall
    refine ⟨_, c1, rfl, length_touchedResultsFrom _ _ _ _, ?_, ?_⟩
    · intro k hk
      rw [getD_touchedResultsFrom _ _ _ _ k hk, decide_eq_true_iff, List.nil_append,
        mem_map_take_iff _ _ k (le_of_lt hk)]
    · rw [count_false_touchedResultsFrom]
      simp

/-- Witness of C30: the fresh `Cache(16, 2, 4)` fed the addresses 0, 4, 8, 16, of set
indices 0, 1, 0, 0. -/
theorem C30_hit_iff_set_touched_before_witness :
    (1 ≤ freshSixteen.sets ∧ 1 ≤ freshSixteen.associativity ∧ 0 < freshSixteen.block_size ∧
      ∀ x, x ∈ [(0 : Int), 4, 8, 16] → 0 ≤ x) ∧
    ∃ flags c1, accessAll freshSixteen [0, 4, 8, 16] = some (flags, c1) ∧
      flags.length = [(0 : Int), 4, 8, 16].length ∧
      (∀ k, k < [(0 : Int), 4, 8, 16].length →
        (flags.getD k false = true ↔
          ∃ j, j < k ∧ setIndex freshSixteen.block_size freshSixteen.sets
              ([(0 : Int), 4, 8, 16].getD j 0)
            = setIndex freshSixteen.block_size freshSixteen.sets
              ([(0 : Int), 4, 8, 16].getD k 0))) ∧
      flags.count false
        = ([(0 : Int), 4, 8, 16].map
            (setIndex freshSixteen.block_size freshSixteen.sets)).toFinset.card :=
  ⟨⟨by decide, by decide, by decide, by decide⟩,
    C30_hit_iff_set_touched_before freshSixteen [0, 4, 8, 16]
      (Or.inl ⟨16, 2, 4, by decide⟩) (by decide) (by decide) (by decide) (by decide)⟩

end Cache205421

/-! ## Snapshot `Cache_20240216165323.cpp`: `resetCounters` -/

namespace Cache165323

/-- The hit-search loop does not read the counters `hits` and `accesses`. -/
theorem accessLoop_resetCounters (c : Cache) (s : Nat) :
    ∀ (n i : Nat), accessLoop (resetCounters c) s n i = accessLoop c s n i := by
  intro n
  induction n with
  | zero => intro i; rfl
  | succ n ih =>
    intro i
    unfold accessLoop
    rw [ih]
    rfl

/-- The flag returned by `access`: `true` exactly when the hit-search loop finds a
way. -/
theorem access_flag (c : Cache) (address : Int) :
    (access c address).map Prod.fst
      = if c.block_size = 0 ∨ c.sets = 0 then none
        else if address = -(2 ^ 31) ∧ c.block_size = -1 then none
        else if Int.tdiv address c.block_size = -(2 ^ 31) ∧ c.sets = -1 then none
        else if Int.tmod (Int.tdiv address c.block_size) c.sets < 0
            ∨ c.sets ≤ Int.tmod (Int.tdiv address c.block_size) c.sets then none
        else some (accessLoop c (Int.tmod (Int.tdiv address c.block_size) c.sets).toNat
          c.associativity.toNat 0).isSome := by
  unfold access
  split
  · rfl
  split
  · rfl
  split
  · rfl
  split
  · rfl
  simp only
  cases accessLoop c (Int.tmod (Int.tdiv address c.block_size) c.sets).toNat
    c.associativity.toNat 0 <;> rfl

/-- C21, counterexample: in `Cache_20240216165323.cpp` the fresh `Cache(16, 2, 4)`
misses on address 0; after `resetCounters()` way 0 of set 0 is still valid and the
next access to address 0 returns `true`. -/
theorem C21_lines_stay_valid_after_resetCounters :
    (Cache.new 16 2 4).bind (fun c => (access c 0).bind (fun p =>
      (access (resetCounters p.2) 0).map (fun q =>
        (p.1, validAt (resetCounters p.2) 0 0, q.1)))) = some (false, true, true) := by
  decide

/-- C21, amended: in `Cache_20240216165323.cpp`, after `resetCounters()` the two
counters are 0 and `getHitRate()` returns 0.0, while the valid bits and the LRU
counters of all lines are unchanged, so the next access returns the same flag as it
would have returned without the reset. -/
theorem C21_resetCounters_resets_the_counters_only (c : Cache) (address : Int) :
    (resetCounters c).hits = 0 ∧ (resetCounters c).accesses = 0 ∧
      getHitRate (resetCounters c) = DoubleValue.finite 0 ∧
      (resetCounters c).valid = c.valid ∧ (resetCounters c).lru_counter = c.lru_counter ∧
      (access (resetCounters c) address).map Prod.fst = (access c address).map Prod.fst := by
  refine ⟨rfl, rfl, rfl, rfl, rfl, ?_⟩
  rw [access_flag, access_flag]
  simp only [accessLoop_resetCounters]
  rfl

end Cache165323

/-! ## Snapshot `Cache_20240216193816.cpp`: the constructor -/

namespace Cache193816

/-- C23, counterexample: in `Cache_20240216193816.cpp` the direct-mapped
`Cache(256, 64, 1)` is given one set, not the four of `256 / (64 * 1)`, and
`num_sets * associativity * block_size` is 64, not 256. -/
theorem C23_direct_mapped_has_one_set :
    (Cache.new 256 64 1).map (fun c => c.num_sets) = some 1 ∧
      (Cache.new 256 64 1).map (fun c => c.num_sets * c.associativity * c.block_size)
        = some 64 ∧
      (256 : Int) / (64 * 1) = 4 := by
  decide

/-- C23, amended: in `Cache_20240216193816.cpp`, for positive `int` parameters with
`cache_size` divisible by `block_size * associativity`, the constructor succeeds;
for `associativity > 1` it derives `num_sets = cache_size / (block_size * associativity)`
and `num_sets * associativity * block_size = cache_size`; for `associativity = 1` it
sets `num_sets = 1`, so the product is `cache_size` only when
`cache_size = block_size`. -/
theorem C23_num_sets_of_constructor (cache_size block_size associativity : Int)
    (hcs : 0 < cache_size) (hsz : cache_size < 2 ^ 31) (hbs : 0 < block_size)
    (ha : 0 < associativity) (hdiv : block_size * associativity ∣ cache_size) :
    ∃ c, Cache.new cache_size block_size associativity = some c ∧
      c.cache_size = cache_size ∧ c.block_size = block_size ∧
      c.associativity = associativity ∧
      (1 < associativity →
        c.num_sets = cache_size / (block_size * associativity) ∧
          c.num_sets * associativity * block_size = cache_size) ∧
      (associativity = 1 →
        c.num_sets = 1 ∧
          (c.num_sets * associativity * block_size = cache_size ↔
            cache_size = block_size)) := by
  have hp : 0 < block_size * associativity := mul_pos hbs ha
  have hle : block_size * associativity ≤ cache_size := Int.le_of_dvd hcs hdiv
  by_cases h1 : associativity > 1
  · have hn : numSets cache_size block_size associativity
        = some (Int.tdiv cache_size (block_size * associativity)) := by
      unfold numSets
      rw [if_pos h1, if_neg (by omega), if_neg (by omega), if_neg (by omega)]
    have hq : Int.tdiv cache_size (block_size * associativity)
        = cache_size / (block_size * associativity) :=
      Int.tdiv_eq_ediv (le_of_lt hcs) (le_of_lt hp)
    have hq0 : 0 ≤ cache_size / (block_size * associativity) :=
      Int.ediv_nonneg (le_of_lt hcs) (le_of_lt hp)
    refine ⟨_, by
      unfold Cache.new
      rw [hn]
      simp only
      rw [if_neg (by rw [hq]; omega)], rfl, rfl, rfl, fun _ => ⟨hq, ?_⟩, fun h => by omega⟩
    show Int.tdiv cache_size (block_size * associativity) * associativity * block_size
      = cache_size
    rw [hq, mul_assoc, mul_comm associativity block_size]
    exact Int.ediv_mul_cancel hdiv
  · have ha1 : associativity = 1 := by omega
    have hn : numSets cache_size block_size associativity = some 1 := by
      unfold numSets
      rw [if_neg h1]
    refine ⟨_, by
      unfold Cache.new
      rw [hn]
      simp only
      rw [if_neg (by omega)], rfl, rfl, rfl, fun h => absurd h h1, fun _ => ⟨rfl, ?_⟩⟩
    show (1 : Int) * associativity * block_size = cache_size ↔ cache_size = block_size
    rw [ha1]
    constructor <;> intro h <;> omega

/-- Witness of C23: the configuration of `main`, `Cache(256 * 1024, 64, 8)`. -/
theorem C23_num_sets_of_constructor_witness :
    ((0 : Int) < 262144 ∧ (262144 : Int) < 2 ^ 31 ∧ (0 : Int) < 64 ∧ (0 : Int) < 8 ∧
      (64 : Int) * 8 ∣ 262144) ∧
    ∃ c, Cache.new 262144 64 8 = some c ∧
      c.cache_size = 262144 ∧ c.block_size = 64 ∧ c.associativity = 8 ∧
      ((1 : Int) < 8 →
        c.num_sets = 262144 / (64 * 8) ∧ c.num_sets * 8 * 64 = 262144) ∧
      ((8 : Int) = 1 →
        c.num_sets = 1 ∧ (c.num_sets * 8 * 64 = 262144 ↔ (262144 : Int) = 64)) :=
  ⟨⟨by decide, by decide, by decide, by decide, by decide⟩,
    C23_num_sets_of_constructor 262144 64 8 (by decide) (by decide) (by decide) (by decide)
      (by decide)⟩

end Cache193816

/-! ## Snapshot `Cache_20240216193039.cpp`: the first access -/

namespace Cache193039

/-- The loop of `access` on a cache without a valid block and with all counts 0:
no hit, and no victim either. -/
theorem accessLoop_of_fresh (c : Cache) (setIndex tag : Nat)
    (hv : ∀ b, b ∈ c.blocks → b.valid = false) (hc : ∀ x, x ∈ c.lruCounts → x = 0) :
    ∀ (n i : Nat), accessLoop c setIndex tag n i (-1) 0 = Scan.miss (-1)
      ∨ accessLoop c setIndex tag n i (-1) 0 = Scan.undefined := by
  intro n
  induction n with
  | zero => intro i; exact Or.inl rfl
  | succ n ih =>
    intro i
    unfold accessLoop
    split
    · exact Or.inr rfl
    cases hb : c.blocks.get? (u32 (setIndex * c.linesPerSet + i)) with
    | none => exact Or.inr rfl
    | some block =>
      have hbv : block.valid = false := hv block (List.get?_mem hb)
      simp only [hbv, Bool.and_false, Bool.false_eq_true, if_false]
      cases hx : c.lruCounts.get? (u32 (setIndex * c.linesPerSet + i)) with
      | none => exact Or.inr rfl
      | some count =>
        have hc0 : count = 0 := hc count (List.get?_mem hx)
        simp only [hc0, gt_iff_lt, lt_self_iff_false, if_false]
        exact ih (i + 1)

/-- A freshly constructed cache has no valid block and all counts 0. -/
theorem new_fresh {size associativity blockBytes : Nat} {c : Cache}
    (h : Cache.new size associativity blockBytes = some c) :
    (∀ b, b ∈ c.blocks → b.valid = false) ∧ (∀ x, x ∈ c.lruCounts → x = 0) := by
  unfold Cache.new at h
  split at h
  · cases h
  split at h
  · split at h
    · cases h
    · simp only [Option.some.injEq] at h
      subst h
      constructor
      · intro b hb
        rw [List.eq_of_mem_replicate hb]
      · intro x hx
        exact List.eq_of_mem_replicate hx
  · cases h

/-- On a freshly constructed cache no call of `access` returns: the call throws the
`runtime_error` of line 78, or its behaviour is undefined. -/
theorem access_fresh_never_returns {size associativity blockBytes : Nat} {c : Cache}
    (h : Cache.new size associativity blockBytes = some c) (address : Nat) :
    access c address = Outcome.thrown ∨ access c address = Outcome.undefined := by
  obtain ⟨hv, hc⟩ := new_fresh h
  unfold access
  cases getTag c address with
  | none => exact Or.inr rfl
  | some tag =>
    cases getSetIndex c address with
    | none => exact Or.inr rfl
    | some setIndex =>
      simp only
      rcases accessLoop_of_fresh c setIndex tag hv hc c.linesPerSet 0 with h1 | h1
      · rw [h1]
        exact Or.inl rfl
      · rw [h1]
        exact Or.inr rfl

/-- C27: in `Cache_20240216193039.cpp` the first call `access(0)` on the freshly
constructed `Cache(2048, 1, 64)` does not return `false`: it throws the
`runtime_error` of line 78. -/
theorem C27_first_access_throws :
    (Cache.new 2048 1 64).map (fun c => access c 0) = some Outcome.thrown := by
  decide

end Cache193039

/-! ## Snapshot `Cache_20240216183924.cpp`: what one access changes -/

namespace Cache183924

/-- The lines of a set after `access`: as many as before. -/
theorem accessRow_length (N : Nat) (row : List CacheBlock) (t : Nat) :
    (accessRow N row t).2.length = row.length := by
  unfold accessRow
  cases accessLoop row t N 0 with
  | some i => exact updateLRUCountersLoop_length i N 0 row
  | none =>
    show (updateLRUCountersLoop _ N 0 _).length = row.length
    rw [updateLRUCountersLoop_length, List.length_set]

/-- The set `s` after a call of `access` that returns: the lines that `access` leaves
in the selected set, and the unchanged set otherwise. -/
theorem rowAt_after_access {c c1 : Cache} {a : Nat} {hit : Bool}
    (h : access c a = some (hit, c1)) (s : Nat) :
    rowAt c1 s = if s = indexOf c a ∧ indexOf c a < c.cache.length then
        (accessRow c.associativity (rowAt c (indexOf c a)) (tagOf c a)).2
      else rowAt c s := by
  have hc := access_cache_eq h
  by_cases hl : indexOf c a < c.cache.length
  · rw [rowAt_access hl hc s]
    by_cases hs : s = indexOf c a
    · rw [if_pos hs, if_pos ⟨hs, hl⟩]
    · rw [if_neg hs, if_neg (fun h1 => hs h1.1)]
  · rw [if_neg (fun h1 => hl h1.2)]
    rw [List.set_eq_of_length_le (not_lt.mp hl)] at hc
    unfold rowAt
    rw [hc]

/-- C33. A call `access(a)` that returns changes only the lines of the set
`(a / blockSize) % setSize`: every other set holds the same lines as before, with
their valid bits, tags and counters, and the number of sets and the number of lines
of every set are unchanged. -/
theorem C33_access_changes_one_set (c c1 : Cache) (a : Nat) (hit : Bool)
    (h : access c a = some (hit, c1)) :
    (∀ s, s ≠ (a / c.blockSize) % c.setSize → rowAt c1 s = rowAt c s) ∧
      (∀ s i, s ≠ (a / c.blockSize) % c.setSize →
        (lineAt (rowAt c1 s) i).valid = (lineAt (rowAt c s) i).valid ∧
        (lineAt (rowAt c1 s) i).tag = (lineAt (rowAt c s) i).tag ∧
        (lineAt (rowAt c1 s) i).lruCounter = (lineAt (rowAt c s) i).lruCounter) ∧
      c1.cache.length = c.cache.length ∧
      (∀ s, (rowAt c1 s).length = (rowAt c s).length) ∧
      c1.setSize = c.setSize ∧ c1.associativity = c.associativity := by
  have hrow : ∀ s, s ≠ (a / c.blockSize) % c.setSize → rowAt c1 s = rowAt c s := by
    intro s hs
    rw [rowAt_after_access h, if_neg (fun h1 => hs h1.1)]
  obtain ⟨h1, h2, _, _⟩ := access_config h
  refine ⟨hrow, fun s i hs => ?_, ?_, fun s => ?_, h1, h2⟩
  · rw [hrow s hs]
    exact ⟨rfl, rfl, rfl⟩
  · rw [access_cache_eq h, List.length_set]
  · rw [rowAt_after_access h]
    split
    · rename_i hs
      rw [accessRow_length, hs.1]
    · rfl

/-- Witness of C33: `access(8)` on `Cache(2, 2, 4)` after `access(0)`. -/
theorem C33_access_changes_one_set_witness :
    access afterAccessZero 8 = some (false, afterAccessZeroEight) ∧
      ((∀ s, s ≠ (8 / afterAccessZero.blockSize) % afterAccessZero.setSize →
        rowAt afterAccessZeroEight s = rowAt afterAccessZero s) ∧
      (∀ s i, s ≠ (8 / afterAccessZero.blockSize) % afterAccessZero.setSize →
        (lineAt (rowAt afterAccessZeroEight s) i).valid
          = (lineAt (rowAt afterAccessZero s) i).valid ∧
        (lineAt (rowAt afterAccessZeroEight s) i).tag
          = (lineAt (rowAt afterAccessZero s) i).tag ∧
        (lineAt (rowAt afterAccessZeroEight s) i).lruCounter
          = (lineAt (rowAt afterAccessZero s) i).lruCounter) ∧
      afterAccessZeroEight.cache.length = afterAccessZero.cache.length ∧
      (∀ s, (rowAt afterAccessZeroEight s).length = (rowAt afterAccessZero s).length) ∧
      afterAccessZeroEight.setSize = afterAccessZero.setSize ∧
      afterAccessZeroEight.associativity = afterAccessZero.associativity) :=
  ⟨by decide, C33_access_changes_one_set afterAccessZero afterAccessZeroEight 8 false
    (by decide)⟩

/-- A call of `access` that returns `true` found a valid line with the tag. -/
theorem accessLoop_of_hit {c c1 : Cache} {a : Nat} (h : access c a = some (true, c1)) :
    ∃ i, accessLoop (rowAt c (indexOf c a)) (tagOf c a) c.associativity 0 = some i := by
  unfold access at h
  split at h
  · cases h
  · simp only at h
    split at h
    · rename_i i hl
      exact ⟨i, hl⟩
    · simp only [Option.some.injEq, Prod.mk.injEq, Bool.false_eq_true, false_and] at h

/-- C34. An access that hits, in a state reachable from a fresh cache: the line that
hits is a valid line of the selected set with the tag of the address; no line of any
set changes its valid bit or its tag; the counter of the hit line becomes 0, the
counter of every other valid line of the selected set grows by one, and no other
counter changes. -/
theorem C34_hit_changes_counters_only (c c1 : Cache) (a : Nat) (hr : Reachable c)
    (h : access c a = some (true, c1)) :
    (touchedWay c a < c.associativity ∧
      (lineAt (rowAt c (indexOf c a)) (touchedWay c a)).valid = true ∧
      (lineAt (rowAt c (indexOf c a)) (touchedWay c a)).tag = tagOf c a) ∧
      (∀ s i, (lineAt (rowAt c1 s) i).valid = (lineAt (rowAt c s) i).valid ∧
        (lineAt (rowAt c1 s) i).tag = (lineAt (rowAt c s) i).tag) ∧
      (lineAt (rowAt c1 (indexOf c a)) (touchedWay c a)).lruCounter = 0 ∧
      (∀ j, j ≠ touchedWay c a → (lineAt (rowAt c (indexOf c a)) j).valid = true →
        (lineAt (rowAt c1 (indexOf c a)) j).lruCounter
          = (lineAt (rowAt c (indexOf c a)) j).lruCounter + 1) ∧
      (∀ s j, s ≠ indexOf c a ∨ (lineAt (rowAt c s) j).valid = false →
        (lineAt (rowAt c1 s) j).lruCounter = (lineAt (rowAt c s) j).lruCounter) := by
  obtain ⟨i, hl⟩ := accessLoop_of_hit h
  obtain ⟨_, hi, hv, ht, _⟩ := accessLoop_some _ _ _ hl
  rw [Nat.zero_add] at hi
  have htw : touchedWay c a = i := by
    unfold touchedWay
    rw [hl]
  have hacc : (accessRow c.associativity (rowAt c (indexOf c a)) (tagOf c a)).2
      = updateLRUCountersLoop i c.associativity 0 (rowAt c (indexOf c a)) := by
    unfold accessRow
    rw [hl]
  obtain ⟨_, _, _, hz⟩ := access_config h
  obtain ⟨m, inv⟩ := hr.cacheInv_any
  have hs0 : 0 < c.setSize := Nat.pos_of_ne_zero (fun h0 => hz (Or.inr (Or.inl h0)))
  have hidx : indexOf c a < c.setSize := Nat.mod_lt _ hs0
  obtain ⟨ways, hrow, _⟩ := inv.rows _ hidx
  have hrows : ∀ s, rowAt c1 s = if s = indexOf c a then
      updateLRUCountersLoop i c.associativity 0 (rowAt c (indexOf c a)) else rowAt c s := by
    intro s
    rw [rowAt_after_access h, hacc]
    by_cases hs : s = indexOf c a
    · rw [if_pos ⟨hs, by rw [inv.length_eq]; exact hidx⟩, if_pos hs]
    · rw [if_neg (fun h1 => hs h1.1), if_neg hs]
  have hline : ∀ j, lineAt (rowAt c1 (indexOf c a)) j
      = if (lineAt (rowAt c (indexOf c a)) j).valid = true then
          ⟨true, (lineAt (rowAt c (indexOf c a)) j).tag,
            if j = i then 0 else (lineAt (rowAt c (indexOf c a)) j).lruCounter + 1⟩
        else lineAt (rowAt c (indexOf c a)) j := by
    intro j
    rw [hrows, if_pos rfl, lineAt_updateLRUCountersLoop]
    by_cases hvj : (lineAt (rowAt c (indexOf c a)) j).valid = true
    · have hj : j < c.associativity := by
        have := lineAt_valid_lt hvj
        rw [hrow.length_eq] at this
        exact this
      rw [if_pos ⟨Nat.zero_le j, by omega, hvj⟩, if_pos hvj]
    · rw [if_neg (fun h1 => hvj h1.2.2), if_neg hvj]
  rw [htw]
  refine ⟨⟨hi, hv, ht⟩, fun s j => ?_, ?_, fun j hj hvj => ?_, fun s j hsj => ?_⟩
  · by_cases hs : s = indexOf c a
    · subst hs
      rw [hline]
      by_cases hvj : (lineAt (rowAt c (indexOf c a)) j).valid = true
      · rw [if_pos hvj]
        exact ⟨hvj.symm, rfl⟩
      · rw [if_neg hvj]
        exact ⟨rfl, rfl⟩
    · rw [hrows, if_neg hs]
      exact ⟨rfl, rfl⟩
  · rw [hline, if_pos hv]
    simp
  · rw [hline, if_pos hvj]
    simp [hj]
  · by_cases hs : s = indexOf c a
    · subst hs
      rcases hsj with h1 | h1
      · exact absurd rfl h1
      · rw [hline, if_neg (by rw [h1]; exact Bool.false_ne_true)]
    · rw [hrows, if_neg hs]

/-- Witness of C34: `access(0)` on `Cache(2, 2, 4)` after `access(0)` and `access(8)`
hits way 0 of set 0. -/
theorem C34_hit_changes_counters_only_witness :
    Reachable afterAccessZeroEight ∧
      access afterAccessZeroEight 0 = some (true, afterAccessZeroEightZero) ∧
      ((touchedWay afterAccessZeroEight 0 < afterAccessZeroEight.associativity ∧
        (lineAt (rowAt afterAccessZeroEight (indexOf afterAccessZeroEight 0))
          (touchedWay afterAccessZeroEight 0)).valid = true ∧
        (lineAt (rowAt afterAccessZeroEight (indexOf afterAccessZeroEight 0))
          (touchedWay afterAccessZeroEight 0)).tag = tagOf afterAccessZeroEight 0) ∧
      (∀ s i, (lineAt (rowAt afterAccessZeroEightZero s) i).valid
          = (lineAt (rowAt afterAccessZeroEight s) i).valid ∧
        (lineAt (rowAt afterAccessZeroEightZero s) i).tag
          = (lineAt (rowAt afterAccessZeroEight s) i).tag) ∧
      (lineAt (rowAt afterAccessZeroEightZero (indexOf afterAccessZeroEight 0))
        (touchedWay afterAccessZeroEight 0)).lruCounter = 0 ∧
      (∀ j, j ≠ touchedWay afterAccessZeroEight 0 →
        (lineAt (rowAt afterAccessZeroEight (indexOf afterAccessZeroEight 0)) j).valid = true →
        (lineAt (rowAt afterAccessZeroEightZero (indexOf afterAccessZeroEight 0)) j).lruCounter
          = (lineAt (rowAt afterAccessZeroEight (indexOf afterAccessZeroEight 0)) j).lruCounter
            + 1) ∧
      (∀ s j, s ≠ indexOf afterAccessZeroEight 0
          ∨ (lineAt (rowAt afterAccessZeroEight s) j).valid = false →
        (lineAt (rowAt afterAccessZeroEightZero s) j).lruCounter
          = (lineAt (rowAt afterAccessZeroEight s) j).lruCounter)) :=
  ⟨Reachable.step
      (Reachable.step (Reachable.fresh 2 2 4)
        (by decide : access (Cache.new 2 2 4) 0 = some (false, afterAccessZero)))
      (by decide : access afterAccessZero 8 = some (false, afterAccessZeroEight)),
    by decide,
    C34_hit_changes_counters_only afterAccessZeroEight afterAccessZeroEightZero 0
      (Reachable.step
        (Reachable.step (Reachable.fresh 2 2 4)
          (by decide : access (Cache.new 2 2 4) 0 = some (false, afterAccessZero)))
        (by decide : access afterAccessZero 8 = some (false, afterAccessZeroEight)))
      (by decide)⟩

end Cache183924

/-! ## Snapshot `Cache_20240216183924.cpp`: the number of valid lines -/

namespace Cache183924

/-- The number of valid lines of a set whose valid lines are its first `k` lines. -/
theorem filter_valid_length :
    ∀ (row : List CacheBlock) (k : Nat), k ≤ row.length →
      (∀ i, i < row.length → ((lineAt row i).valid = true ↔ i < k)) →
      (row.filter (fun b => b.valid)).length = k := by
  intro row
  induction row with
  | nil =>
    intro k hk _
    simp only [List.length_nil, Nat.le_zero] at hk
    rw [hk]
    rfl
  | cons b t ih =>
    intro k hk h
    have ht : ∀ k1, (∀ i, i < t.length → ((lineAt (b :: t) (i + 1)).valid = true ↔ i < k1)) →
        ∀ i, i < t.length → ((lineAt t i).valid = true ↔ i < k1) := fun k1 h1 i hi => h1 i hi
    have h0 := h 0 (by simp)
    have hb0 : lineAt (b :: t) 0 = b := rfl
    rw [hb0] at h0
    cases k with
    | zero =>
      have hbf : b.valid = false := by
        cases hbv : b.valid
        · rfl
        · exact absurd (h0.mp hbv) (Nat.lt_irrefl 0)
      rw [List.filter_cons_of_neg (by simp [hbf])]
      exact ih 0 (Nat.zero_le _) (ht 0 (fun i hi => by
        rw [h (i + 1) (by simp only [List.length_cons]; omega)]
        omega))
    | succ k =>
      have hbt : b.valid = true := h0.mpr (Nat.succ_pos k)
      rw [List.filter_cons_of_pos hbt, List.length_cons]
      congr 1
      exact ih k (by simp only [List.length_cons] at hk; omega) (ht k (fun i hi => by
        rw [h (i + 1) (by simp only [List.length_cons]; omega)]
        omega))

/-- The number of valid lines of a set that satisfies the invariant. -/
theorem RowInv.validLines_eq {N : Nat} {row : List CacheBlock} {ways : List Nat}
    (inv : RowInv N row ways) : (row.filter (fun b => b.valid)).length = ways.length :=
  filter_valid_length row ways.length (by rw [inv.length_eq]; exact inv.length_le)
    (fun i hi => inv.valid_iff i (by rw [← inv.length_eq]; exact hi))

/-- In every state reachable from a fresh cache the valid lines of a set are its first
lines: below a valid line every line is valid. -/
theorem Reachable.valid_prefix {c : Cache} (hr : Reachable c) (s i j : Nat) (hji : j < i)
    (hv : (lineAt (rowAt c s) i).valid = true) : (lineAt (rowAt c s) j).valid = true := by
  obtain ⟨m, inv⟩ := hr.cacheInv_any
  obtain ⟨ways, h | ⟨h, _⟩⟩ := inv.valid_ways s
  · have hi : i < c.associativity := by
      have := lineAt_valid_lt hv
      rw [h.length_eq] at this
      exact this
    have hi1 := (h.valid_iff i hi).mp hv
    exact (h.valid_iff j (by omega)).mpr (by omega)
  · rw [h, lineAt_nil] at hv
    cases hv

/-- The distinct entries of a list, counted on the recency list of the list. -/
theorem recentDistinct_length (l : List Nat) : (recentDistinct l).length = l.dedup.length := by
  apply List.Perm.length_eq
  rw [List.perm_ext_iff_of_nodup (recentDistinct_nodup l) (List.nodup_dedup l)]
  intro x
  rw [mem_recentDistinct, List.mem_dedup]

/-- The distinct blocks of a set, counted on the recency list of the reference model. -/
theorem earlierBlocks_distinct (setSize blockSize s : Nat) (addresses : List Nat) :
    (recentDistinct (earlierBlocks setSize blockSize s addresses)).length
      = distinctBlocks setSize blockSize s addresses := by
  rw [recentDistinct_length]
  unfold earlierBlocks distinctBlocks
  apply List.Perm.length_eq
  rw [List.perm_ext_iff_of_nodup (List.nodup_dedup _) (List.nodup_dedup _)]
  intro x
  rw [List.mem_dedup, List.mem_dedup, List.mem_reverse]

/-- Where the product `blockSize * setSize` fits in 32 bits: after any address
sequence fed to a fresh cache, the number of valid lines of a set is the smaller of
`associativity` and the number of distinct blocks accessed that map to the set. -/
theorem validLines_after (setSize N blockSize : Nat) (hs : 1 ≤ setSize) (hN : 1 ≤ N)
    (hb : 1 ≤ blockSize) (hfit : blockSize * setSize < 2 ^ 32) (addresses : List Nat)
    (s : Nat) (hlt : s < setSize) :
    ∃ c, accessAll (Cache.new setSize N blockSize) addresses
        = some (specResults setSize N blockSize addresses, c) ∧
      validLines c s = min N (distinctBlocks setSize blockSize s addresses) := by
  obtain ⟨c, h1, inv, h2, h3, _⟩ := accessAll_new setSize N blockSize hs hN hb hfit addresses
  refine ⟨c, h1, ?_⟩
  obtain ⟨ways, hrow, htags⟩ := inv.rows s (by rw [h2]; exact hlt)
  unfold validLines
  rw [hrow.validLines_eq, ← tagsOf_length (rowAt c s) ways, htags]
  unfold specState
  rw [List.length_map, List.length_take, earlierBlocks_distinct]

/-- C35. Number of valid lines where the 32-bit product wraps: in
`Cache(3, 2, 2147483649)` the addresses 2147483649 and 2147483651 lie in the same
block 1 of set 1, yet after the two accesses set 1 holds two valid lines, not
`min(2, 1) = 1`. -/
theorem C35_valid_lines_exceed_distinct_blocks_when_product_wraps :
    2147483649 / 2147483649 = 1 ∧ 2147483651 / 2147483649 = 1 ∧
      distinctBlocks 3 2147483649 1 [2147483649, 2147483651] = 1 ∧
      (accessAll (Cache.new 3 2 2147483649) [2147483649, 2147483651]).map
          (fun p => (p.1, validLines p.2 1)) = some ([false, false], 2) ∧
      tagDivisor (Cache.new 3 2 2147483649) = 2147483651 := by
  decide

end Cache183924

/-! ## Snapshot `Cache_20240216183924.cpp`: one more way -/

namespace Cache183924

/-- The first `n` entries after an erasure depend on the first `n + 1` entries only. -/
theorem take_erase_take (t : Nat) :
    ∀ (l : List Nat) (n : Nat), ((l.take (n + 1)).erase t).take n = (l.erase t).take n := by
  intro l
  induction l with
  | nil => intro n; rfl
  | cons x xs ih =>
    intro n
    rw [List.take_succ_cons]
    by_cases hx : x = t
    · subst hx
      rw [List.erase_cons_head, List.erase_cons_head, List.take_take, Nat.min_self]
    · rw [List.erase_cons_tail (by simpa using hx), List.erase_cons_tail (by simpa using hx)]
      cases n with
      | zero => rfl
      | succ k => rw [List.take_succ_cons, List.take_succ_cons, ih k]

/-- One touch of the recency list of `N` entries is the cut of the touch of the
recency list of `N + 1` entries. -/
theorem lruTouch_take (N : Nat) (mru : List Nat) (t : Nat) :
    lruTouch N (mru.take N) t = (lruTouch (N + 1) mru t).take N := by
  unfold lruTouch
  rw [List.take_take, Nat.min_eq_left (Nat.le_succ N)]
  cases N with
  | zero => rfl
  | succ n => rw [List.take_succ_cons, List.take_succ_cons, take_erase_take]

/-- The reference flags are as many as the addresses. -/
theorem lruResults_length (N : Nat) (key : Nat → Nat × Nat) :
    ∀ (addresses : List Nat) (m : Nat → List Nat),
      (lruResults N key m addresses).length = addresses.length := by
  intro addresses
  induction addresses with
  | nil => intro m; rfl
  | cons a rest ih =>
    intro m
    simp only [lruResults, List.length_cons, ih]

/-- Inclusion property of the reference model: when every recency list of the `N`-way
model is the cut to `N` entries of the list of the `N + 1`-way model, a hit of the
first is a hit of the second, at every position and from then on. -/
theorem lruResults_inclusion (N : Nat) (key : Nat → Nat × Nat) :
    ∀ (addresses : List Nat) (m m1 : Nat → List Nat), (∀ s, m s = (m1 s).take N) →
      (∀ k, (lruResults N key m addresses).getD k false = true →
        (lruResults (N + 1) key m1 addresses).getD k false = true) ∧
      (lruResults N key m addresses).count true
        ≤ (lruResults (N + 1) key m1 addresses).count true := by
  intro addresses
  induction addresses with
  | nil =>
    intro m m1 _
    exact ⟨fun k h => h, Nat.le_refl _⟩
  | cons a rest ih =>
    intro m m1 hm
    have hstep : ∀ s, lruAccess N m (key a).1 (key a).2 s
        = (lruAccess (N + 1) m1 (key a).1 (key a).2 s).take N := by
      intro s
      unfold lruAccess
      by_cases hs : s = (key a).1
      · rw [if_pos hs, if_pos hs, hm s, lruTouch_take]
      · rw [if_neg hs, if_neg hs, hm s]
    obtain ⟨ih1, ih2⟩ := ih _ _ hstep
    have hflag : decide ((key a).2 ∈ m (key a).1) = true →
        decide ((key a).2 ∈ m1 (key a).1) = true := by
      intro h
      rw [decide_eq_true_iff] at h ⊢
      rw [hm] at h
      exact List.mem_of_mem_take h
    simp only [lruResults]
    constructor
    · intro k
      cases k with
      | zero => exact hflag
      | succ k => exact ih1 k
    · rw [List.count_cons, List.count_cons]
      by_cases h1 : decide ((key a).2 ∈ m (key a).1) = true
      · rw [h1, hflag h1]
        simp only [beq_self_eq_true, if_true]
        omega
      · rw [Bool.not_eq_true] at h1
        rw [h1]
        simp only [Bool.false_eq_true, beq_iff_eq, if_false, add_zero]
        split <;> omega

/-- The flags of a fresh cache whose divisor of line 47 is not 0: the flags of the
reference model with the keys that the code computes. -/
theorem results_new_eq_lruResults (setSize N blockSize : Nat) (hs : 1 ≤ setSize)
    (hN : 1 ≤ N) (hb : 1 ≤ blockSize) (hd : u32 (blockSize * setSize) ≠ 0)
    (addresses : List Nat) :
    results (Cache.new setSize N blockSize) addresses
      = some (lruResults N
          (fun a => ((a / blockSize) % setSize, a / u32 (blockSize * setSize)))
          (fun _ => []) addresses) := by
  have hz : ¬((Cache.new setSize N blockSize).blockSize = 0
      ∨ (Cache.new setSize N blockSize).setSize = 0
      ∨ tagDivisor (Cache.new setSize N blockSize) = 0) := by
    rintro (h | h | h)
    · have : blockSize = 0 := h
      omega
    · have : setSize = 0 := h
      omega
    · exact hd h
  obtain ⟨c1, h1, _⟩ := (CacheInv.new setSize N blockSize).results hN hz addresses
  unfold results
  rw [h1]
  rfl

/-- C32. Inclusion property of the LRU cache, for `setSize`, `N`, `blockSize` at least
1 and every address sequence. Where the divisor of line 47 is not 0, the fresh
caches of `N` and of `N + 1` ways both return a flag for every address, every
position that hits with `N` ways hits with `N + 1` ways, and the number of hits with
`N` ways is at most the number with `N + 1` ways. Where the divisor is 0, no call of
`access` returns in either cache, so no access hits. -/
theorem C32_hits_monotone_in_associativity (setSize N blockSize : Nat) (hs : 1 ≤ setSize)
    (hN : 1 ≤ N) (hb : 1 ≤ blockSize) (addresses : List Nat) :
    (u32 (blockSize * setSize) ≠ 0 →
      ∃ r1 r2, results (Cache.new setSize N blockSize) addresses = some r1 ∧
        results (Cache.new setSize (N + 1) blockSize) addresses = some r2 ∧
        r1.length = addresses.length ∧ r2.length = addresses.length ∧
        (∀ k, r1.getD k false = true → r2.getD k false = true) ∧
        r1.count true ≤ r2.count true) ∧
      (u32 (blockSize * setSize) = 0 →
        ∀ a, access (Cache.new setSize N blockSize) a = none ∧
          access (Cache.new setSize (N + 1) blockSize) a = none) := by
  constructor
  · intro hd
    obtain ⟨h1, h2⟩ := lruResults_inclusion N
      (fun a => ((a / blockSize) % setSize, a / u32 (blockSize * setSize)))
      addresses (fun _ => []) (fun _ => []) (fun _ => List.take_nil.symm)
    exact ⟨_, _, results_new_eq_lruResults setSize N blockSize hs hN hb hd addresses,
      results_new_eq_lruResults setSize (N + 1) blockSize hs (Nat.succ_pos N) hb hd addresses,
      lruResults_length _ _ _ _, lruResults_length _ _ _ _, h1, h2⟩
  · intro hd a
    exact ⟨access_eq_none (Or.inr (Or.inr hd)), access_eq_none (Or.inr (Or.inr hd))⟩

/-- Witness of C32: `Cache(2, 1, 4)` and `Cache(2, 2, 4)` fed the addresses 0, 0, 8, 0:
the flags are miss, hit, miss, miss with one way and miss, hit, miss, hit with two. -/
theorem C32_hits_monotone_in_associativity_witness :
    (1 ≤ 2 ∧ 1 ≤ 1 ∧ 1 ≤ 4) ∧
      results (Cache.new 2 1 4) [0, 0, 8, 0] = some [false, true, false, false] ∧
      results (Cache.new 2 2 4) [0, 0, 8, 0] = some [false, true, false, true] ∧
      ((u32 (4 * 2) ≠ 0 →
        ∃ r1 r2, results (Cache.new 2 1 4) [0, 0, 8, 0] = some r1 ∧
          results (Cache.new 2 (1 + 1) 4) [0, 0, 8, 0] = some r2 ∧
          r1.length = [0, 0, 8, 0].length ∧ r2.length = [0, 0, 8, 0].length ∧
          (∀ k, r1.getD k false = true → r2.getD k false = true) ∧
          r1.count true ≤ r2.count true) ∧
      (u32 (4 * 2) = 0 →
        ∀ a, access (Cache.new 2 1 4) a = none ∧ access (Cache.new 2 (1 + 1) 4) a = none)) :=
  ⟨⟨by decide, by decide, by decide⟩, by decide, by decide,
    C32_hits_monotone_in_associativity 2 1 4 (by decide) (by decide) (by decide)
      [0, 0, 8, 0]⟩

end Cache183924

/-! ## The latest snapshot `Cache_20240216205421.cpp`: only way 0 is used -/

namespace Cache205421

/-- Writing to a list the entry it holds changes nothing. -/
theorem set_getD_self {α : Type} (d : α) :
    ∀ (l : List α) (i : Nat), l.set i (l.getD i d) = l := by
  intro l
  induction l with
  | nil => intro i; rfl
  | cons x xs ih =>
    intro i
    cases i with
    | zero => rfl
    | succ i =>
      show x :: xs.set i (xs.getD i d) = x :: xs
      rw [ih i]

/-- In a state that satisfies the invariant `updateLRU` on way 0 changes nothing: no
other way is valid, and the counter of way 0 is 0 already. -/
theorem StateInv.updateLRU_eq_self {c : Cache} {touched : List Int}
    (inv : StateInv c touched) (s : Nat) : updateLRU c s 0 = c := by
  have hvr : ∀ j, validAt c s j = true → j = 0 := by
    intro j hj
    by_contra hj0
    rw [inv.other_ways s j (by omega)] at hj
    cases hj
  have h0 : (c.lru_counter.getD s []).set 0 0 = c.lru_counter.getD s [] := by
    have := set_getD_self (0 : Int) (c.lru_counter.getD s []) 0
    have hc : (c.lru_counter.getD s []).getD 0 0 = 0 := inv.counters s 0
    rw [hc] at this
    exact this
  unfold updateLRU
  rw [updateLRULoop_eq_self _ 0 hvr, h0, set_getD_self]

/-- One call of `access` that returns, in a state that satisfies the invariant of a
cache with at least one way: the invariant holds again; a hit leaves the state as it
is; a miss finds way 0 of the set invalid, `findLRUVictim` returns 0, and the only
change is `valid[set_index][0] = true`. -/
theorem StateInv.access_of_some {c c1 : Cache} {touched : List Int}
    (inv : StateInv c touched) (ha : 1 ≤ c.associativity) {a : Int} {hit : Bool}
    (h : Cache205421.access c a = some (hit, c1)) :
    StateInv c1 (touched ++ [setIndex c.block_size c.sets a]) ∧
      (hit = true → c1 = c) ∧
      (hit = false →
        validAt c (setIndex c.block_size c.sets a).toNat 0 = false ∧
        findLRUVictim c (setIndex c.block_size c.sets a).toNat = 0 ∧
        c1 = { c with
          valid := c.valid.set (setIndex c.block_size c.sets a).toNat
            ((c.valid.getD (setIndex c.block_size c.sets a).toNat []).set 0 true) }) := by
  have hsi : Int.tmod (Int.tdiv a c.block_size) c.sets = setIndex c.block_size c.sets a := rfl
  unfold Cache205421.access at h
  split at h
  · cases h
  split at h
  · cases h
  split at h
  · cases h
  split at h
  · cases h
  rename_i _ _ _ hg
  rw [hsi] at hg h
  have h0 : 0 ≤ setIndex c.block_size c.sets a := by omega
  have h1 : setIndex c.block_size c.sets a < c.sets := by omega
  have hn : 1 ≤ c.associativity.toNat := by omega
  have hsn : (setIndex c.block_size c.sets a).toNat < c.sets.toNat :=
    (Int.toNat_lt_toNat (by omega)).mpr h1
  have hcast : (((setIndex c.block_size c.sets a).toNat : Nat) : Int)
      = setIndex c.block_size c.sets a := Int.toNat_of_nonneg h0
  have hway := inv.way_zero _ hsn
  rw [hcast] at hway
  obtain ⟨k, hk⟩ : ∃ k, c.associativity.toNat = k + 1 := ⟨c.associativity.toNat - 1, by omega⟩
  simp only at h
  by_cases hv0 : validAt c (setIndex c.block_size c.sets a).toNat 0 = true
  · have hloop : accessLoop c (setIndex c.block_size c.sets a).toNat
        c.associativity.toNat 0 = some 0 := by
      rw [hk]
      unfold accessLoop
      rw [hv0, inv.counters]
      rfl
    rw [hloop] at h
    simp only [Option.some.injEq, Prod.mk.injEq] at h
    obtain ⟨hhit, hc1⟩ := h
    rw [inv.updateLRU_eq_self] at hc1
    subst hc1
    subst hhit
    refine ⟨inv.mono (fun x => ?_), fun _ => rfl, ?_⟩
    swap
    · intro hf
      cases hf
    rw [List.mem_append, List.mem_singleton]
    constructor
    · exact Or.inl
    · rintro (h2 | h2)
      · exact h2
      · rw [h2]; exact hway.mp hv0
  · rw [Bool.not_eq_true] at hv0
    have hall : ∀ i, validAt c (setIndex c.block_size c.sets a).toNat i = false := by
      intro i
      rcases Nat.eq_zero_or_pos i with h2 | h2
      · rw [h2]; exact hv0
      · exact inv.other_ways _ i h2
    rw [accessLoop_none_of_invalid c _ hall] at h
    have hvic : findLRUVictim c (setIndex c.block_size c.sets a).toNat = 0 := by
      unfold findLRUVictim
      rw [hk]
      unfold findLRUVictimLoop
      rw [hv0]
      rfl
    simp only [hvic, Option.some.injEq, Prod.mk.injEq] at h
    obtain ⟨hhit, hc1⟩ := h
    have hfill := inv.fill _ hsn hn
    rw [hfill.updateLRU_eq_self] at hc1
    rw [hcast] at hfill
    subst hc1
    subst hhit
    refine ⟨hfill, ?_, fun _ => ⟨hv0, hvic, rfl⟩⟩
    intro hf
    cases hf

/-- Every state reached from a fresh or reset cache with at least one way satisfies the
invariant, for some list of touched sets. -/
theorem Reachable.stateInv {c : Cache} (hr : Reachable c) (ha : 1 ≤ c.associativity) :
    ∃ touched, StateInv c touched := by
  induction hr with
  | @fresh size a b c0 h => exact ⟨[], StateInv.of_new h⟩
  | @step c0 c1 a hit _ hacc ih =>
    obtain ⟨_, h2, _, _⟩ := access_fields hacc
    obtain ⟨touched, inv⟩ := ih (by rw [← h2]; exact ha)
    exact ⟨_, (inv.access_of_some (by rw [← h2]; exact ha) hacc).1⟩
  | @reset c0 _ _ => exact ⟨[], StateInv.resetCacheState c0⟩

/-- C31. In every state reached from a fresh or reset cache with at least one way:
every way `i >= 1` is invalid with counter 0 and way 0 of every set has counter 0; a
call of `access` that hits leaves the whole state unchanged; a call that misses finds
way 0 of its set invalid, `findLRUVictim` returns 0, so the line it fills was not
valid (no line is evicted), and every line valid before the call is valid after it. -/
theorem C31_only_way_zero_is_used (c : Cache) (hr : Reachable c)
    (ha : 1 ≤ c.associativity) :
    (∀ s i, 1 ≤ i → validAt c s i = false ∧ counterAt c s i = 0) ∧
      (∀ s, counterAt c s 0 = 0) ∧
      (∀ a hit c1, access c a = some (hit, c1) →
        (hit = true → c1 = c) ∧
        (hit = false →
          validAt c (setIndex c.block_size c.sets a).toNat 0 = false ∧
          findLRUVictim c (setIndex c.block_size c.sets a).toNat = 0 ∧
          validAt c (setIndex c.block_size c.sets a).toNat
            (findLRUVictim c (setIndex c.block_size c.sets a).toNat) = false ∧
          ∀ s i, validAt c s i = true → validAt c1 s i = true)) := by
  obtain ⟨touched, inv⟩ := hr.stateInv ha
  refine ⟨fun s i hi => ⟨inv.other_ways s i hi, inv.counters s i⟩, fun s => inv.counters s 0,
    fun a hit c1 h => ?_⟩
  obtain ⟨inv1, hhit, hmiss⟩ := inv.access_of_some ha h
  refine ⟨hhit, fun hf => ?_⟩
  obtain ⟨hv0, hvic, hc1⟩ := hmiss hf
  refine ⟨hv0, hvic, by rw [hvic]; exact hv0, fun s i hv => ?_⟩
  have hi : i = 0 := by
    by_contra hi0
    rw [inv.other_ways s i (by omega)] at hv
    cases hv
  subst hi
  obtain ⟨h0, h1⟩ : 0 ≤ setIndex c.block_size c.sets a
      ∧ setIndex c.block_size c.sets a < c.sets := by
    have hsi : Int.tmod (Int.tdiv a c.block_size) c.sets
        = setIndex c.block_size c.sets a := rfl
    unfold Cache205421.access at h
    split at h
    · cases h
    split at h
    · cases h
    split at h
    · cases h
    split at h
    · cases h
    rename_i _ _ _ hg
    rw [hsi] at hg
    omega
  have hs : s < c.sets.toNat := by
    by_contra hge
    have hrow : c.valid.getD s [] = [] := by
      rw [List.getD_eq_getElem?_getD,
        List.getElem?_eq_none (by rw [inv.valid_length]; omega)]
      rfl
    unfold validAt at hv
    rw [hrow] at hv
    cases hv
  by_cases hmem : (s : Int) ∈ touched
  · exact (inv1.way_zero s (by
      have := (access_fields h).2.2.2
      rw [this]; exact hs)).mpr (List.mem_append_left _ hmem)
  · exact absurd ((inv.way_zero s hs).mp hv) hmem

/-- Witness of C31: the state of `Cache(16, 2, 4)` after `access(0)`. -/
theorem C31_only_way_zero_is_used_witness :
    Reachable sixteenAfterZero ∧ 1 ≤ sixteenAfterZero.associativity ∧
      access sixteenAfterZero 0 = some (true, sixteenAfterZero) ∧
      ((∀ s i, 1 ≤ i → validAt sixteenAfterZero s i = false ∧
          counterAt sixteenAfterZero s i = 0) ∧
      (∀ s, counterAt sixteenAfterZero s 0 = 0) ∧
      (∀ a hit c1, access sixteenAfterZero a = some (hit, c1) →
        (hit = true → c1 = sixteenAfterZero) ∧
        (hit = false →
          validAt sixteenAfterZero
            (setIndex sixteenAfterZero.block_size sixteenAfterZero.sets a).toNat 0 = false ∧
          findLRUVictim sixteenAfterZero
            (setIndex sixteenAfterZero.block_size sixteenAfterZero.sets a).toNat = 0 ∧
          validAt sixteenAfterZero
            (setIndex sixteenAfterZero.block_size sixteenAfterZero.sets a).toNat
            (findLRUVictim sixteenAfterZero
              (setIndex sixteenAfterZero.block_size sixteenAfterZero.sets a).toNat) = false ∧
          ∀ s i, validAt sixteenAfterZero s i = true → validAt c1 s i = true))) :=
  ⟨Reachable.step (Reachable.fresh (by decide : Cache.new 16 2 4 = some freshSixteen))
      (by decide : access freshSixteen 0 = some (false, sixteenAfterZero)),
    by decide, by decide,
    C31_only_way_zero_is_used sixteenAfterZero
      (Reachable.step (Reachable.fresh (by decide : Cache.new 16 2 4 = some freshSixteen))
        (by decide : access freshSixteen 0 = some (false, sixteenAfterZero)))
      (by decide)⟩

end Cache205421
